import Mathlib

/-!
# go-oss/otp: HOTP / TOTP engines and the otpauth key-URI codec

A shallow embedding of `otp.go` and `uri.go`.

* Go strings and byte slices are lists of bytes (`Str`).
* `uint64`, `uint32`, `int64` and `int` values are `Nat` / `Int`, with the
  wrap-around of the machine type written out where the code can overflow.
* A Go function that can panic returns `Except Panic _`; a Go function that
  returns `(_, error)` returns `Except Error _`.
* The HMAC function of the standard library is a parameter (`Lib.hmac`).
* Engine construction is parametric in the base32 decoder and in the Unicode
  branch of `strings.ToUpper` (`Codec`); `DecodeString` models the decoder of
  `encoding/base32` (Go 1.22).
* The functions of `strings`, `strconv`, `fmt`, `math` and `net/url` that the
  code calls are modelled after their Go 1.22 sources (a query is cut at `&`
  only, as since Go 1.17); `int` is 64 bits wide.
-/

set_option maxRecDepth 100000

namespace Otp

/-! ## Bytes and strings -/

/-- A Go byte. -/
abbrev Byte := Fin 256

/-- A Go string or byte slice: its bytes in order. -/
abbrev Str := List Byte

/-- The byte of a character of an ASCII literal. -/
def chr (c : Char) : Byte := Fin.ofNat c.toNat

/-- The bytes of an ASCII string literal of the source. -/
def lit (s : String) : Str := s.toList.map chr

deriving instance DecidableEq for Except

/-! ## otp.go: engine state -/

/-- The three hash constructors `KeyURI.hash` can return. -/
inductive Alg where
  | sha1
  | sha256
  | sha512
  deriving DecidableEq, Repr

/-- Output size in bytes of the hash (sha1.Size, sha256.Size, sha512.Size). -/
def Alg.size : Alg → Nat
  | .sha1 => 20
  | .sha256 => 32
  | .sha512 => 64

/-- Run-time panics the engine code can raise. -/
inductive Panic where
  | nilDereference
  | indexOutOfRange
  | divideByZero
  deriving DecidableEq, Repr

/-- What the engines take from the Go standard library and runtime and this
development leaves open: the HMAC function (`hmac.New(h, key)`, `Write(msg)`,
`Sum(nil)`), and the value of the conversion `uint32(math.Pow10(n))` for
`n ≥ 10`, where `10^n` does not fit 32 bits and Go leaves the result of the
conversion implementation-dependent. -/
structure Lib where
  hmac : Alg → Str → Str → Str
  pow10Overflow : Int → Nat

/-- The struct `HOTP`. The field `hash` is `none` for a nil `func() hash.Hash`. -/
structure HOTP where
  secret : Str
  hash : Option Alg
  digits : Int
  counter : Nat
  deriving DecidableEq, Repr

/-- The struct `TOTP`. -/
structure TOTP where
  hotp : HOTP
  period : Int
  deriving DecidableEq, Repr

/-! ## otp.go: the HOTP computation -/

/-- Byte `i` (0 = most significant) of the 8-byte big-endian encoding. -/
def beByte (cnt : Nat) (i : Nat) : Byte := Fin.ofNat (cnt >>> (8 * (7 - i)))

/-- `HOTP.itob`: `binary.BigEndian.PutUint64` into a fresh 8-byte slice. -/
def HOTP.itob (cnt : Nat) : Str :=
  [beByte cnt 0, beByte cnt 1, beByte cnt 2, beByte cnt 3,
   beByte cnt 4, beByte cnt 5, beByte cnt 6, beByte cnt 7]

/-- `binary.BigEndian.Uint32` of a 4-byte slice:
`b[3] | b[2]<<8 | b[1]<<16 | b[0]<<24`. -/
def beUint32 : Str → Nat
  | [b0, b1, b2, b3] => b3.val ||| b2.val <<< 8 ||| b1.val <<< 16 ||| b0.val <<< 24
  | _ => 0

/-- `uint32(math.Pow10(n))`. `math.Pow10(n)` is exactly `10^n` for
`0 ≤ n ≤ 9`, which fits 32 bits; for `n < 0` it lies strictly between 0 and 1
(or is 0) and the conversion truncates it to 0; for `n ≥ 10` it is larger than
every uint32 and the conversion is implementation-dependent. -/
def pow10u32 (L : Lib) (n : Int) : Nat :=
  if n < 0 then 0
  else if n ≤ 9 then 10 ^ n.toNat
  else L.pow10Overflow n % 2 ^ 32

/-- `HOTP.truncate` (RFC 4226 section 5.4). Panics: indexing `mac[len(mac)-1]`
on an empty MAC, slicing `mac[offset:offset+4]` past the end (the capacity of
the slice is taken to be its length), and the integer remainder by zero. -/
def HOTP.truncate (L : Lib) (p : HOTP) (mac : Str) : Except Panic Nat :=
  match mac.getLast? with
  | none => .error .indexOutOfRange
  | some last =>
    let offset := last.val &&& 0xf
    if offset + 4 ≤ mac.length then
      let code := beUint32 ((mac.drop offset).take 4) &&& 0x7FFFFFFF
      let m := pow10u32 L p.digits
      if m = 0 then .error .divideByZero else .ok (code % m)
    else .error .indexOutOfRange

/-- The ASCII digit of `d < 10`. -/
def digitByte (d : Nat) : Byte := Fin.ofNat (48 + d % 10)

/-- The loop of strconv's `formatBits` for base 10:
`for u >= 10 { i--; a[i] = u%10 + '0'; u /= 10 }; i--; a[i] = u + '0'`,
writing in front of `acc`. The loop runs at most `fuel` times. -/
def formatBitsLoop : Nat → Nat → Str → Str
  | 0, u, acc => digitByte u :: acc
  | fuel + 1, u, acc =>
    if u < 10 then digitByte u :: acc
    else formatBitsLoop fuel (u / 10) (digitByte (u % 10) :: acc)

/-- `strconv.FormatUint(u, 10)`: the decimal digits of `u`. The loop divides
`u` by 10 each round, so `u` rounds are always enough. -/
def formatUint (u : Nat) : Str := formatBitsLoop u u []

/-- `strconv.Itoa(n)` / `strconv.FormatInt(n, 10)`. -/
def Itoa (n : Int) : Str :=
  if n < 0 then chr '-' :: formatUint n.natAbs else formatUint n.natAbs

/-- The result of `fmt.Sprintf("%0<digits>d", code)` for a uint32 `code`,
where the format string is what `fmt.Sprintf("%%0%dd", digits)` produced.
fmt reads `0` (and, for negative `digits`, `-`) as flags and the following
decimal number as the width:
* `digits ≥ 1`: zero flag and width `digits`: the decimal digits of `code`
  left-padded with `0` to `digits` characters;
* `digits = 0`: the format is `%00d`, two zero flags and no width: the decimal
  digits of `code`;
* `digits < 0`: the minus flag cancels the zero flag: the decimal digits of
  `code` right-padded with spaces to `-digits` characters;
* fmt's `parsenum` gives up once the number read so far exceeds 10^6 and
  another digit follows; the output then is `%!(NOVERB)` followed by the
  unused argument. -/
def HOTP.format (p : HOTP) (code : Nat) : Str :=
  let s := formatUint code
  if p.digits.natAbs / 10 > 1000000 then
    lit "%!(NOVERB)%!(EXTRA uint32=" ++ s ++ lit ")"
  else if p.digits < 0 then
    s ++ List.replicate (p.digits.natAbs - s.length) (chr ' ')
  else
    List.replicate (p.digits.natAbs - s.length) (chr '0') ++ s

/-- `HOTP.generate`. `hmac.New` calls the hash constructor, which panics when
it is nil. The error result of the Go function is always nil (`hash.Hash.Write`
never returns an error) and is left out. -/
def HOTP.generate (L : Lib) (p : HOTP) (cnt : Nat) : Except Panic Str :=
  match p.hash with
  | none => .error .nilDereference
  | some h =>
    let mac := L.hmac h p.secret (HOTP.itob cnt)
    match p.truncate L mac with
    | .error e => .error e
    | .ok code => .ok (p.format code)

/-- `HOTP.Generate`: the outcome and the engine after the call. The counter is
assigned before `generate` runs, so it is stored whatever the outcome. -/
def HOTP.Generate (L : Lib) (p : HOTP) (count : Nat) : Except Panic Str × HOTP :=
  let p1 := { p with counter := count }
  (p1.generate L count, p1)

/-- `HOTP.Next`: `p.counter++` on a uint64 wraps at 2^64. -/
def HOTP.Next (L : Lib) (p : HOTP) : Except Panic Str × HOTP :=
  let p1 := { p with counter := (p.counter + 1) % 2 ^ 64 }
  (p1.generate L p1.counter, p1)

/-! ## otp.go: the TOTP computation

A `time.Time` enters the code only through `t.Unix()`, an int64, and
`time.Unix(exp, 0)` is determined by `exp`; times are modelled by their Unix
seconds. -/

/-- Wrap-around of an int64 result. -/
def wrapInt64 (x : Int) : Int := (x + 2 ^ 63) % 2 ^ 64 - 2 ^ 63

/-- Conversion `uint64(x)` of an int64. -/
def toUint64 (x : Int) : Nat := (x % 2 ^ 64).toNat

/-- `TOTP.Generate`. Go's `/` on int64 truncates toward zero and panics on a
zero divisor. -/
def TOTP.Generate (L : Lib) (p : TOTP) (ts : Int) : Except Panic Str :=
  if p.period = 0 then .error .divideByZero
  else p.hotp.generate L (toUint64 (wrapInt64 (Int.tdiv ts p.period)))

/-- `TOTP.Expires`, as the Unix seconds of the returned time. Go's `%` on
int64 takes the sign of the dividend and panics on a zero divisor; `+` and `-`
wrap. -/
def TOTP.Expires (p : TOTP) (ts : Int) : Except Panic Int :=
  if p.period = 0 then .error .divideByZero
  else .ok (wrapInt64 (wrapInt64 (ts + p.period) - Int.tmod ts p.period))

/-! ## Errors -/

/-- The two causes of a `*strconv.NumError`: `invalid` is `ErrSyntax`, `range`
is `ErrRange`. -/
inductive NumErr where
  | invalid
  | range
  deriving DecidableEq, Repr

/-- The causes of a `*url.Error` returned by `url.Parse`. -/
inductive UrlErr where
  | invalidControlCharacter
  | missingProtocolScheme
  | firstPathSegmentColon
  | invalidUserinfo
  | missingBracket
  | invalidPort (port : Str)
  | escape (s : Str)
  | invalidHost (s : Str)
  deriving DecidableEq, Repr

/-- The error values `ParseKeyURI` can return: the five package-level sentinel
errors of `uri.go`, a `*strconv.NumError` (function name, input, cause) and a
`*url.Error` (operation, input, cause). -/
inductive Error where
  | ErrInvalidScheme
  | ErrInvalidOTPType
  | ErrEmptySecret
  | ErrInvalidAlgorithm
  | ErrEmptyCounter
  | num (fn : Str) (input : Str) (err : NumErr)
  | url (op : Str) (input : Str) (err : UrlErr)
  deriving DecidableEq, Repr

/-! ## Package strings -/

/-- `strings.Cut(s, sep)` for a one-byte separator: the text before and after
the first `sep`, and whether `sep` occurs. -/
def cut (sep : Byte) : Str → Str × Str × Bool
  | [] => ([], [], false)
  | c :: cs =>
    if c = sep then ([], cs, true)
    else
      let r := cut sep cs
      (c :: r.1, r.2.1, r.2.2)

/-- `strings.SplitN(s, sep, 2)` for a one-byte separator. -/
def splitN2 (sep : Byte) (s : Str) : List Str :=
  let r := cut sep s
  if r.2.2 then [r.1, r.2.1] else [s]

/-- `strings.TrimPrefix`. -/
def trimPrefix (s pre : Str) : Str :=
  if pre.isPrefixOf s then s.drop pre.length else s

/-- The UTF-8 encodings of the code points for which `unicode.IsSpace` holds:
U+0009..U+000D, U+0020, U+0085, U+00A0, U+1680, U+2000..U+200A, U+2028,
U+2029, U+202F, U+205F, U+3000. -/
def spaceRunes : List Str :=
  [[9], [10], [11], [12], [13], [32], [0xC2, 0x85], [0xC2, 0xA0], [0xE1, 0x9A, 0x80],
   [0xE2, 0x80, 0x80], [0xE2, 0x80, 0x81], [0xE2, 0x80, 0x82], [0xE2, 0x80, 0x83],
   [0xE2, 0x80, 0x84], [0xE2, 0x80, 0x85], [0xE2, 0x80, 0x86], [0xE2, 0x80, 0x87],
   [0xE2, 0x80, 0x88], [0xE2, 0x80, 0x89], [0xE2, 0x80, 0x8A], [0xE2, 0x80, 0xA8],
   [0xE2, 0x80, 0xA9], [0xE2, 0x80, 0xAF], [0xE2, 0x81, 0x9F], [0xE3, 0x80, 0x80]]

/-- Length of the first of `runes` that `s` starts with, 0 if it starts with
none of them. -/
def leadingRune (runes : List Str) (s : Str) : Nat :=
  match runes.find? (fun r => r.isPrefixOf s) with
  | some r => r.length
  | none => 0

/-- Remove leading `runes` from `s`, at most `fuel` of them. -/
def trimLeftRunes (runes : List Str) : Nat → Str → Str
  | 0, s => s
  | fuel + 1, s =>
    if leadingRune runes s = 0 then s
    else trimLeftRunes runes fuel (s.drop (leadingRune runes s))

/-- `strings.TrimSpace`: white-space runes are removed from both ends.
`utf8.DecodeRuneInString` yields a rune exactly when the string starts with
its UTF-8 encoding and `utf8.DecodeLastRuneInString` exactly when it ends with
it, so the left end is trimmed against the encodings and the right end, on the
reversed string, against the reversed encodings. Every rune removed is at
least one byte, so `len(s)` rounds are enough. -/
def TrimSpace (s : Str) : Str :=
  let l := trimLeftRunes spaceRunes s.length s
  (trimLeftRunes (spaceRunes.map List.reverse) l.length l.reverse).reverse

/-- ASCII `strings.ToLower` (the argument of `url.Parse` is a scheme, which
`getScheme` restricts to ASCII letters, digits, `+`, `-` and `.`). -/
def toLowerASCII (s : Str) : Str :=
  s.map (fun c => if 65 ≤ c.val ∧ c.val ≤ 90 then Fin.ofNat (c.val + 32) else c)

/-! ## Package strconv -/

/-- The digit loop of `strconv.ParseUint(s, 10, 64)`: a byte that is not a
decimal digit is a syntax error; `n >= cutoff` (with
`cutoff = maxUint64/10 + 1`) or an overflowing `n*10 + d` is a range error. -/
def parseUintLoop (fn s0 : Str) : Nat → Str → Except Error Nat
  | n, [] => .ok n
  | n, c :: cs =>
    if 48 ≤ c.val ∧ c.val ≤ 57 then
      if n ≥ (2 ^ 64 - 1) / 10 + 1 then .error (.num fn s0 .range)
      else if n * 10 + (c.val - 48) ≥ 2 ^ 64 then .error (.num fn s0 .range)
      else parseUintLoop fn s0 (n * 10 + (c.val - 48)) cs
    else .error (.num fn s0 .invalid)

/-- `strconv.ParseUint(s, 10, 64)`. -/
def ParseUint (s : Str) : Except Error Nat :=
  if s = [] then .error (.num (lit "ParseUint") s .invalid)
  else parseUintLoop (lit "ParseUint") s 0 s

/-- The part of `strconv.Atoi` after the sign: the digits are read as by
`ParseUint` and the value is checked against 2^63 as in `ParseInt`. The
`NumError` names `Atoi` and the whole input `s`. -/
def atoiBody (s : Str) (neg : Bool) (body : Str) : Except Error Int :=
  if body = [] then .error (.num (lit "Atoi") s .invalid)
  else
    match parseUintLoop (lit "Atoi") s 0 body with
    | .error e => .error e
    | .ok un =>
      if (!neg && decide (un ≥ 2 ^ 63)) || (neg && decide (un > 2 ^ 63)) then
        .error (.num (lit "Atoi") s .range)
      else .ok (if neg then -(un : Int) else (un : Int))

/-- `strconv.Atoi(s)` with a 64-bit `int`: an optional sign, then
`atoiBody`. (The fast path of `Atoi` for short inputs computes the same
result.) -/
def Atoi (s : Str) : Except Error Int :=
  match s with
  | [] => .error (.num (lit "Atoi") s .invalid)
  | c :: cs =>
    if c = chr '+' then atoiBody s false cs
    else if c = chr '-' then atoiBody s true cs
    else atoiBody s false s

/-! ## Package net/url -/

/-- The escaping modes of net/url. -/
inductive Encoding where
  | path
  | pathSegment
  | host
  | zone
  | userPassword
  | queryComponent
  | fragment
  deriving DecidableEq, Repr

/-- ASCII letters and digits. -/
def isAlnum (c : Byte) : Bool :=
  (97 ≤ c.val && c.val ≤ 122) || (65 ≤ c.val && c.val ≤ 90) || (48 ≤ c.val && c.val ≤ 57)

/-- `shouldEscape` of net/url. The byte lists are, in order: the characters
`! $ & ' ( ) * + , ; = : [ ] < > "` a host may hold, the unreserved marks
`- _ . ~`, the reserved characters `$ & + , / : ; = ? @`, and for each mode
the reserved characters it escapes. -/
def shouldEscape (c : Byte) (mode : Encoding) : Bool :=
  if isAlnum c then false
  else if (mode = .host ∨ mode = .zone) ∧
      c ∈ ([33, 36, 38, 39, 40, 41, 42, 43, 44, 59, 61, 58, 91, 93, 60, 62, 34] : Str) then false
  else if c ∈ lit "-_.~" then false
  else if c ∈ lit "$&+,/:;=?@" then
    match mode with
    | .path => c = chr '?'
    | .pathSegment => c ∈ lit "/;,?"
    | .userPassword => c ∈ lit "@/?:"
    | .queryComponent => true
    | .fragment => false
    | .host => true
    | .zone => true
  else if mode = .fragment ∧ c ∈ lit "!()*" then false
  else true

/-- `ishex`. -/
def ishex (c : Byte) : Bool :=
  (48 ≤ c.val && c.val ≤ 57) || (97 ≤ c.val && c.val ≤ 102) || (65 ≤ c.val && c.val ≤ 70)

/-- `unhex`. -/
def unhex (c : Byte) : Nat :=
  if 48 ≤ c.val ∧ c.val ≤ 57 then c.val - 48
  else if 97 ≤ c.val ∧ c.val ≤ 102 then c.val - 97 + 10
  else if 65 ≤ c.val ∧ c.val ≤ 70 then c.val - 65 + 10
  else 0

/-- `upperhex[i]` for the table `"0123456789ABCDEF"`. -/
def upperhex (i : Nat) : Byte := (lit "0123456789ABCDEF").getD i 0

/-- `escape(s, mode)` of net/url: a space becomes `+` in a query component,
every other byte that `shouldEscape` becomes `%XX`. -/
def escape (s : Str) (mode : Encoding) : Str :=
  s.flatMap (fun c =>
    if shouldEscape c mode then
      if c = chr ' ' ∧ mode = .queryComponent then [chr '+']
      else [chr '%', upperhex (c.val >>> 4), upperhex (c.val &&& 15)]
    else [c])

/-- `unescape(s, mode)` of net/url. Go validates the whole string first and
decodes afterwards; the result is the first error in reading order or the
decoded string, which is what this single pass returns. -/
def unescape (mode : Encoding) : Str → Except UrlErr Str
  | [] => .ok []
  | c :: rest =>
    if c = chr '%' then
      match rest with
      | h1 :: h2 :: rest2 =>
        if ishex h1 ∧ ishex h2 then
          let v := unhex h1 <<< 4 ||| unhex h2
          if mode = .host ∧ unhex h1 < 8 ∧ [c, h1, h2] ≠ lit "%25" then
            .error (.escape [c, h1, h2])
          else if mode = .zone ∧ [c, h1, h2] ≠ lit "%25" ∧ v ≠ 32 ∧
              shouldEscape (Fin.ofNat v) .host then
            .error (.escape [c, h1, h2])
          else
            match unescape mode rest2 with
            | .ok t => .ok (Fin.ofNat v :: t)
            | .error e => .error e
        else .error (.escape ((c :: rest).take 3))
      | _ => .error (.escape ((c :: rest).take 3))
    else if c = chr '+' then
      match unescape mode rest with
      | .ok t => .ok ((if mode = .queryComponent then chr ' ' else chr '+') :: t)
      | .error e => .error e
    else if (mode = .host ∨ mode = .zone) ∧ c.val < 128 ∧ shouldEscape c .host then
      .error (.invalidHost [c])
    else
      match unescape mode rest with
      | .ok t => .ok (c :: t)
      | .error e => .error e

/-- `url.QueryEscape`. -/
def QueryEscape (s : Str) : Str := escape s .queryComponent

/-- `url.QueryUnescape`. -/
def QueryUnescape (s : Str) : Except UrlErr Str := unescape .queryComponent s

/-- `validEncoded(s, mode)` of net/url; the listed bytes are
`! $ & ' ( ) * + , ; = : @`, then `[ ]`, then `%`. -/
def validEncoded (s : Str) (mode : Encoding) : Bool :=
  s.all (fun c =>
    if c ∈ ([33, 36, 38, 39, 40, 41, 42, 43, 44, 59, 61, 58, 64] : Str) then true
    else if c ∈ lit "[]" then true
    else if c = chr '%' then true
    else !shouldEscape c mode)

/-- The struct `url.Userinfo`. -/
structure Userinfo where
  username : Str
  password : Str
  passwordSet : Bool
  deriving DecidableEq, Repr

/-- The struct `url.URL`. -/
structure URL where
  Scheme : Str := []
  Opaque : Str := []
  User : Option Userinfo := none
  Host : Str := []
  Path : Str := []
  RawPath : Str := []
  OmitHost : Bool := false
  ForceQuery : Bool := false
  RawQuery : Str := []
  Fragment : Str := []
  RawFragment : Str := []
  deriving DecidableEq, Repr

/-- `Userinfo.String`. -/
def Userinfo.String (u : Userinfo) : Str :=
  escape u.username .userPassword ++
    (if u.passwordSet then chr ':' :: escape u.password .userPassword else [])

/-- `URL.EscapedPath`. -/
def URL.EscapedPath (u : URL) : Str :=
  if u.RawPath ≠ [] ∧ validEncoded u.RawPath .path ∧ unescape .path u.RawPath = .ok u.Path then
    u.RawPath
  else if u.Path = lit "*" then lit "*"
  else escape u.Path .path

/-- `URL.EscapedFragment`. -/
def URL.EscapedFragment (u : URL) : Str :=
  if u.RawFragment ≠ [] ∧ validEncoded u.RawFragment .fragment ∧
      unescape .fragment u.RawFragment = .ok u.Fragment then
    u.RawFragment
  else escape u.Fragment .fragment

/-- `URL.String`. -/
def URL.String (u : URL) : Str :=
  let b1 := if u.Scheme ≠ [] then u.Scheme ++ lit ":" else []
  let b2 :=
    if u.Opaque ≠ [] then b1 ++ u.Opaque
    else
      let b :=
        if u.Scheme ≠ [] ∨ u.Host ≠ [] ∨ u.User ≠ none then
          if u.OmitHost ∧ u.Host = [] ∧ u.User = none then b1
          else
            b1 ++ (if u.Host ≠ [] ∨ u.Path ≠ [] ∨ u.User ≠ none then lit "//" else [])
              ++ (match u.User with
                  | some ui => ui.String ++ lit "@"
                  | none => [])
              ++ (if u.Host ≠ [] then escape u.Host .host else [])
        else b1
      let path := u.EscapedPath
      let b := if path ≠ [] ∧ path.head? ≠ some (chr '/') ∧ u.Host ≠ [] then b ++ lit "/" else b
      let b := if b = [] ∧ chr ':' ∈ (cut (chr '/') path).1 then b ++ lit "./" else b
      b ++ path
  let b3 := if u.ForceQuery ∨ u.RawQuery ≠ [] then b2 ++ lit "?" ++ u.RawQuery else b2
  if u.Fragment ≠ [] then b3 ++ lit "#" ++ u.EscapedFragment else b3

/-- The loop of `getScheme` of net/url at index `i`, on the remaining bytes. -/
def getSchemeLoop (rawURL : Str) : Nat → Str → Except UrlErr (Str × Str)
  | _, [] => .ok ([], rawURL)
  | i, c :: cs =>
    if (97 ≤ c.val ∧ c.val ≤ 122) ∨ (65 ≤ c.val ∧ c.val ≤ 90) then getSchemeLoop rawURL (i + 1) cs
    else if (48 ≤ c.val ∧ c.val ≤ 57) ∨ c = chr '+' ∨ c = chr '-' ∨ c = chr '.' then
      if i = 0 then .ok ([], rawURL) else getSchemeLoop rawURL (i + 1) cs
    else if c = chr ':' then
      if i = 0 then .error .missingProtocolScheme else .ok (rawURL.take i, cs)
    else .ok ([], rawURL)

/-- `getScheme` of net/url: the scheme and the rest after its colon. -/
def getScheme (rawURL : Str) : Except UrlErr (Str × Str) := getSchemeLoop rawURL 0 rawURL

/-- `strings.LastIndex(s, sep)` for a one-byte separator. -/
def lastIndex (sep : Byte) : Str → Option Nat
  | [] => none
  | c :: cs =>
    match lastIndex sep cs with
    | some i => some (i + 1)
    | none => if c = sep then some 0 else none

/-- `strings.Index(s, pat)`. -/
def indexOf (pat : Str) : Str → Option Nat
  | [] => if pat = [] then some 0 else none
  | c :: cs =>
    if pat.isPrefixOf (c :: cs) then some 0
    else
      match indexOf pat cs with
      | some i => some (i + 1)
      | none => none

/-- `validOptionalPort` of net/url. -/
def validOptionalPort : Str → Bool
  | [] => true
  | c :: cs => c = chr ':' && cs.all (fun b => 48 ≤ b.val && b.val ≤ 57)

/-- `validUserinfo` of net/url; the listed bytes are
`- . _ : ~ ! $ & ' ( ) * + , ; = % @`. -/
def validUserinfo (s : Str) : Bool :=
  s.all (fun c => isAlnum c ||
    decide (c ∈ ([45, 46, 95, 58, 126, 33, 36, 38, 39, 40, 41, 42, 43, 44, 59, 61, 37, 64] : Str)))

/-- `parseHost` of net/url. -/
def parseHost (host : Str) : Except UrlErr Str :=
  if host.head? = some (chr '[') then
    match lastIndex (chr ']') host with
    | none => .error .missingBracket
    | some i =>
      if ¬ validOptionalPort (host.drop (i + 1)) then .error (.invalidPort (host.drop (i + 1)))
      else
        match indexOf (lit "%25") (host.take i) with
        | some zone =>
          match unescape .host (host.take zone) with
          | .error e => .error e
          | .ok host1 =>
            match unescape .zone ((host.take i).drop zone) with
            | .error e => .error e
            | .ok host2 =>
              match unescape .host (host.drop i) with
              | .error e => .error e
              | .ok host3 => .ok (host1 ++ host2 ++ host3)
        | none => unescape .host host
  else
    match lastIndex (chr ':') host with
    | some i =>
      if ¬ validOptionalPort (host.drop i) then .error (.invalidPort (host.drop i))
      else unescape .host host
    | none => unescape .host host

/-- `parseAuthority` of net/url. -/
def parseAuthority (authority : Str) : Except UrlErr (Option Userinfo × Str) :=
  match lastIndex (chr '@') authority with
  | none =>
    match parseHost authority with
    | .error e => .error e
    | .ok host => .ok (none, host)
  | some i =>
    match parseHost (authority.drop (i + 1)) with
    | .error e => .error e
    | .ok host =>
      let userinfo := authority.take i
      if ¬ validUserinfo userinfo then .error .invalidUserinfo
      else if chr ':' ∉ userinfo then
        match unescape .userPassword userinfo with
        | .error e => .error e
        | .ok u => .ok (some ⟨u, [], false⟩, host)
      else
        match unescape .userPassword (cut (chr ':') userinfo).1 with
        | .error e => .error e
        | .ok username =>
          match unescape .userPassword (cut (chr ':') userinfo).2.1 with
          | .error e => .error e
          | .ok password => .ok (some ⟨username, password, true⟩, host)

/-- `URL.setPath`. -/
def URL.setPath (u : URL) (p : Str) : Except UrlErr URL :=
  match unescape .path p with
  | .error e => .error e
  | .ok path =>
    .ok { u with Path := path, RawPath := if p = escape path .path then [] else p }

/-- `URL.setFragment`. -/
def URL.setFragment (u : URL) (f : Str) : Except UrlErr URL :=
  match unescape .fragment f with
  | .error e => .error e
  | .ok frag =>
    .ok { u with Fragment := frag, RawFragment := if f = escape frag .fragment then [] else f }

/-- `stringContainsCTLByte` of net/url. -/
def stringContainsCTLByte (s : Str) : Bool := s.any (fun b => b.val < 32 || b.val = 127)

/-- `parse(rawURL, false)` of net/url. -/
def parseRaw (rawURL : Str) : Except UrlErr URL :=
  if stringContainsCTLByte rawURL then .error .invalidControlCharacter
  else if rawURL = lit "*" then .ok { Path := lit "*" }
  else
    match getScheme rawURL with
    | .error e => .error e
    | .ok (scheme, rest0) =>
      let url : URL := { Scheme := toLowerASCII scheme }
      let forced : Bool := rest0.getLast? = some (chr '?') ∧ rest0.count (chr '?') = 1
      let rest := if forced then rest0.dropLast else (cut (chr '?') rest0).1
      let url := if forced then { url with ForceQuery := true }
        else { url with RawQuery := (cut (chr '?') rest0).2.1 }
      if rest.head? ≠ some (chr '/') ∧ url.Scheme ≠ [] then .ok { url with Opaque := rest }
      else if rest.head? ≠ some (chr '/') ∧ chr ':' ∈ (cut (chr '/') rest).1 then
        .error .firstPathSegmentColon
      else if (url.Scheme ≠ [] ∨ ¬ (lit "///").isPrefixOf rest) ∧ (lit "//").isPrefixOf rest then
        let authority := (cut (chr '/') (rest.drop 2)).1
        let rest2 := (rest.drop 2).drop authority.length
        match parseAuthority authority with
        | .error e => .error e
        | .ok (user, host) => URL.setPath { url with User := user, Host := host } rest2
      else if url.Scheme ≠ [] ∧ rest.head? = some (chr '/') then
        URL.setPath { url with OmitHost := true } rest
      else URL.setPath url rest

/-- `url.Parse`. -/
def urlParse (rawURL : Str) : Except Error URL :=
  let u := (cut (chr '#') rawURL).1
  let frag := (cut (chr '#') rawURL).2.1
  match parseRaw u with
  | .error e => .error (.url (lit "parse") u e)
  | .ok url =>
    if frag = [] then .ok url
    else
      match url.setFragment frag with
      | .error e => .error (.url (lit "parse") rawURL e)
      | .ok url2 => .ok url2

/-- The type `url.Values`, a map from keys to value lists, as the list of
key/value pairs in the order the values were added. -/
abbrev Values := List (Str × Str)

/-- `Values.Get`: the first value of the key, or the empty string. -/
def Values.Get (v : Values) (key : Str) : Str :=
  match v.find? (fun kv => kv.1 = key) with
  | some kv => kv.2
  | none => []

/-- `Values.Set`: the key gets the single value. -/
def Values.Set (v : Values) (key value : Str) : Values :=
  v.filter (fun kv => kv.1 ≠ key) ++ [(key, value)]

/-- Byte-wise lexicographic order of Go strings. -/
def strLt : Str → Str → Bool
  | [], [] => false
  | [], _ :: _ => true
  | _ :: _, [] => false
  | a :: as, b :: bs => a.val < b.val || (a = b && strLt as bs)

/-- Insert a key into a sorted list of distinct keys. -/
def insertKey (k : Str) : List Str → List Str
  | [] => [k]
  | h :: t => if k = h then h :: t else if strLt k h then k :: h :: t else h :: insertKey k t

/-- The keys of the map, sorted (`slices.Sort(keys)`). -/
def Values.sortedKeys (v : Values) : List Str := v.foldr (fun kv acc => insertKey kv.1 acc) []

/-- The key/value pairs in the order `Values.Encode` writes them: by sorted
key, the values of one key in the order they were added. -/
def Values.sortedPairs (v : Values) : Values :=
  v.sortedKeys.flatMap (fun k => v.filter (fun kv => kv.1 = k))

/-- `Values.Encode`: `key=value` pairs, both query-escaped, joined by `&`. -/
def Values.Encode (v : Values) : Str :=
  List.intercalate (lit "&")
    (v.sortedPairs.map (fun kv => QueryEscape kv.1 ++ lit "=" ++ QueryEscape kv.2))

/-- The pieces of `s` between occurrences of `sep`. -/
def splitAll (sep : Byte) : Str → List Str
  | [] => [[]]
  | c :: cs =>
    if c = sep then [] :: splitAll sep cs
    else
      match splitAll sep cs with
      | h :: t => (c :: h) :: t
      | [] => [[c]]

/-- `URL.Query`: `ParseQuery(u.RawQuery)` with its error dropped. `parseQuery`
cuts the query at each `&`; a piece that contains `;`, is empty, or whose key
or value does not unescape is skipped; a piece is cut at its first `=`. -/
def URL.Query (u : URL) : Values :=
  (splitAll (chr '&') u.RawQuery).filterMap (fun piece =>
    if chr ';' ∈ piece then none
    else if piece = [] then none
    else
      match QueryUnescape (cut (chr '=') piece).1, QueryUnescape (cut (chr '=') piece).2.1 with
      | .ok key, .ok value => some (key, value)
      | _, _ => none)

/-! ## uri.go -/

/-- The constant `totpType`. -/
def totpType : Str := lit "totp"

/-- The constant `hotpType`. -/
def hotpType : Str := lit "hotp"

/-- `otpType.valid`. -/
def otpType.valid (t : Str) : Bool := t = totpType ∨ t = hotpType

/-- The struct `KeyURI`. -/
structure KeyURI where
  typ : Str := []
  user : Str := []
  secret : Str := []
  algorithm : Str := []
  digits : Int := 0
  period : Int := 0
  counter : Nat := 0
  issuer : Str := []
  deriving DecidableEq, Repr

/-- `KeyURI.hash`; `none` is the nil constructor of the default case. -/
def KeyURI.hash (k : KeyURI) : Option Alg :=
  if k.algorithm = lit "SHA1" then some .sha1
  else if k.algorithm = lit "SHA256" then some .sha256
  else if k.algorithm = lit "SHA512" then some .sha512
  else none

/-- `KeyURI.parseUser`; its error result is always nil. `SplitN` with n = 2
returns one or two pieces, so `p[len(p)-1]` exists. -/
def KeyURI.parseUser (k : KeyURI) (path : Str) : KeyURI :=
  { k with user := TrimSpace ((splitN2 (chr ':') (trimPrefix path (lit "/"))).getLastD []) }

/-- `KeyURI.parseParams`, the `secret` block. -/
def KeyURI.parseSecret (k : KeyURI) (q : Values) : Except Error KeyURI :=
  if q.Get (lit "secret") ≠ [] then .ok { k with secret := q.Get (lit "secret") }
  else .error .ErrEmptySecret

/-- `KeyURI.parseParams`, the `algorithm` block. -/
def KeyURI.parseAlgorithm (k : KeyURI) (q : Values) : Except Error KeyURI :=
  if q.Get (lit "algorithm") ≠ [] then
    if KeyURI.hash { k with algorithm := q.Get (lit "algorithm") } = none then
      .error .ErrInvalidAlgorithm
    else .ok { k with algorithm := q.Get (lit "algorithm") }
  else .ok k

/-- `KeyURI.parseParams`, the `issuer` block. -/
def KeyURI.parseIssuer (k : KeyURI) (q : Values) : KeyURI :=
  if q.Get (lit "issuer") ≠ [] then { k with issuer := q.Get (lit "issuer") } else k

/-- `KeyURI.parseParams`, the `digits` block. -/
def KeyURI.parseDigits (k : KeyURI) (q : Values) : Except Error KeyURI :=
  if q.Get (lit "digits") ≠ [] then
    match Atoi (q.Get (lit "digits")) with
    | .error e => .error e
    | .ok n => .ok { k with digits := n }
  else .ok k

/-- `KeyURI.parseParams`, the `switch k.typ` block. -/
def KeyURI.parseTyped (k : KeyURI) (q : Values) : Except Error KeyURI :=
  if k.typ = totpType then
    if q.Get (lit "period") ≠ [] then
      match Atoi (q.Get (lit "period")) with
      | .error e => .error e
      | .ok n => .ok { k with period := n }
    else .ok k
  else if k.typ = hotpType then
    if q.Get (lit "counter") ≠ [] then
      match ParseUint (q.Get (lit "counter")) with
      | .error e => .error e
      | .ok n => .ok { k with counter := n }
    else .error .ErrEmptyCounter
  else .ok k

/-- `KeyURI.parseParams`: its blocks in order, the first error returned. -/
def KeyURI.parseParams (k : KeyURI) (q : Values) : Except Error KeyURI :=
  match k.parseSecret q with
  | .error e => .error e
  | .ok k1 =>
    match k1.parseAlgorithm q with
    | .error e => .error e
    | .ok k2 =>
      match (k2.parseIssuer q).parseDigits q with
      | .error e => .error e
      | .ok k4 => k4.parseTyped q

/-- `ParseKeyURI`. -/
def ParseKeyURI (uri : Str) : Except Error KeyURI :=
  match urlParse uri with
  | .error e => .error e
  | .ok u =>
    if u.Scheme ≠ lit "otpauth" then .error .ErrInvalidScheme
    else
      let otp : KeyURI := { typ := u.Host, algorithm := lit "SHA1", digits := 6 }
      if ¬ otpType.valid otp.typ then .error .ErrInvalidOTPType
      else
        let otp1 := if otp.typ = totpType then { otp with period := 30 } else otp
        (otp1.parseUser u.Path).parseParams u.Query

/-- `KeyURI.String`. -/
def KeyURI.String (k : KeyURI) : Str :=
  let uri : URL :=
    { Scheme := lit "otpauth", Host := k.typ, Path := k.user, RawPath := QueryEscape k.user }
  let v : Values := []
  let v := v.Set (lit "secret") k.secret
  let v := v.Set (lit "algorithm") k.algorithm
  let v := v.Set (lit "digits") (Itoa k.digits)
  let v := if k.typ = totpType then v.Set (lit "period") (Itoa k.period)
    else if k.typ = hotpType then v.Set (lit "counter") (formatUint k.counter)
    else v
  let v := if k.issuer ≠ [] then v.Set (lit "issuer") k.issuer else v
  URL.String { uri with RawQuery := v.Encode }

/-! ## uri.go and otp.go: engine construction -/

/-- The type `base32.CorruptInputError`: the offset of the first illegal byte. -/
abbrev CorruptInputError := Int

/-- What engine construction takes from the Go standard library: the decoder
`base32.StdEncoding.WithPadding(base32.NoPadding).DecodeString`, which
`DecodeString` below models and `goCodec` plugs in, and `strings.ToUpper` on a
string with a non-ASCII byte, which is `strings.Map(unicode.ToUpper, s)`,
depends on the Unicode tables and is left open. -/
structure Codec where
  decodeBase32 : Str → Except CorruptInputError Str
  toUpperUnicode : Str → Str

/-- The upper-case byte of an ASCII lower-case letter, other bytes unchanged
(`c -= 'a' - 'A'` in `strings.ToUpper`). -/
def upperByte (c : Byte) : Byte :=
  if 97 ≤ c.val ∧ c.val ≤ 122 then Fin.ofNat (c.val - 32) else c

/-- `strings.ToUpper`: a string of ASCII bytes only has its lower-case letters
replaced; any other string goes through `strings.Map(unicode.ToUpper, s)`. -/
def ToUpper (C : Codec) (s : Str) : Str :=
  if s.all (fun c => decide (c.val < 128)) then s.map upperByte else C.toUpperUnicode s

/-- `KeyURI.secretBytes`. -/
def KeyURI.secretBytes (C : Codec) (k : KeyURI) : Except CorruptInputError Str :=
  match C.decodeBase32 (ToUpper C k.secret) with
  | .error err => .error err
  | .ok s => .ok s

/-- `NewHOTP`. -/
def NewHOTP (C : Codec) (uri : KeyURI) : Except CorruptInputError HOTP :=
  match uri.secretBytes C with
  | .error err => .error err
  | .ok s => .ok { secret := s, hash := uri.hash, digits := uri.digits, counter := uri.counter }

/-- `NewTOTP`; `int64(uri.period)` of a 64-bit `int` is the same number. -/
def NewTOTP (C : Codec) (uri : KeyURI) : Except CorruptInputError TOTP :=
  match NewHOTP C uri with
  | .error err => .error err
  | .ok hotp => .ok { hotp := hotp, period := uri.period }

/-! ## encoding/base32: `StdEncoding.WithPadding(NoPadding).DecodeString`

Modelled after the Go 1.22 source of `encoding/base32`. -/

/-- `stripNewlines`: the input without its `\r` and `\n` bytes. -/
def stripNewlines (src : Str) : Str :=
  src.filter (fun b => decide (b.val ≠ 13 ∧ b.val ≠ 10))

/-- The table `decodeMap` of `StdEncoding`: the value of a character of the
alphabet `A`..`Z`, `2`..`7`, and 0xFF for every other byte. -/
def decodeMap (c : Byte) : Nat :=
  if 65 ≤ c.val ∧ c.val ≤ 90 then c.val - 65
  else if 50 ≤ c.val ∧ c.val ≤ 55 then c.val - 50 + 26
  else 0xFF

/-- The check of the bytes after a padding character (`for k := 0; k < 8-1-j;
k++`): the first `k` below `m`, counted from `k`, at which `src` has a byte
other than the padding character. -/
def badPadding : Nat → Nat → Str → Option Nat
  | 0, _, _ => none
  | _ + 1, _, [] => none
  | m + 1, k, b :: src => if b.val ≠ 0xFF then some k else badPadding m (k + 1) src

/-- The inner loop `for j := 0; j < 8;` of `decode`, with `n = 8 - j` rounds to
go and `dbuf` holding the `j` values read so far. The result is the values
read (`dlen` of them), the flag `end` and the rest of the input. With
`NoPadding` the padding character `byte(enc.padChar)` is `byte(-1)`, the byte
0xFF. `olen` is the length of the whole input. -/
def readQuantum (olen : Nat) : Nat → List Nat → Str →
    Except CorruptInputError (List Nat × Bool × Str)
  | 0, dbuf, src => .ok (dbuf, false, src)
  | _ + 1, dbuf, [] => .ok (dbuf, true, [])
  | n + 1, dbuf, c :: src =>
    if c.val = 0xFF ∧ dbuf.length ≥ 2 ∧ src.length < 8 then
      if src.length + dbuf.length < 8 - 1 then .error (olen : Int)
      else
        match badPadding (8 - 1 - dbuf.length) 0 src with
        | some k => .error ((olen : Int) - src.length + k - 1)
        | none =>
          if dbuf.length = 1 ∨ dbuf.length = 3 ∨ dbuf.length = 6 then
            .error ((olen : Int) - src.length - 1)
          else .ok (dbuf, true, src)
    else if decodeMap c = 0xFF then .error ((olen : Int) - src.length - 1)
    else readQuantum olen n (dbuf ++ [decodeMap c]) src

/-- The `switch dlen` of `decode`: the bytes a quantum of `dlen` values gives,
5 for 8 values, 4 for 7, 3 for 5, 2 for 4, 1 for 2, none otherwise. The array
`dbuf` is zero beyond the values read, and the shifts are on bytes. -/
def packQuantum (dbuf : List Nat) : Str :=
  let d := fun i => dbuf.getD i 0
  let dst : Str :=
    [Fin.ofNat (d 0 <<< 3 ||| d 1 >>> 2),
     Fin.ofNat (d 1 <<< 6 ||| d 2 <<< 1 ||| d 3 >>> 4),
     Fin.ofNat (d 3 <<< 4 ||| d 4 >>> 1),
     Fin.ofNat (d 4 <<< 7 ||| d 5 <<< 2 ||| d 6 >>> 3),
     Fin.ofNat (d 6 <<< 5 ||| d 7)]
  dst.take
    (if dbuf.length = 8 then 5 else if dbuf.length = 7 then 4 else if dbuf.length = 5 then 3
     else if dbuf.length = 4 then 2 else if dbuf.length = 2 then 1 else 0)

/-- The outer loop `for len(src) > 0 && !end` of `decode`; every round reads
at least one byte, so `fuel = len(src)` rounds are enough. -/
def decodeLoop (olen : Nat) : Nat → Str → Except CorruptInputError Str
  | 0, _ => .ok []
  | fuel + 1, src =>
    if src = [] then .ok []
    else
      match readQuantum olen 8 [] src with
      | .error err => .error err
      | .ok (dbuf, fin, rest) =>
        if fin then .ok (packQuantum dbuf)
        else
          match decodeLoop olen fuel rest with
          | .error err => .error err
          | .ok out => .ok (packQuantum dbuf ++ out)

/-- `DecodeString` of the unpadded standard encoding: strip the newlines, then
`decode`; the bytes decoded before an error are dropped with it. -/
def DecodeString (s : Str) : Except CorruptInputError Str :=
  decodeLoop (stripNewlines s).length (stripNewlines s).length (stripNewlines s)

/-- Engine construction with the decoder of `encoding/base32`; the Unicode
branch of `strings.ToUpper` stays a parameter. -/
def goCodec (toUpperUnicode : Str → Str) : Codec where
  decodeBase32 := DecodeString
  toUpperUnicode := toUpperUnicode

/-! ## Definitions used to state the properties -/

/-- A byte that cannot end or split a URL path: not `?`, not `#`, not a
control byte. -/
def pathSafe (b : Byte) : Prop := b ≠ chr '?' ∧ b ≠ chr '#' ∧ ¬ (b.val < 32 ∨ b.val = 127)

/-- A byte that cannot end or split a query component. -/
def querySafe (b : Byte) : Prop :=
  pathSafe b ∧ b ≠ chr '&' ∧ b ≠ chr '=' ∧ b ≠ chr ';' ∧ b ≠ chr '/'

/-- The query parameters of `KeyURI.String` for a totp or hotp KeyURI, in
ascending key order: algorithm, counter (hotp), digits, issuer (if not empty),
period (totp), secret. -/
def KeyURI.queryPairs (k : KeyURI) : Values :=
  [(lit "algorithm", k.algorithm)]
    ++ (if k.typ = hotpType then [(lit "counter", formatUint k.counter)] else [])
    ++ [(lit "digits", Itoa k.digits)]
    ++ (if k.issuer ≠ [] then [(lit "issuer", k.issuer)] else [])
    ++ (if k.typ = totpType then [(lit "period", Itoa k.period)] else [])
    ++ [(lit "secret", k.secret)]

/-- The path part of `KeyURI.String`: the escaped label, after a slash unless
it is empty or starts with one. -/
def KeyURI.pathPart (k : KeyURI) : Str :=
  let ep := URL.EscapedPath { Path := k.user, RawPath := QueryEscape k.user }
  if ep ≠ [] ∧ ep.head? ≠ some (chr '/') then chr '/' :: ep else ep

/-- The totp KeyURI of `TestKeyURI_String`. -/
def sampleTOTPKey : KeyURI :=
  { typ := totpType, user := lit "test@example.com",
    secret := lit "4ezxc3dfa4y645bdxbdebbzzb733xdwfzda56zdda5fd4zcdaczx",
    algorithm := lit "SHA256", digits := 8, period := 15, issuer := lit "Example" }

/-- The hotp KeyURI of `TestKeyURI_String`. -/
def sampleHOTPKey : KeyURI :=
  { typ := hotpType, user := lit "test@example.com",
    secret := lit "4ezxc3dfa4y645bdxbdebbzzb733xdwfzda56zdda5fd4zcdaczx",
    algorithm := lit "SHA256", digits := 8, counter := 1, issuer := lit "Example" }

/-- The number a string of ASCII decimal digits denotes. -/
def decVal (s : Str) : Nat := s.foldl (fun a b => a * 10 + (b.val - 48)) 0

/-- The number an 8-byte big-endian slice denotes. -/
def beVal (s : Str) : Nat := s.foldl (fun a b => a * 256 + b.val) 0

/-- A stand-in for the standard library, used to evaluate the definitions on
concrete inputs: the MAC is the first `size` bytes of message, key and zero
padding; an out-of-range `Pow10` converts to 0. -/
def sampleLib : Lib where
  hmac := fun h key msg => (msg ++ key ++ List.replicate h.size 0).take h.size
  pow10Overflow := fun _ => 0

/-- An engine for evaluating the definitions: SHA1, 6 digits, counter 0. -/
def sampleHOTP : HOTP := { secret := lit "key", hash := some .sha1, digits := 6, counter := 0 }

/-- The label as section 4.1 of the specification words it: the path minus
one leading slash; if that contains a colon, what follows the first colon;
trimmed. -/
def specLabelFirstColon (path : Str) : Str :=
  let rest := if path.head? = some (chr '/') then path.drop 1 else path
  if chr ':' ∈ rest then TrimSpace ((rest.dropWhile (fun c => c ≠ chr ':')).drop 1)
  else TrimSpace rest

/-- The label as section 3 of the specification words it: the portion (of the
path minus one leading slash) after the last colon, trimmed. -/
def specLabelLastColon (path : Str) : Str :=
  let rest := if path.head? = some (chr '/') then path.drop 1 else path
  TrimSpace (rest.reverse.takeWhile (fun c => c ≠ chr ':')).reverse

/-- Two strings differ only in the case of ASCII letters. -/
def sameUpToCase (s1 s2 : Str) : Prop := s1.map upperByte = s2.map upperByte

instance (s1 s2 : Str) : Decidable (sameUpToCase s1 s2) :=
  inferInstanceAs (Decidable (s1.map upperByte = s2.map upperByte))

/-- A character of the RFC 4648 base32 alphabet `A`..`Z`, `2`..`7`. -/
def base32Alphabet (c : Byte) : Prop :=
  (65 ≤ c.val ∧ c.val ≤ 90) ∨ (50 ≤ c.val ∧ c.val ≤ 55)

instance (c : Byte) : Decidable (base32Alphabet c) :=
  inferInstanceAs (Decidable ((65 ≤ c.val ∧ c.val ≤ 90) ∨ (50 ≤ c.val ∧ c.val ≤ 55)))

/-- Valid unpadded RFC 4648 base32, as the specification words the condition:
every character is of the alphabet, and the length is one an encoder produces
(a final group of 2, 4, 5 or 7 characters, or none). -/
def specValidBase32 (s : Str) : Prop :=
  (∀ c ∈ s, base32Alphabet c) ∧ s.length % 8 ∈ [0, 2, 4, 5, 7]

instance (s : Str) : Decidable (specValidBase32 s) :=
  inferInstanceAs (Decidable ((∀ c ∈ s, base32Alphabet c) ∧ s.length % 8 ∈ [0, 2, 4, 5, 7]))

/-- Engine construction with ASCII upper-casing for every string, used to
evaluate the definitions on concrete inputs. -/
def sampleCodec : Codec := goCodec (fun s => s.map upperByte)

/-- The counter `TOTP.Generate` hands to `generate`: the expression
`uint64(ts / p.period)` for a non-zero period. -/
def TOTP.counterAt (p : TOTP) (ts : Int) : Nat :=
  toUint64 (wrapInt64 (Int.tdiv ts p.period))

end Otp

namespace Otp

/-! ## Arithmetic of the HOTP computation -/

theorem or_shiftLeft_eq (x b k : Nat) (hx : x < 2 ^ k) :
    x ||| b <<< k = 2 ^ k * b + x := by
  rw [Nat.shiftLeft_eq, Nat.or_comm, Nat.mul_comm, Nat.mul_add_lt_is_or hx]

theorem beUint32_eq (b0 b1 b2 b3 : Byte) :
    beUint32 [b0, b1, b2, b3]
      = b0.val * 2 ^ 24 + b1.val * 2 ^ 16 + b2.val * 2 ^ 8 + b3.val := by
  have h0 := b0.isLt
  have h1 := b1.isLt
  have h2 := b2.isLt
  have h3 := b3.isLt
  simp only [beUint32]
  rw [or_shiftLeft_eq _ _ 8 (by omega), or_shiftLeft_eq _ _ 16 (by omega),
    or_shiftLeft_eq _ _ 24 (by omega)]
  omega

theorem take_four_drop (l : Str) (o : Nat) (h : o + 4 ≤ l.length) :
    (l.drop o).take 4 = [l.getD o 0, l.getD (o + 1) 0, l.getD (o + 2) 0, l.getD (o + 3) 0] := by
  induction o generalizing l with
  | zero =>
    match l, h with
    | a :: b :: c :: d :: t, _ => simp
  | succ n ih =>
    match l, h with
    | a :: t, h =>
      have h1 : n + 4 ≤ t.length := by simpa using h
      simpa [Nat.add_right_comm] using ih t h1

theorem pow10u32_of_range (L : Lib) (n : Int) (h0 : 0 ≤ n) (h9 : n ≤ 9) :
    pow10u32 L n = 10 ^ n.toNat := by
  unfold pow10u32
  rw [if_neg (by omega), if_pos h9]

/-! ## Decimal formatting -/

theorem formatBitsLoop_eq (u : Nat) :
    ∀ fuel acc, u ≤ fuel → formatBitsLoop fuel u acc = formatBitsLoop u u [] ++ acc := by
  induction u using Nat.strong_induction_on with
  | _ u ih =>
    intro fuel acc hf
    by_cases hu : u < 10
    · have e1 : ∀ f a, formatBitsLoop f u a = digitByte u :: a := by
        intro f a
        cases f with
        | zero => rfl
        | succ f => simp [formatBitsLoop, hu]
      rw [e1, e1]
      rfl
    · obtain ⟨f, rfl⟩ : ∃ f, fuel = f + 1 := ⟨fuel - 1, by omega⟩
      obtain ⟨v, hv⟩ : ∃ v, u = v + 1 := ⟨u - 1, by omega⟩
      have hlt : u / 10 < u := by omega
      have s1 : formatBitsLoop (f + 1) u acc
          = formatBitsLoop f (u / 10) (digitByte (u % 10) :: acc) := by
        simp [formatBitsLoop, hu]
      have s2 : formatBitsLoop u u []
          = formatBitsLoop v (u / 10) [digitByte (u % 10)] := by
        conv => lhs; arg 1; rw [hv]
        simp [formatBitsLoop, hu]
      rw [s1, s2, ih (u / 10) hlt f _ (by omega), ih (u / 10) hlt v _ (by omega)]
      simp

theorem formatUint_lt (u : Nat) (h : u < 10) : formatUint u = [digitByte u] := by
  unfold formatUint
  cases u with
  | zero => rfl
  | succ u => simp [formatBitsLoop, h]

theorem formatUint_ge (u : Nat) (h : ¬ u < 10) :
    formatUint u = formatUint (u / 10) ++ [digitByte (u % 10)] := by
  obtain ⟨v, hv⟩ : ∃ v, u = v + 1 := ⟨u - 1, by omega⟩
  have s2 : formatUint u = formatBitsLoop v (u / 10) [digitByte (u % 10)] := by
    unfold formatUint
    conv => lhs; arg 1; rw [hv]
    simp [formatBitsLoop, h]
  rw [s2, formatBitsLoop_eq (u / 10) v _ (by omega)]
  rfl

theorem digitByte_val (d : Nat) : (digitByte d).val = 48 + d % 10 := by
  unfold digitByte
  simp [Fin.ofNat]
  omega

theorem decVal_append_single (s : Str) (b : Byte) :
    decVal (s ++ [b]) = decVal s * 10 + (b.val - 48) := by
  simp [decVal]

theorem decVal_formatUint (u : Nat) : decVal (formatUint u) = u := by
  induction u using Nat.strong_induction_on with
  | _ u ih =>
    by_cases hu : u < 10
    · rw [formatUint_lt u hu]
      simp [decVal, digitByte_val]
      omega
    · rw [formatUint_ge u hu, decVal_append_single, ih (u / 10) (by omega), digitByte_val]
      omega

theorem formatUint_digits (u : Nat) : ∀ b ∈ formatUint u, 48 ≤ b.val ∧ b.val ≤ 57 := by
  induction u using Nat.strong_induction_on with
  | _ u ih =>
    by_cases hu : u < 10
    · rw [formatUint_lt u hu]
      intro b hb
      simp at hb
      subst hb
      rw [digitByte_val]
      omega
    · rw [formatUint_ge u hu]
      intro b hb
      rcases List.mem_append.1 hb with h | h
      · exact ih (u / 10) (by omega) b h
      · simp at h
        subst h
        rw [digitByte_val]
        omega

theorem formatUint_length_pos (u : Nat) : 1 ≤ (formatUint u).length := by
  by_cases hu : u < 10
  · rw [formatUint_lt u hu]
    simp
  · rw [formatUint_ge u hu]
    simp

theorem formatUint_length_le (d : Nat) : ∀ u, u < 10 ^ (d + 1) → (formatUint u).length ≤ d + 1 := by
  induction d with
  | zero =>
    intro u h
    rw [formatUint_lt u (by simpa using h)]
    simp
  | succ d ih =>
    intro u h
    by_cases hu : u < 10
    · rw [formatUint_lt u hu]
      simp
    · rw [formatUint_ge u hu]
      have : u / 10 < 10 ^ (d + 1) := by
        rw [Nat.div_lt_iff_lt_mul (by norm_num)]
        rw [pow_succ] at h
        exact h
      have := ih (u / 10) this
      simp
      omega

theorem decVal_replicate_zero (k : Nat) (s : Str) :
    decVal (List.replicate k (chr '0') ++ s) = decVal s := by
  induction k with
  | zero => simp
  | succ k ih =>
    have e : decVal (List.replicate (k + 1) (chr '0') ++ s)
        = decVal (List.replicate k (chr '0') ++ s) := by
      simp only [List.replicate_succ, decVal, List.cons_append, List.foldl_cons]
      rfl
    rw [e, ih]

/-! ## HOTP engine -/

theorem beByte_val (c i : Nat) : (beByte c i).val = c / 2 ^ (8 * (7 - i)) % 256 := by
  simp [beByte, Fin.ofNat, Nat.shiftRight_eq_div_pow]

theorem beVal_itob (c : Nat) : beVal (HOTP.itob c) = c % 2 ^ 64 := by
  have d2 : c / 2 ^ 16 = c / 256 / 256 := by
    simp only [Nat.div_div_eq_div_mul]
    norm_num
  have d3 : c / 2 ^ 24 = c / 256 / 256 / 256 := by
    simp only [Nat.div_div_eq_div_mul]
    norm_num
  have d4 : c / 2 ^ 32 = c / 256 / 256 / 256 / 256 := by
    simp only [Nat.div_div_eq_div_mul]
    norm_num
  have d5 : c / 2 ^ 40 = c / 256 / 256 / 256 / 256 / 256 := by
    simp only [Nat.div_div_eq_div_mul]
    norm_num
  have d6 : c / 2 ^ 48 = c / 256 / 256 / 256 / 256 / 256 / 256 := by
    simp only [Nat.div_div_eq_div_mul]
    norm_num
  have d7 : c / 2 ^ 56 = c / 256 / 256 / 256 / 256 / 256 / 256 / 256 := by
    simp only [Nat.div_div_eq_div_mul]
    norm_num
  have d8 : c / 2 ^ 64 = c / 256 / 256 / 256 / 256 / 256 / 256 / 256 / 256 := by
    simp only [Nat.div_div_eq_div_mul]
    norm_num
  have hm : c % 2 ^ 64 = c - 2 ^ 64 * (c / 2 ^ 64) := by
    have := Nat.div_add_mod c (2 ^ 64)
    omega
  unfold beVal HOTP.itob
  simp only [List.foldl_cons, List.foldl_nil]
  rw [beByte_val, beByte_val, beByte_val, beByte_val, beByte_val, beByte_val, beByte_val,
    beByte_val, hm, d8]
  show (((((((0 * 256 + c / 2 ^ 56 % 256) * 256 + c / 2 ^ 48 % 256) * 256
    + c / 2 ^ 40 % 256) * 256 + c / 2 ^ 32 % 256) * 256 + c / 2 ^ 24 % 256) * 256
    + c / 2 ^ 16 % 256) * 256 + c / 2 ^ 8 % 256) * 256 + c / 2 ^ 0 % 256 = _
  rw [d7, d6, d5, d4, d3, d2]
  omega

theorem generate_counter_irrelevant (L : Lib) (p : HOTP) (n c : Nat) :
    HOTP.generate L { p with counter := n } c = HOTP.generate L p c := rfl

theorem truncate_value (L : Lib) (p : HOTP) (mac : Str)
    (hlen : 20 ≤ mac.length) (h0 : 0 ≤ p.digits) (h9 : p.digits ≤ 9) :
    HOTP.truncate L p mac
      = .ok ((((mac.getD ((mac.getLastD 0).val % 16) 0).val * 2 ^ 24
          + (mac.getD ((mac.getLastD 0).val % 16 + 1) 0).val * 2 ^ 16
          + (mac.getD ((mac.getLastD 0).val % 16 + 2) 0).val * 2 ^ 8
          + (mac.getD ((mac.getLastD 0).val % 16 + 3) 0).val) % 2 ^ 31)
          % 10 ^ p.digits.toNat) := by
  cases hl : mac.getLast? with
  | none =>
    rw [List.getLast?_eq_none_iff] at hl
    subst hl
    simp at hlen
  | some last =>
    have hD : mac.getLastD 0 = last := by
      rw [List.getLastD_eq_getLast?, hl]
      rfl
    have hand : last.val &&& 0xf = last.val % 16 := Nat.and_pow_two_sub_one_eq_mod last.val 4
    have hmask : ∀ x : Nat, x &&& 0x7FFFFFFF = x % 2 ^ 31 :=
      fun x => Nat.and_pow_two_sub_one_eq_mod x 31
    have ho : last.val % 16 + 4 ≤ mac.length := by omega
    have hpos : 0 < 10 ^ p.digits.toNat := Nat.pos_pow_of_pos _ (by norm_num)
    unfold HOTP.truncate
    simp only [hl, hand]
    rw [if_pos ho, take_four_drop mac _ ho, beUint32_eq, hmask,
      pow10u32_of_range L p.digits h0 h9, if_neg (by omega), hD]

/-- C1: for every HOTP engine and every count c, HOTP.Generate(c) gives the
outcome of the code computation for counter c, which is
format(truncate(HMAC(secret, itob c))) with itob c the 8-byte big-endian
encoding of c; the outcome does not depend on the counter stored before the
call; afterwards the stored counter is exactly c and secret, hash and digits
are unchanged; and with a hash constructor, a MAC of at least 20 bytes and
digits in 0..9 the outcome is a returned code. -/
theorem C1_Generate_returns_code_for_count (L : Lib) (p : HOTP) (c : Nat) :
    ((HOTP.itob c).length = 8 ∧ beVal (HOTP.itob c) = c % 2 ^ 64) ∧
    (∀ h, p.hash = some h →
      (p.Generate L c).1
        = (p.truncate L (L.hmac h p.secret (HOTP.itob c))).map p.format) ∧
    (∀ n, (HOTP.Generate L { p with counter := n } c).1 = (p.Generate L c).1) ∧
    ((p.Generate L c).2.counter = c ∧ (p.Generate L c).2.secret = p.secret ∧
      (p.Generate L c).2.hash = p.hash ∧ (p.Generate L c).2.digits = p.digits) ∧
    (∀ h, p.hash = some h → 20 ≤ (L.hmac h p.secret (HOTP.itob c)).length →
      0 ≤ p.digits → p.digits ≤ 9 → ∃ s, (p.Generate L c).1 = .ok s) := by
  have key : ∀ h, p.hash = some h →
      (p.Generate L c).1
        = (p.truncate L (L.hmac h p.secret (HOTP.itob c))).map p.format := by
    intro h hh
    obtain ⟨secret, hash, digits, counter⟩ := p
    simp only at hh
    subst hh
    show (match HOTP.truncate L ⟨secret, some h, digits, counter⟩
            (L.hmac h secret (HOTP.itob c)) with
          | Except.error e => Except.error e
          | Except.ok code =>
            (Except.ok (HOTP.format ⟨secret, some h, digits, counter⟩ code) :
              Except Panic Str)) = _
    cases HOTP.truncate L ⟨secret, some h, digits, counter⟩
      (L.hmac h secret (HOTP.itob c)) <;> rfl
  refine ⟨⟨rfl, beVal_itob c⟩, key, fun _ => rfl, ⟨rfl, rfl, rfl, rfl⟩, ?_⟩
  intro h hh hlen h0 h9
  rw [key h hh, truncate_value L p _ hlen h0 h9]
  exact ⟨_, rfl⟩

/-- C1 at a concrete engine: Generate(1) on the sample engine returns a code
and stores counter 1. -/
theorem C1_Generate_witness :
    (∃ s, (HOTP.Generate sampleLib sampleHOTP 1).1 = .ok s) ∧
    (HOTP.Generate sampleLib sampleHOTP 1).2.counter = 1 :=
  ⟨(C1_Generate_returns_code_for_count sampleLib sampleHOTP 1).2.2.2.2 .sha1 rfl
      (by decide) (by decide) (by decide),
   (C1_Generate_returns_code_for_count sampleLib sampleHOTP 1).2.2.2.1.1⟩

/-- C2: for every HOTP engine with stored counter c, HOTP.Next() returns the
same outcome and leaves the same engine as HOTP.Generate((c+1) mod 2^64): the
stored counter becomes c+1 and the outcome is the code computation for c+1.
Two successive Next() calls on an engine with counter 0 give the code
computation for counter 1 and then for counter 2. -/
theorem C2_Next_is_Generate_succ (L : Lib) (p : HOTP) :
    p.Next L = p.Generate L ((p.counter + 1) % 2 ^ 64) ∧
    (p.Next L).2.counter = (p.counter + 1) % 2 ^ 64 ∧
    (p.Next L).1 = p.generate L ((p.counter + 1) % 2 ^ 64) ∧
    (p.counter = 0 →
      (p.Next L).1 = p.generate L 1 ∧ (p.Next L).2.counter = 1 ∧
      ((p.Next L).2.Next L).1 = p.generate L 2 ∧ ((p.Next L).2.Next L).2.counter = 2) := by
  refine ⟨rfl, rfl, rfl, ?_⟩
  intro h0
  have e1 : (p.Next L).2.counter = 1 := by
    simp [HOTP.Next, h0]
  refine ⟨?_, e1, ?_, ?_⟩
  · simp [HOTP.Next, h0, generate_counter_irrelevant]
  · have : ((p.Next L).2.Next L).1 = HOTP.generate L (p.Next L).2 (((p.Next L).2.counter + 1) % 2 ^ 64) := rfl
    rw [this, e1]
    rfl
  · have : ((p.Next L).2.Next L).2.counter = ((p.Next L).2.counter + 1) % 2 ^ 64 := rfl
    rw [this, e1]
    rfl

/-- C2 at a concrete engine: from counter 0, Next() twice gives the codes of
counters 1 and 2. -/
theorem C2_Next_witness :
    (HOTP.Next sampleLib sampleHOTP).1 = HOTP.generate sampleLib sampleHOTP 1 ∧
    (HOTP.Next sampleLib (HOTP.Next sampleLib sampleHOTP).2).1
      = HOTP.generate sampleLib sampleHOTP 2 :=
  ⟨((C2_Next_is_Generate_succ sampleLib sampleHOTP).2.2.2 rfl).1,
   ((C2_Next_is_Generate_succ sampleLib sampleHOTP).2.2.2 rfl).2.2.1⟩

/-- C3: for every MAC of at least 20 bytes and every digits d with
1 ≤ d ≤ 9, with o the low 4 bits of the last byte, the bytes o..o+3 are inside
the MAC (o+4 ≤ 19 ≤ len) and HOTP.truncate returns
((mac[o]*2^24 + mac[o+1]*2^16 + mac[o+2]*2^8 + mac[o+3]) mod 2^31) mod 10^d,
a value strictly below 10^d. -/
theorem C3_truncate_dynamic_truncation (L : Lib) (p : HOTP) (mac : Str)
    (hlen : 20 ≤ mac.length) (h1 : 1 ≤ p.digits) (h9 : p.digits ≤ 9) :
    (mac.getLastD 0).val % 16 + 4 ≤ 19 ∧ 19 ≤ mac.length ∧
    (∃ v, HOTP.truncate L p mac = .ok v ∧
      v = (((mac.getD ((mac.getLastD 0).val % 16) 0).val * 2 ^ 24
          + (mac.getD ((mac.getLastD 0).val % 16 + 1) 0).val * 2 ^ 16
          + (mac.getD ((mac.getLastD 0).val % 16 + 2) 0).val * 2 ^ 8
          + (mac.getD ((mac.getLastD 0).val % 16 + 3) 0).val) % 2 ^ 31)
          % 10 ^ p.digits.toNat ∧
      v < 10 ^ p.digits.toNat) := by
  refine ⟨by omega, by omega, _, truncate_value L p mac hlen (by omega) h9, rfl, ?_⟩
  exact Nat.mod_lt _ (Nat.pos_pow_of_pos _ (by norm_num))

/-- C3 at a concrete MAC with 6 digits: the last byte 0x2f selects offset 15,
the four bytes there are 01 02 03 04, and 0x01020304 mod 10^6 = 909060. -/
theorem C3_truncate_witness :
    HOTP.truncate sampleLib sampleHOTP (List.replicate 15 0 ++ [1, 2, 3, 4, 47]) = .ok 909060 := by
  obtain ⟨_, _, v, hv, hval, _⟩ := C3_truncate_dynamic_truncation sampleLib sampleHOTP
    (List.replicate 15 0 ++ [1, 2, 3, 4, 47]) (by decide) (by decide) (by decide)
  rw [hv, hval]
  decide

/-- C4: for every digits d in 1..9 and every MAC of at least 20 bytes, the
code string format(truncate(mac)) has length exactly d, consists of ASCII
decimal digits only, is the decimal representation of the truncated value
left-padded with the character 0, and read back as a number gives the
truncated value. -/
theorem C4_format_zero_padded (L : Lib) (p : HOTP) (mac : Str)
    (hlen : 20 ≤ mac.length) (h1 : 1 ≤ p.digits) (h9 : p.digits ≤ 9) :
    ∃ v, HOTP.truncate L p mac = .ok v ∧
      (p.format v).length = p.digits.toNat ∧
      (∀ b ∈ p.format v, 48 ≤ b.val ∧ b.val ≤ 57) ∧
      p.format v
        = List.replicate (p.digits.toNat - (formatUint v).length) (chr '0') ++ formatUint v ∧
      decVal (formatUint v) = v ∧
      decVal (p.format v) = v := by
  obtain ⟨v, hv, hlt⟩ : ∃ v, HOTP.truncate L p mac = .ok v ∧ v < 10 ^ p.digits.toNat :=
    ⟨_, truncate_value L p mac hlen (by omega) h9,
      Nat.mod_lt _ (Nat.pos_pow_of_pos _ (by norm_num))⟩
  obtain ⟨d, hd⟩ : ∃ d, p.digits.toNat = d + 1 := ⟨p.digits.toNat - 1, by omega⟩
  have habs : p.digits.natAbs = p.digits.toNat := by omega
  have hfmt : p.format v
      = List.replicate (p.digits.toNat - (formatUint v).length) (chr '0') ++ formatUint v := by
    unfold HOTP.format
    simp only [habs]
    rw [if_neg (by omega), if_neg (by omega)]
  have hle : (formatUint v).length ≤ d + 1 := formatUint_length_le d v (by rw [← hd]; exact hlt)
  refine ⟨v, hv, ?_, ?_, hfmt, decVal_formatUint v, ?_⟩
  · rw [hfmt, List.length_append, List.length_replicate]
    omega
  · intro b hb
    rw [hfmt] at hb
    rcases List.mem_append.1 hb with h | h
    · rw [List.eq_of_mem_replicate h]
      decide
    · exact formatUint_digits v b h
  · rw [hfmt, decVal_replicate_zero, decVal_formatUint]

/-- C4 at a concrete MAC with 6 digits: the truncated value 3 is formatted as
000003. -/
theorem C4_format_witness :
    ∃ v, HOTP.truncate sampleLib sampleHOTP (List.replicate 18 0 ++ [3, 47]) = .ok v ∧
      sampleHOTP.format v = lit "000003" := by
  obtain ⟨v, hv, _, _, _, _, hdec⟩ := C4_format_zero_padded sampleLib sampleHOTP
    (List.replicate 18 0 ++ [3, 47]) (by decide) (by decide) (by decide)
  have h3 : HOTP.truncate sampleLib sampleHOTP (List.replicate 18 0 ++ [3, 47]) = .ok 3 := by
    decide
  rw [h3] at hv
  cases hv
  exact ⟨3, h3, by decide⟩

/-! ## TOTP engine -/

theorem wrapInt64_of_range (x : Int) (h0 : -2 ^ 63 ≤ x) (h1 : x < 2 ^ 63) : wrapInt64 x = x := by
  unfold wrapInt64
  omega

theorem tdiv_range (ts q : Int) (hq : 0 < q) (hlo : -2 ^ 63 ≤ ts) (hhi : ts < 2 ^ 63) :
    -2 ^ 63 ≤ Int.tdiv ts q ∧ Int.tdiv ts q < 2 ^ 63 := by
  rcases le_or_lt 0 ts with h | h
  · rw [Int.tdiv_eq_ediv h (le_of_lt hq)]
    have a := Int.ediv_le_self q h
    have b := Int.ediv_nonneg h (le_of_lt hq)
    omega
  · have e : Int.tdiv ts q = -((-ts) / q) := by
      have := Int.neg_tdiv (-ts) q
      rw [neg_neg] at this
      rw [this, Int.tdiv_eq_ediv (by omega) (le_of_lt hq)]
    have a := Int.ediv_le_self q (show 0 ≤ -ts by omega)
    have b := Int.ediv_nonneg (show 0 ≤ -ts by omega) (le_of_lt hq)
    omega

/-- C5 as stated fails before the epoch: with period 30 at Unix time -1 the
floor of -1/30 is -1, but the code divides toward zero and returns the code of
counter 0, which on the sample engine differs from the code of counter
uint64(-1). -/
theorem C5_floor_counterexample :
    (0 : Int) < 30 ∧ (-1 : Int) / 30 = -1 ∧
    TOTP.Generate sampleLib ⟨sampleHOTP, 30⟩ (-1) = HOTP.generate sampleLib sampleHOTP 0 ∧
    TOTP.Generate sampleLib ⟨sampleHOTP, 30⟩ (-1)
      ≠ HOTP.generate sampleLib sampleHOTP (toUint64 ((-1 : Int) / 30)) := by
  decide

/-- C5 (amended): for every time t (Unix seconds ts, an int64) and every TOTP
engine with period p > 0, TOTP.Generate(t) returns the HOTP code, computed
with the engine's secret, hash and digits, for the counter uint64(ts / p)
where the quotient is truncated toward zero; for ts ≥ 0 that counter is
floor(ts / p). -/
theorem C5_TOTP_Generate_counter (L : Lib) (p : TOTP) (ts : Int)
    (hp : 0 < p.period) (hlo : -2 ^ 63 ≤ ts) (hhi : ts < 2 ^ 63) :
    p.Generate L ts = p.hotp.generate L (toUint64 (Int.tdiv ts p.period)) ∧
    (0 ≤ ts → p.Generate L ts = p.hotp.generate L (ts / p.period).toNat) := by
  have hr := tdiv_range ts p.period hp hlo hhi
  have h1 : p.Generate L ts = p.hotp.generate L (toUint64 (Int.tdiv ts p.period)) := by
    unfold TOTP.Generate
    rw [if_neg (by omega), wrapInt64_of_range _ hr.1 hr.2]
  refine ⟨h1, fun h0 => ?_⟩
  rw [h1]
  have e : toUint64 (Int.tdiv ts p.period) = (ts / p.period).toNat := by
    rw [Int.tdiv_eq_ediv h0 (le_of_lt hp)]
    have a := Int.ediv_le_self p.period h0
    have b := Int.ediv_nonneg h0 (le_of_lt hp)
    unfold toUint64
    omega
  rw [e]

/-- C5 at period 30: time 0 gives the code of counter 0 and time 31 the code
of counter 1. -/
theorem C5_TOTP_Generate_witness :
    TOTP.Generate sampleLib ⟨sampleHOTP, 30⟩ 0 = HOTP.generate sampleLib sampleHOTP 0 ∧
    TOTP.Generate sampleLib ⟨sampleHOTP, 30⟩ 31 = HOTP.generate sampleLib sampleHOTP 1 :=
  ⟨(C5_TOTP_Generate_counter sampleLib ⟨sampleHOTP, 30⟩ 0 (by decide) (by decide)
      (by decide)).2 (by decide),
   (C5_TOTP_Generate_counter sampleLib ⟨sampleHOTP, 30⟩ 31 (by decide) (by decide)
      (by decide)).2 (by decide)⟩

/-- C6 as stated fails before the epoch: with period 30 at Unix time -1,
Expires is Unix time 30, which is 31 seconds later, more than the period. -/
theorem C6_before_epoch_counterexample :
    (0 : Int) < 30 ∧ TOTP.Expires ⟨sampleHOTP, 30⟩ (-1) = .ok 30 ∧
    ¬ ((30 : Int) - (-1) ≤ 30) := by
  decide

/-- C6 (amended): for every time t with Unix seconds ts ≥ 0 and every TOTP
engine with period p > 0 for which ts + p - ts mod p fits an int64, the Unix
seconds e of TOTP.Expires(t) satisfy 1 ≤ e - ts ≤ p and e mod p = 0. -/
theorem C6_Expires_within_period (p : TOTP) (ts : Int)
    (hp : 0 < p.period) (h0 : 0 ≤ ts) (hov : ts + p.period - ts % p.period < 2 ^ 63) :
    ∃ e, p.Expires ts = .ok e ∧ 1 ≤ e - ts ∧ e - ts ≤ p.period ∧ e % p.period = 0 := by
  have m0 := Int.emod_nonneg ts (ne_of_gt hp)
  have m1 := Int.emod_lt_of_pos ts hp
  have hw : wrapInt64 (wrapInt64 (ts + p.period) - Int.tmod ts p.period)
      = ts + p.period - ts % p.period := by
    rw [Int.tmod_eq_emod h0 (le_of_lt hp)]
    unfold wrapInt64
    omega
  refine ⟨ts + p.period - ts % p.period, ?_, by omega, by omega, ?_⟩
  · unfold TOTP.Expires
    rw [if_neg (by omega), hw]
  · have e : ts + p.period - ts % p.period = p.period * (ts / p.period + 1) := by
      have := Int.ediv_add_emod ts p.period
      rw [mul_add, mul_one]
      omega
    rw [e, Int.mul_emod_right]

/-- C6 at period 30: Expires at time 31 is Unix time 60. -/
theorem C6_Expires_witness :
    ∃ e, TOTP.Expires ⟨sampleHOTP, 30⟩ 31 = .ok e ∧ 1 ≤ e - 31 ∧ e - 31 ≤ 30 ∧ e % 30 = 0 :=
  C6_Expires_within_period ⟨sampleHOTP, 30⟩ 31 (by decide) (by decide) (by decide)

/-! ## Key URI parser: error results -/

theorem parseUintLoop_error (fn s0 : Str) :
    ∀ (s : Str) (n : Nat) (e : Error), parseUintLoop fn s0 n s = .error e →
      e = .num fn s0 .invalid ∨ e = .num fn s0 .range := by
  intro s
  induction s with
  | nil =>
    intro n e h
    simp [parseUintLoop] at h
  | cons c cs ih =>
    intro n e h
    unfold parseUintLoop at h
    split_ifs at h with h1 h2 h3
    · right
      cases h
      rfl
    · right
      cases h
      rfl
    · exact ih _ e h
    · left
      cases h
      rfl

theorem ParseUint_error (s : Str) (e : Error) (h : ParseUint s = .error e) :
    ∃ ne, e = .num (lit "ParseUint") s ne := by
  unfold ParseUint at h
  split_ifs at h with h1
  · cases h
    exact ⟨_, rfl⟩
  · rcases parseUintLoop_error _ _ _ _ _ h with h | h
    · exact ⟨_, h⟩
    · exact ⟨_, h⟩

theorem atoiBody_error (s : Str) (neg : Bool) (body : Str) (e : Error)
    (h : atoiBody s neg body = .error e) : ∃ ne, e = .num (lit "Atoi") s ne := by
  unfold atoiBody at h
  by_cases h1 : body = []
  · rw [if_pos h1] at h
    cases h
    exact ⟨_, rfl⟩
  · rw [if_neg h1] at h
    cases hp : parseUintLoop (lit "Atoi") s 0 body with
    | error e2 =>
      rw [hp] at h
      cases h
      rcases parseUintLoop_error _ _ _ _ _ hp with h | h
      · exact ⟨_, h⟩
      · exact ⟨_, h⟩
    | ok un =>
      rw [hp] at h
      simp only at h
      by_cases h2 : ((!neg && decide (un ≥ 2 ^ 63)) || (neg && decide (un > 2 ^ 63))) = true
      · rw [if_pos h2] at h
        cases h
        exact ⟨_, rfl⟩
      · rw [if_neg h2] at h
        cases h

theorem Atoi_error (s : Str) (e : Error) (h : Atoi s = .error e) :
    ∃ ne, e = .num (lit "Atoi") s ne := by
  unfold Atoi at h
  split at h
  · cases h
    exact ⟨_, rfl⟩
  · split_ifs at h
    · exact atoiBody_error _ _ _ _ h
    · exact atoiBody_error _ _ _ _ h
    · exact atoiBody_error _ _ _ _ h

theorem parseSecret_cases (k : KeyURI) (q : Values) :
    (q.Get (lit "secret") = [] ∧ k.parseSecret q = .error .ErrEmptySecret) ∨
    (q.Get (lit "secret") ≠ [] ∧
      k.parseSecret q = .ok { k with secret := q.Get (lit "secret") }) := by
  unfold KeyURI.parseSecret
  by_cases h : q.Get (lit "secret") = []
  · left
    exact ⟨h, by rw [if_neg (not_not.2 h)]⟩
  · right
    exact ⟨h, by rw [if_pos h]⟩

theorem parseAlgorithm_error (k : KeyURI) (q : Values) (e : Error)
    (h : k.parseAlgorithm q = .error e) : e = .ErrInvalidAlgorithm := by
  unfold KeyURI.parseAlgorithm at h
  split_ifs at h
  cases h
  rfl

theorem parseAlgorithm_typ (k k2 : KeyURI) (q : Values) (h : k.parseAlgorithm q = .ok k2) :
    k2.typ = k.typ := by
  unfold KeyURI.parseAlgorithm at h
  split_ifs at h <;> cases h <;> rfl

theorem parseIssuer_typ (k : KeyURI) (q : Values) : (k.parseIssuer q).typ = k.typ := by
  unfold KeyURI.parseIssuer
  split_ifs <;> rfl

theorem parseDigits_error (k : KeyURI) (q : Values) (e : Error)
    (h : k.parseDigits q = .error e) : ∃ fn s ne, e = .num fn s ne := by
  unfold KeyURI.parseDigits at h
  split_ifs at h
  cases ha : Atoi (q.Get (lit "digits")) with
  | error e2 =>
    rw [ha] at h
    cases h
    obtain ⟨ne, hne⟩ := Atoi_error _ _ ha
    exact ⟨_, _, ne, hne⟩
  | ok n =>
    rw [ha] at h
    cases h

theorem parseDigits_typ (k k2 : KeyURI) (q : Values) (h : k.parseDigits q = .ok k2) :
    k2.typ = k.typ := by
  unfold KeyURI.parseDigits at h
  split_ifs at h
  · cases ha : Atoi (q.Get (lit "digits")) with
    | error e2 =>
      rw [ha] at h
      cases h
    | ok n =>
      rw [ha] at h
      cases h
      rfl
  · cases h
    rfl

theorem parseTyped_error (k : KeyURI) (q : Values) (e : Error)
    (h : k.parseTyped q = .error e) :
    (e = .ErrEmptyCounter ∧ k.typ = hotpType) ∨ ∃ fn s ne, e = .num fn s ne := by
  unfold KeyURI.parseTyped at h
  split_ifs at h with h1 h2 h3 h4
  · cases ha : Atoi (q.Get (lit "period")) with
    | error e2 =>
      rw [ha] at h
      cases h
      obtain ⟨ne, hne⟩ := Atoi_error _ _ ha
      exact Or.inr ⟨_, _, ne, hne⟩
    | ok n =>
      rw [ha] at h
      cases h
  · cases ha : ParseUint (q.Get (lit "counter")) with
    | error e2 =>
      rw [ha] at h
      cases h
      obtain ⟨ne, hne⟩ := ParseUint_error _ _ ha
      exact Or.inr ⟨_, _, ne, hne⟩
    | ok n =>
      rw [ha] at h
      cases h
  · cases h
    exact Or.inl ⟨rfl, h3⟩

/-- The errors `parseParams` can return. -/
theorem parseParams_error (k : KeyURI) (q : Values) (e : Error)
    (h : k.parseParams q = .error e) :
    e = .ErrEmptySecret ∨ e = .ErrInvalidAlgorithm ∨ (e = .ErrEmptyCounter ∧ k.typ = hotpType) ∨
      ∃ fn s ne, e = .num fn s ne := by
  unfold KeyURI.parseParams at h
  rcases parseSecret_cases k q with ⟨_, h1⟩ | ⟨_, h1⟩
  · rw [h1] at h
    cases h
    exact Or.inl rfl
  · rw [h1] at h
    simp only at h
    cases h2 : KeyURI.parseAlgorithm { k with secret := q.Get (lit "secret") } q with
    | error e2 =>
      rw [h2] at h
      cases h
      exact Or.inr (Or.inl (parseAlgorithm_error _ _ _ h2))
    | ok k2 =>
      rw [h2] at h
      simp only at h
      cases h3 : (k2.parseIssuer q).parseDigits q with
      | error e3 =>
        rw [h3] at h
        cases h
        exact Or.inr (Or.inr (Or.inr (parseDigits_error _ _ _ h3)))
      | ok k4 =>
        rw [h3] at h
        simp only at h
        rcases parseTyped_error _ _ _ h with ⟨he, ht⟩ | hn
        · have t4 : k4.typ = k.typ := by
            rw [parseDigits_typ _ _ _ h3, parseIssuer_typ, parseAlgorithm_typ _ _ _ h2]
          exact Or.inr (Or.inr (Or.inl ⟨he, by rw [← t4]; exact ht⟩))
        · exact Or.inr (Or.inr (Or.inr hn))

theorem parseUser_typ (k : KeyURI) (path : Str) : (k.parseUser path).typ = k.typ := rfl

/-- `ParseKeyURI` after a successful `url.Parse` with the right scheme and a
valid type: the defaults, `parseUser`, `parseParams`. -/
theorem ParseKeyURI_of_parse (uri : Str) (u : URL) (hu : urlParse uri = .ok u)
    (hs : u.Scheme = lit "otpauth") (ht : u.Host = totpType ∨ u.Host = hotpType) :
    ParseKeyURI uri
      = (KeyURI.parseUser
          { typ := u.Host, algorithm := lit "SHA1", digits := 6,
            period := if u.Host = totpType then 30 else 0 } u.Path).parseParams u.Query := by
  unfold ParseKeyURI
  rw [hu]
  simp only
  rw [if_neg (not_not.2 hs)]
  have hv : otpType.valid u.Host = true := by
    unfold otpType.valid
    simpa using ht
  rw [if_neg (by simp [hv])]
  by_cases h : u.Host = totpType
  · simp only [h, if_true]
  · simp only [h, if_false]

/-- C9: for every URI string that parses as a URL, ParseKeyURI returns
ErrInvalidScheme if and only if the scheme is not otpauth, whatever host, path
and query are, and returns ErrInvalidOTPType if and only if the scheme is
otpauth and the host is not exactly totp or hotp, compared byte for byte. -/
theorem C9_scheme_and_type_errors (uri : Str) (u : URL) (hu : urlParse uri = .ok u) :
    (ParseKeyURI uri = .error .ErrInvalidScheme ↔ u.Scheme ≠ lit "otpauth") ∧
    (ParseKeyURI uri = .error .ErrInvalidOTPType ↔
      u.Scheme = lit "otpauth" ∧ u.Host ≠ lit "totp" ∧ u.Host ≠ lit "hotp") := by
  by_cases hs : u.Scheme = lit "otpauth"
  · by_cases ht : u.Host = totpType ∨ u.Host = hotpType
    · have hp := ParseKeyURI_of_parse uri u hu hs ht
      have hno : ∀ e, ParseKeyURI uri = .error e →
          e ≠ .ErrInvalidScheme ∧ e ≠ .ErrInvalidOTPType := by
        intro e he
        rw [hp] at he
        rcases parseParams_error _ _ _ he with h | h | ⟨h, _⟩ | ⟨_, _, _, h⟩ <;>
          subst h <;> exact ⟨by simp, by simp⟩
      constructor
      · constructor
        · intro h
          exact absurd rfl (hno _ h).1
        · intro h
          exact absurd hs h
      · constructor
        · intro h
          exact absurd rfl (hno _ h).2
        · rintro ⟨_, h1, h2⟩
          rcases ht with h | h
          · exact absurd h h1
          · exact absurd h h2
    · have hp : ParseKeyURI uri = .error .ErrInvalidOTPType := by
        unfold ParseKeyURI
        rw [hu]
        simp only
        rw [if_neg (not_not.2 hs)]
        have hv : ¬ otpType.valid u.Host = true := by
          unfold otpType.valid
          simpa using ht
        rw [if_pos hv]
      rw [hp]
      constructor
      · constructor
        · intro h
          cases h
        · intro h
          exact absurd hs h
      · constructor
        · intro _
          exact ⟨hs, fun h => ht (Or.inl h), fun h => ht (Or.inr h)⟩
        · intro _
          rfl
  · have hp : ParseKeyURI uri = .error .ErrInvalidScheme := by
      unfold ParseKeyURI
      rw [hu]
      simp only
      rw [if_pos hs]
    rw [hp]
    constructor
    · constructor
      · intro _
        exact hs
      · intro _
        rfl
    · constructor
      · intro h
        cases h
      · rintro ⟨h, _⟩
        exact absurd h hs

/-- C9 at concrete URIs: an upper-case type is rejected with
ErrInvalidOTPType, an https URI with ErrInvalidScheme. -/
theorem C9_scheme_and_type_witness :
    ParseKeyURI (lit "otpauth://TOTP/a?secret=AA") = .error .ErrInvalidOTPType ∧
    ParseKeyURI (lit "https://example.com") = .error .ErrInvalidScheme :=
  ⟨(C9_scheme_and_type_errors (lit "otpauth://TOTP/a?secret=AA")
      { Scheme := lit "otpauth", Host := lit "TOTP", Path := lit "/a",
        RawQuery := lit "secret=AA" } (by decide)).2.2 ⟨by decide, by decide, by decide⟩,
   (C9_scheme_and_type_errors (lit "https://example.com")
      { Scheme := lit "https", Host := lit "example.com" } (by decide)).1.2 (by decide)⟩

theorem Get_eq_nil_of_absent (q : Values) (key : Str) (h : ∀ kv ∈ q, kv.1 ≠ key) :
    q.Get key = [] := by
  unfold Values.Get
  have : q.find? (fun kv => decide (kv.1 = key)) = none := by
    rw [List.find?_eq_none]
    intro kv hkv
    simpa using h kv hkv
  rw [this]

/-- C10: for every URI with scheme otpauth and a valid type, if the secret
query parameter is missing (or empty) ParseKeyURI fails with ErrEmptySecret
whatever the other parameters are; if the type is hotp, a non-empty secret is
given, algorithm and digits are absent or valid and the counter parameter is
missing (or empty), it fails with ErrEmptyCounter; and a totp URI never fails
with ErrEmptyCounter. -/
theorem C10_required_parameters (uri : Str) (u : URL) (hu : urlParse uri = .ok u)
    (hs : u.Scheme = lit "otpauth") (ht : u.Host = lit "totp" ∨ u.Host = lit "hotp") :
    (u.Query.Get (lit "secret") = [] → ParseKeyURI uri = .error .ErrEmptySecret) ∧
    ((∀ kv ∈ u.Query, kv.1 ≠ lit "secret") → ParseKeyURI uri = .error .ErrEmptySecret) ∧
    (u.Host = lit "hotp" → u.Query.Get (lit "secret") ≠ [] →
      (u.Query.Get (lit "algorithm") = [] ∨
        u.Query.Get (lit "algorithm") ∈ [lit "SHA1", lit "SHA256", lit "SHA512"]) →
      (u.Query.Get (lit "digits") = [] ∨ ∃ n, Atoi (u.Query.Get (lit "digits")) = .ok n) →
      u.Query.Get (lit "counter") = [] →
      ParseKeyURI uri = .error .ErrEmptyCounter) ∧
    (u.Host = lit "totp" → ParseKeyURI uri ≠ .error .ErrEmptyCounter) := by
  have hp := ParseKeyURI_of_parse uri u hu hs ht
  have ht0 : (KeyURI.parseUser
      ⟨u.Host, [], [], lit "SHA1", 6, if u.Host = totpType then 30 else 0, 0, []⟩ u.Path).typ
      = u.Host := rfl
  generalize KeyURI.parseUser
      ⟨u.Host, [], [], lit "SHA1", 6, if u.Host = totpType then 30 else 0, 0, []⟩ u.Path
      = k0 at hp ht0
  have hsec : u.Query.Get (lit "secret") = [] → ParseKeyURI uri = .error .ErrEmptySecret := by
    intro h
    rw [hp]
    unfold KeyURI.parseParams
    rcases parseSecret_cases k0 u.Query with ⟨_, h1⟩ | ⟨h0, _⟩
    · rw [h1]
    · exact absurd h h0
  refine ⟨hsec, fun h => hsec (Get_eq_nil_of_absent _ _ h), ?_, ?_⟩
  · intro hh hsecret halg hdig hcnt
    rw [hp]
    unfold KeyURI.parseParams
    rcases parseSecret_cases k0 u.Query with ⟨h0, _⟩ | ⟨_, h1⟩
    · exact absurd h0 hsecret
    · rw [h1]
      simp only
      have ht1 : KeyURI.typ { k0 with secret := u.Query.Get (lit "secret") } = u.Host := ht0
      generalize ({ k0 with secret := u.Query.Get (lit "secret") } : KeyURI) = k1 at ht1
      obtain ⟨k2, hk2, t2⟩ : ∃ k2, k1.parseAlgorithm u.Query = .ok k2 ∧ k2.typ = u.Host := by
        unfold KeyURI.parseAlgorithm
        rcases halg with h | h
        · rw [if_neg (not_not.2 h)]
          exact ⟨_, rfl, ht1⟩
        · rw [if_pos (by intro h0; rw [h0] at h; revert h; decide)]
          have hne : KeyURI.hash { k1 with algorithm := u.Query.Get (lit "algorithm") }
              ≠ none := by
            unfold KeyURI.hash
            simp only [List.mem_cons, List.mem_singleton, List.not_mem_nil, or_false] at h
            rcases h with h | h | h <;> simp only [h] <;> decide
          rw [if_neg hne]
          exact ⟨_, rfl, ht1⟩
      rw [hk2]
      simp only
      obtain ⟨k4, hk4, t4⟩ : ∃ k4, (k2.parseIssuer u.Query).parseDigits u.Query = .ok k4 ∧
          k4.typ = u.Host := by
        have ti := parseIssuer_typ k2 u.Query
        rcases hdig with h | ⟨n, h⟩
        · refine ⟨k2.parseIssuer u.Query, ?_, by rw [ti, t2]⟩
          unfold KeyURI.parseDigits
          rw [if_neg (not_not.2 h)]
        · by_cases h0 : u.Query.Get (lit "digits") ≠ []
          · refine ⟨{ k2.parseIssuer u.Query with digits := n }, ?_, ?_⟩
            · unfold KeyURI.parseDigits
              rw [if_pos h0, h]
            · show (k2.parseIssuer u.Query).typ = _
              rw [ti, t2]
          · refine ⟨k2.parseIssuer u.Query, ?_, by rw [ti, t2]⟩
            unfold KeyURI.parseDigits
            rw [if_neg h0]
      rw [hk4]
      simp only
      unfold KeyURI.parseTyped
      have n1 : k4.typ ≠ totpType := by rw [t4, hh]; decide
      have n2 : k4.typ = hotpType := by rw [t4, hh]; rfl
      rw [if_neg n1, if_pos n2, if_neg (not_not.2 hcnt)]
  · intro hh he
    rw [hp] at he
    rcases parseParams_error _ _ _ he with h | h | ⟨_, h⟩ | ⟨_, _, _, h⟩
    · cases h
    · cases h
    · rw [ht0, hh] at h
      revert h
      decide
    · cases h

/-- C10 at concrete URIs: the repository's test URIs without secret and,
for hotp, without counter. -/
theorem C10_required_parameters_witness :
    ParseKeyURI (lit "otpauth://totp/Example%3Atest%40example.com") = .error .ErrEmptySecret ∧
    ParseKeyURI (lit "otpauth://hotp/Example%3Atest%40example.com?secret=4ezxc3dfa4y")
      = .error .ErrEmptyCounter :=
  ⟨(C10_required_parameters (lit "otpauth://totp/Example%3Atest%40example.com")
      { Scheme := lit "otpauth", Host := lit "totp", Path := lit "/Example:test@example.com",
        RawPath := lit "/Example%3Atest%40example.com" }
      (by decide) (by decide) (by decide)).1 (by decide),
   (C10_required_parameters (lit "otpauth://hotp/Example%3Atest%40example.com?secret=4ezxc3dfa4y")
      { Scheme := lit "otpauth", Host := lit "hotp", Path := lit "/Example:test@example.com",
        RawPath := lit "/Example%3Atest%40example.com", RawQuery := lit "secret=4ezxc3dfa4y" }
      (by decide) (by decide) (by decide)).2.2.1 (by decide) (by decide)
      (Or.inl (by decide)) (Or.inl (by decide)) (by decide)⟩

/-! ## Escaping -/

theorem hex_byte_facts :
    ∀ c : Byte,
      (Fin.ofNat (unhex (upperhex (c.val >>> 4)) <<< 4 ||| unhex (upperhex (c.val &&& 15))) : Byte)
        = c ∧
      ishex (upperhex (c.val >>> 4)) = true ∧ ishex (upperhex (c.val &&& 15)) = true ∧
      upperhex (c.val >>> 4) ∉ lit "?#&=;/%+" ∧ upperhex (c.val &&& 15) ∉ lit "?#&=;/%+" ∧
      ¬ ((upperhex (c.val >>> 4)).val < 32 ∨ (upperhex (c.val >>> 4)).val = 127) ∧
      ¬ ((upperhex (c.val &&& 15)).val < 32 ∨ (upperhex (c.val &&& 15)).val = 127) := by
  decide

theorem plain_path_facts :
    ∀ c : Byte, shouldEscape c .path = false →
      c ≠ chr '%' ∧ c ≠ chr '?' ∧ c ≠ chr '#' ∧ ¬ (c.val < 32 ∨ c.val = 127) := by
  decide

theorem plain_query_facts :
    ∀ c : Byte, shouldEscape c .queryComponent = false →
      c ≠ chr '%' ∧ c ≠ chr '+' ∧ c ≠ chr '?' ∧ c ≠ chr '#' ∧ ¬ (c.val < 32 ∨ c.val = 127) ∧
      c ≠ chr '&' ∧ c ≠ chr '=' ∧ c ≠ chr ';' ∧ c ≠ chr '/' := by
  decide

theorem space_query_facts : shouldEscape (chr ' ') .queryComponent = true := by decide

theorem escaped_path_facts :
    ∀ c : Byte, shouldEscape c .path = true → c ≠ chr '/' := by
  decide

/-- One percent-escape decodes to its byte, in path and in query mode. -/
theorem unescape_pct (m : Encoding) (hm : m = .path ∨ m = .queryComponent) (c : Byte) (t : Str) :
    unescape m (chr '%' :: upperhex (c.val >>> 4) :: upperhex (c.val &&& 15) :: t)
      = match unescape m t with
        | .ok r => .ok (c :: r)
        | .error e => .error e := by
  obtain ⟨hv, h1, h2, -⟩ := hex_byte_facts c
  rw [unescape]
  simp only [if_true, h1, h2, and_self, hv]
  have nh : m ≠ .host := by rcases hm with h | h <;> rw [h] <;> decide
  have nz : m ≠ .zone := by rcases hm with h | h <;> rw [h] <;> decide
  simp only [nh, nz, false_and, if_false]

theorem unescape_plain (m : Encoding) (hm : m = .path ∨ m = .queryComponent) (c : Byte) (t : Str)
    (h1 : c ≠ chr '%') (h2 : c ≠ chr '+') :
    unescape m (c :: t)
      = match unescape m t with
        | .ok r => .ok (c :: r)
        | .error e => .error e := by
  have nh : m ≠ .host := by rcases hm with h | h <;> rw [h] <;> decide
  have nz : m ≠ .zone := by rcases hm with h | h <;> rw [h] <;> decide
  rw [unescape.eq_def]
  simp only [h1, h2, if_false, nh, nz, false_or, false_and]

theorem unescape_plus (m : Encoding) (t : Str) :
    unescape m (chr '+' :: t)
      = match unescape m t with
        | .ok r => .ok ((if m = .queryComponent then chr ' ' else chr '+') :: r)
        | .error e => .error e := by
  rw [unescape.eq_def]
  have h : chr '+' ≠ chr '%' := by decide
  simp only [h, if_false, if_true]

theorem escape_cons (c : Byte) (s : Str) (m : Encoding) :
    escape (c :: s) m
      = (if shouldEscape c m then
          if c = chr ' ' ∧ m = .queryComponent then [chr '+']
          else [chr '%', upperhex (c.val >>> 4), upperhex (c.val &&& 15)]
        else [c]) ++ escape s m := by
  simp [escape, List.flatMap_cons]

theorem unescape_escape_query (s : Str) :
    unescape .queryComponent (escape s .queryComponent) = .ok s := by
  induction s with
  | nil => rfl
  | cons c s ih =>
    rw [escape_cons]
    by_cases he : shouldEscape c .queryComponent = true
    · rw [if_pos he]
      by_cases hsp : c = chr ' '
      · rw [if_pos ⟨hsp, rfl⟩]
        show unescape .queryComponent (chr '+' :: escape s .queryComponent) = _
        rw [unescape_plus, ih, hsp]
        rfl
      · rw [if_neg (fun h => hsp h.1)]
        show unescape .queryComponent (chr '%' :: upperhex (c.val >>> 4)
          :: upperhex (c.val &&& 15) :: escape s .queryComponent) = _
        rw [unescape_pct _ (Or.inr rfl), ih]
    · rw [if_neg he]
      have hf := plain_query_facts c (by simpa using he)
      show unescape .queryComponent (c :: escape s .queryComponent) = _
      rw [unescape_plain _ (Or.inr rfl) c _ hf.1 hf.2.1, ih]

theorem unescape_escape_path (s : Str) : unescape .path (escape s .path) = .ok s := by
  induction s with
  | nil => rfl
  | cons c s ih =>
    rw [escape_cons]
    by_cases he : shouldEscape c .path = true
    · rw [if_pos he, if_neg (fun h => by cases h.2)]
      show unescape .path (chr '%' :: upperhex (c.val >>> 4)
        :: upperhex (c.val &&& 15) :: escape s .path) = _
      rw [unescape_pct _ (Or.inl rfl), ih]
    · rw [if_neg he]
      have hf := plain_path_facts c (by simpa using he)
      show unescape .path (c :: escape s .path) = _
      by_cases hp : c = chr '+'
      · rw [hp, unescape_plus, ih]
        rfl
      · rw [unescape_plain _ (Or.inl rfl) c _ hf.1 hp, ih]

theorem escape_query_safe (s : Str) : ∀ b ∈ escape s .queryComponent, querySafe b := by
  induction s with
  | nil =>
    intro b hb
    cases hb
  | cons c s ih =>
    intro b hb
    rw [escape_cons] at hb
    rcases List.mem_append.1 hb with h | h
    · obtain ⟨-, -, -, x1, x2, c1, c2⟩ := hex_byte_facts c
      by_cases he : shouldEscape c .queryComponent = true
      · rw [if_pos he] at h
        by_cases hsp : c = chr ' '
        · rw [if_pos ⟨hsp, rfl⟩] at h
          simp only [List.mem_singleton] at h
          subst h
          unfold querySafe pathSafe
          decide
        · rw [if_neg (fun h => hsp h.1)] at h
          simp only [List.mem_cons, List.mem_singleton, List.not_mem_nil, or_false] at h
          rcases h with h | h | h
          · subst h
            unfold querySafe pathSafe
            decide
          · subst h
            refine ⟨⟨?_, ?_, c1⟩, ?_, ?_, ?_, ?_⟩ <;> intro hh <;> rw [hh] at x1 <;>
              revert x1 <;> decide
          · subst h
            refine ⟨⟨?_, ?_, c2⟩, ?_, ?_, ?_, ?_⟩ <;> intro hh <;> rw [hh] at x2 <;>
              revert x2 <;> decide
      · rw [if_neg he] at h
        simp only [List.mem_singleton] at h
        subst h
        obtain ⟨-, -, q1, q2, q3, q4, q5, q6, q7⟩ := plain_query_facts b (by simpa using he)
        exact ⟨⟨q1, q2, q3⟩, q4, q5, q6, q7⟩
    · exact ih b h

theorem escape_path_safe (s : Str) : ∀ b ∈ escape s .path, pathSafe b := by
  induction s with
  | nil =>
    intro b hb
    cases hb
  | cons c s ih =>
    intro b hb
    rw [escape_cons] at hb
    rcases List.mem_append.1 hb with h | h
    · obtain ⟨-, -, -, x1, x2, c1, c2⟩ := hex_byte_facts c
      by_cases he : shouldEscape c .path = true
      · rw [if_pos he, if_neg (fun h => by cases h.2)] at h
        simp only [List.mem_cons, List.mem_singleton, List.not_mem_nil, or_false] at h
        rcases h with h | h | h
        · subst h
          unfold pathSafe
          decide
        · subst h
          refine ⟨?_, ?_, c1⟩ <;> intro hh <;> rw [hh] at x1 <;> revert x1 <;> decide
        · subst h
          refine ⟨?_, ?_, c2⟩ <;> intro hh <;> rw [hh] at x2 <;> revert x2 <;> decide
      · rw [if_neg he] at h
        simp only [List.mem_singleton] at h
        subst h
        obtain ⟨-, q1, q2, q3⟩ := plain_path_facts b (by simpa using he)
        exact ⟨q1, q2, q3⟩
    · exact ih b h

/-! ## strconv round trips -/

theorem parseUintLoop_digits (fn s0 : Str) :
    ∀ (s : Str) (a : Nat), (∀ b ∈ s, 48 ≤ b.val ∧ b.val ≤ 57) →
      s.foldl (fun a b => a * 10 + (b.val - 48)) a < 2 ^ 64 →
      parseUintLoop fn s0 a s = .ok (s.foldl (fun a b => a * 10 + (b.val - 48)) a) := by
  intro s
  induction s with
  | nil =>
    intro a _ _
    rfl
  | cons c cs ih =>
    intro a hd hlt
    have hc := hd c (List.mem_cons_self _ _)
    have hmono : ∀ (l : Str) (x : Nat), x ≤ l.foldl (fun a b => a * 10 + (b.val - 48)) x := by
      intro l
      induction l with
      | nil =>
        intro x
        exact le_refl _
      | cons y ys ihy =>
        intro x
        have := ihy (x * 10 + (y.val - 48))
        simp only [List.foldl_cons]
        omega
    simp only [List.foldl_cons] at hlt ⊢
    have h1 := hmono cs (a * 10 + (c.val - 48))
    have hlt1 : a * 10 + (c.val - 48) < 2 ^ 64 := lt_of_le_of_lt h1 hlt
    rw [parseUintLoop]
    rw [if_pos hc, if_neg (by norm_num at hlt1 ⊢; omega), if_neg (by omega)]
    exact ih _ (fun b hb => hd b (List.mem_cons_of_mem _ hb)) hlt

theorem formatUint_ne_nil (n : Nat) : formatUint n ≠ [] := by
  intro h
  have := formatUint_length_pos n
  rw [h] at this
  simp at this

theorem ParseUint_formatUint (n : Nat) (h : n < 2 ^ 64) : ParseUint (formatUint n) = .ok n := by
  unfold ParseUint
  rw [if_neg (formatUint_ne_nil n)]
  have := parseUintLoop_digits (lit "ParseUint") (formatUint n) (formatUint n) 0
    (formatUint_digits n) (by
      have := decVal_formatUint n
      unfold decVal at this
      rw [this]
      exact h)
  rw [this]
  have e := decVal_formatUint n
  unfold decVal at e
  rw [e]

theorem Atoi_Itoa (n : Int) (hlo : -2 ^ 63 ≤ n) (hhi : n < 2 ^ 63) : Atoi (Itoa n) = .ok n := by
  have hne := formatUint_ne_nil n.natAbs
  have hdig := formatUint_digits n.natAbs
  have hval : (formatUint n.natAbs).foldl (fun a b => a * 10 + (b.val - 48)) 0 = n.natAbs := by
    have e := decVal_formatUint n.natAbs
    unfold decVal at e
    exact e
  by_cases hn : n < 0
  · have hI : Itoa n = chr '-' :: formatUint n.natAbs := by
      unfold Itoa
      rw [if_pos hn]
    rw [hI]
    unfold Atoi
    simp only
    rw [if_neg (by decide)]
    simp only [if_true]
    unfold atoiBody
    rw [if_neg hne]
    rw [parseUintLoop_digits _ _ _ 0 hdig (by rw [hval]; omega), hval]
    simp only
    rw [if_neg (by
      simp only [Bool.not_true, Bool.false_and, Bool.true_and, Bool.false_or, decide_eq_true_eq]
      omega)]
    simp only [if_true]
    congr 1
    omega
  · have hI : Itoa n = formatUint n.natAbs := by
      unfold Itoa
      rw [if_neg hn]
    rw [hI]
    cases hf : formatUint n.natAbs with
    | nil => exact absurd hf hne
    | cons c cs =>
      have hc : 48 ≤ c.val ∧ c.val ≤ 57 := hdig c (by rw [hf]; exact List.mem_cons_self _ _)
      have c1 : c ≠ chr '+' := by
        intro h
        rw [h] at hc
        revert hc
        decide
      have c2 : c ≠ chr '-' := by
        intro h
        rw [h] at hc
        revert hc
        decide
      unfold Atoi
      simp only
      rw [if_neg c1, if_neg c2]
      unfold atoiBody
      rw [if_neg (by simp)]
      rw [← hf, parseUintLoop_digits _ _ _ 0 hdig (by rw [hval]; omega), hval]
      simp only
      rw [if_neg (by
        simp only [Bool.not_false, Bool.true_and, Bool.false_and, Bool.or_false,
          decide_eq_true_eq]
        omega)]
      simp only [Bool.false_eq_true, if_false]
      congr 1
      omega

/-! ## Cutting and splitting -/

theorem cut_not_mem (sep : Byte) (s : Str) (h : sep ∉ s) : cut sep s = (s, [], false) := by
  induction s with
  | nil => rfl
  | cons c cs ih =>
    have h1 : c ≠ sep := fun e => h (by rw [e]; exact List.mem_cons_self _ _)
    have h2 : sep ∉ cs := fun e => h (List.mem_cons_of_mem _ e)
    rw [cut, if_neg h1, ih h2]

theorem cut_append (sep : Byte) (a b : Str) (h : sep ∉ a) :
    cut sep (a ++ sep :: b) = (a, b, true) := by
  induction a with
  | nil =>
    show cut sep (sep :: b) = _
    rw [cut, if_pos rfl]
  | cons c cs ih =>
    have h1 : c ≠ sep := fun e => h (by rw [e]; exact List.mem_cons_self _ _)
    have h2 : sep ∉ cs := fun e => h (List.mem_cons_of_mem _ e)
    show cut sep (c :: (cs ++ sep :: b)) = _
    rw [cut, if_neg h1, ih h2]

theorem splitAll_not_mem (sep : Byte) (s : Str) (h : sep ∉ s) : splitAll sep s = [s] := by
  induction s with
  | nil => rfl
  | cons c cs ih =>
    have h1 : c ≠ sep := fun e => h (by rw [e]; exact List.mem_cons_self _ _)
    have h2 : sep ∉ cs := fun e => h (List.mem_cons_of_mem _ e)
    rw [splitAll, if_neg h1, ih h2]

theorem splitAll_append (sep : Byte) (a b : Str) (h : sep ∉ a) :
    splitAll sep (a ++ sep :: b) = a :: splitAll sep b := by
  induction a with
  | nil =>
    show splitAll sep (sep :: b) = _
    rw [splitAll, if_pos rfl]
  | cons c cs ih =>
    have h1 : c ≠ sep := fun e => h (by rw [e]; exact List.mem_cons_self _ _)
    have h2 : sep ∉ cs := fun e => h (List.mem_cons_of_mem _ e)
    show splitAll sep (c :: (cs ++ sep :: b)) = _
    rw [splitAll, if_neg h1, ih h2]

theorem intercalate_cons_cons (sep x y : Str) (ys : List Str) :
    List.intercalate sep (x :: y :: ys) = x ++ sep ++ List.intercalate sep (y :: ys) := by
  simp [List.intercalate]

theorem intercalate_single (sep x : Str) : List.intercalate sep [x] = x := by
  simp [List.intercalate]

theorem splitAll_intercalate (sep : Byte) (x : Str) (xs : List Str)
    (h : ∀ y ∈ x :: xs, sep ∉ y) :
    splitAll sep (List.intercalate [sep] (x :: xs)) = x :: xs := by
  induction xs generalizing x with
  | nil =>
    rw [intercalate_single]
    exact splitAll_not_mem sep x (h x (List.mem_cons_self _ _))
  | cons y ys ih =>
    rw [intercalate_cons_cons]
    have e : x ++ [sep] ++ List.intercalate [sep] (y :: ys)
        = x ++ sep :: List.intercalate [sep] (y :: ys) := by simp
    rw [e, splitAll_append sep x _ (h x (List.mem_cons_self _ _)),
      ih y (fun z hz => h z (List.mem_cons_of_mem _ hz))]

/-! ## Query encoding and decoding -/

/-- One `key=value` piece of `Values.Encode`. -/
theorem piece_decodes (kv : Str × Str) :
    (fun piece : Str =>
      if chr ';' ∈ piece then none
      else if piece = [] then none
      else
        match QueryUnescape (cut (chr '=') piece).1, QueryUnescape (cut (chr '=') piece).2.1 with
        | .ok key, .ok value => some (key, value)
        | _, _ => none) (QueryEscape kv.1 ++ lit "=" ++ QueryEscape kv.2) = some kv := by
  have k1 : ∀ b ∈ QueryEscape kv.1, querySafe b := escape_query_safe kv.1
  have k2 : ∀ b ∈ QueryEscape kv.2, querySafe b := escape_query_safe kv.2
  have e : QueryEscape kv.1 ++ lit "=" ++ QueryEscape kv.2
      = QueryEscape kv.1 ++ chr '=' :: QueryEscape kv.2 := by
    show QueryEscape kv.1 ++ [chr '='] ++ QueryEscape kv.2 = _
    simp
  have hsemi : chr ';' ∉ QueryEscape kv.1 ++ chr '=' :: QueryEscape kv.2 := by
    intro h
    rcases List.mem_append.1 h with h | h
    · exact (k1 _ h).2.2.2.1 rfl
    · rcases List.mem_cons.1 h with h | h
      · revert h
        decide
      · exact (k2 _ h).2.2.2.1 rfl
  have hcut := cut_append (chr '=') (QueryEscape kv.1) (QueryEscape kv.2)
    (fun h => (k1 _ h).2.2.1 rfl)
  simp only [e]
  rw [if_neg hsemi, if_neg (by simp), hcut]
  simp only [QueryUnescape, QueryEscape, unescape_escape_query]

theorem Query_of_encoded (u : URL) (pairs : Values) (hne : pairs ≠ [])
    (h : u.RawQuery = List.intercalate (lit "&")
      (pairs.map (fun kv => QueryEscape kv.1 ++ lit "=" ++ QueryEscape kv.2))) :
    u.Query = pairs := by
  obtain ⟨kv, rest, rfl⟩ : ∃ kv rest, pairs = kv :: rest := by
    cases pairs with
    | nil => exact absurd rfl hne
    | cons kv rest => exact ⟨kv, rest, rfl⟩
  unfold URL.Query
  rw [h]
  have hsafe : ∀ y ∈ (kv :: rest).map
      (fun kv => QueryEscape kv.1 ++ lit "=" ++ QueryEscape kv.2), chr '&' ∉ y := by
    intro y hy
    obtain ⟨z, -, rfl⟩ := List.mem_map.1 hy
    intro hm
    have k1 : ∀ b ∈ QueryEscape z.1, querySafe b := escape_query_safe z.1
    have k2 : ∀ b ∈ QueryEscape z.2, querySafe b := escape_query_safe z.2
    rcases List.mem_append.1 hm with hm | hm
    · rcases List.mem_append.1 hm with hm | hm
      · exact (k1 _ hm).2.1 rfl
      · revert hm
        decide
    · exact (k2 _ hm).2.1 rfl
  rw [List.map_cons] at hsafe ⊢
  have e : lit "&" = [chr '&'] := rfl
  rw [e, splitAll_intercalate (chr '&') _ _ hsafe]
  show List.filterMap _ (List.map
    (fun kv : Str × Str => QueryEscape kv.1 ++ lit "=" ++ QueryEscape kv.2) (kv :: rest)) = _
  rw [List.filterMap_map]
  have hf : ∀ (l : Values), List.filterMap
      ((fun piece : Str =>
        if chr ';' ∈ piece then none
        else if piece = [] then none
        else
          match QueryUnescape (cut (chr '=') piece).1,
            QueryUnescape (cut (chr '=') piece).2.1 with
          | .ok key, .ok value => some (key, value)
          | _, _ => none) ∘ fun kv => QueryEscape kv.1 ++ lit "=" ++ QueryEscape kv.2) l = l := by
    intro l
    induction l with
    | nil => rfl
    | cons a t ih =>
      rw [List.filterMap_cons]
      have := piece_decodes a
      simp only [Function.comp] at this ⊢
      rw [this]
      simp only
      exact congrArg _ ih
  exact hf _

/-! ## Key URI serializer -/

theorem sortedPairs_String (k : KeyURI) (ht : k.typ = totpType ∨ k.typ = hotpType) :
    Values.sortedPairs
      (let v : Values := []
       let v := v.Set (lit "secret") k.secret
       let v := v.Set (lit "algorithm") k.algorithm
       let v := v.Set (lit "digits") (Itoa k.digits)
       let v := if k.typ = totpType then v.Set (lit "period") (Itoa k.period)
         else if k.typ = hotpType then v.Set (lit "counter") (formatUint k.counter)
         else v
       if k.issuer ≠ [] then v.Set (lit "issuer") k.issuer else v)
      = k.queryPairs := by
  obtain ⟨typ, user, secret, algorithm, digits, period, counter, issuer⟩ := k
  simp only at ht
  unfold KeyURI.queryPairs
  simp only
  have hth : totpType ≠ hotpType := by decide
  rcases ht with rfl | rfl
  · by_cases hi : issuer = []
    · simp only [hi, if_true, if_false, hth, ne_eq, not_true_eq_false]
      rfl
    · simp only [hi, if_true, if_false, hth, ne_eq, not_false_eq_true]
      rfl
  · by_cases hi : issuer = []
    · simp only [hi, if_true, if_false, hth.symm, ne_eq, not_true_eq_false]
      rfl
    · simp only [hi, if_true, if_false, hth.symm, ne_eq, not_false_eq_true]
      rfl

theorem intercalate_cons_ne_nil (sep x : Str) (xs : List Str) (h : x ≠ []) :
    List.intercalate sep (x :: xs) ≠ [] := by
  cases xs with
  | nil =>
    rw [intercalate_single]
    exact h
  | cons y ys =>
    rw [intercalate_cons_cons]
    simp [h]

theorem URL_String_otpauth (host path rawPath q : Str)
    (hh : host = totpType ∨ host = hotpType) (hq : q ≠ []) :
    URL.String { Scheme := lit "otpauth", Host := host, Path := path, RawPath := rawPath,
                 RawQuery := q }
      = lit "otpauth://" ++ host
        ++ (if URL.EscapedPath { Path := path, RawPath := rawPath } ≠ [] ∧
              (URL.EscapedPath { Path := path, RawPath := rawPath }).head? ≠ some (chr '/')
            then chr '/' :: URL.EscapedPath { Path := path, RawPath := rawPath }
            else URL.EscapedPath { Path := path, RawPath := rawPath })
        ++ lit "?" ++ q := by
  have hep : URL.EscapedPath
      { Scheme := lit "otpauth", Host := host, Path := path, RawPath := rawPath, RawQuery := q }
      = URL.EscapedPath { Path := path, RawPath := rawPath } := rfl
  generalize URL.EscapedPath { Path := path, RawPath := rawPath } = ep at hep ⊢
  have hesc : escape host .host = host := by
    rcases hh with h | h <;> rw [h] <;> decide
  have hne : host ≠ [] := by
    rcases hh with h | h <;> rw [h] <;> decide
  have hs : lit "otpauth" ≠ [] := by decide
  have e1 : lit "otpauth://" = lit "otpauth" ++ lit ":" ++ lit "//" := by decide
  have e2 : lit "/" = [chr '/'] := rfl
  unfold URL.String
  simp only [hep, hesc, hs, hne, hq, ne_eq, not_true_eq_false, not_false_eq_true, if_true,
    if_false, true_or, or_true, false_and, and_true, Bool.false_eq_true, false_or,
    List.append_eq_nil, and_false]
  by_cases hc : ¬ep = [] ∧ ¬ep.head? = some (chr '/')
  · simp only [hc, not_false_eq_true, and_self, if_true, e1, e2, List.append_assoc,
      List.nil_append, List.cons_append, List.singleton_append]
    rw [if_neg (fun h => hs (List.append_eq_nil.1 h.1).1)]
    simp only [List.append_assoc, List.cons_append, List.nil_append]
  · simp only [hc, if_false, e1, List.append_assoc, List.nil_append]
    rw [if_neg (fun h => hs (List.append_eq_nil.1 h.1).1)]
    simp only [List.append_assoc]

theorem String_eq (k : KeyURI) (ht : k.typ = totpType ∨ k.typ = hotpType) :
    k.String = lit "otpauth://" ++ k.typ ++ k.pathPart ++ lit "?"
      ++ List.intercalate (lit "&")
          (k.queryPairs.map (fun kv => QueryEscape kv.1 ++ lit "=" ++ QueryEscape kv.2)) := by
  have hq : List.intercalate (lit "&")
      (k.queryPairs.map (fun kv => QueryEscape kv.1 ++ lit "=" ++ QueryEscape kv.2)) ≠ [] := by
    unfold KeyURI.queryPairs
    simp only [List.singleton_append, List.cons_append, List.map_cons]
    apply intercalate_cons_ne_nil
    simp [lit]
  unfold KeyURI.String
  simp only
  unfold Values.Encode
  rw [sortedPairs_String k ht]
  rw [URL_String_otpauth k.typ k.user (QueryEscape k.user) _ ht hq]
  rfl

/-! ## Parsing a serialized key URI -/

theorem getScheme_otpauth (rest : Str) :
    getScheme (lit "otpauth:" ++ rest) = .ok (lit "otpauth", rest) := rfl

theorem host_facts (host : Str) (hh : host = totpType ∨ host = hotpType) :
    (∀ b ∈ host, querySafe b) ∧ parseAuthority host = .ok (none, host) := by
  rcases hh with h | h <;> subst h <;> exact ⟨by unfold querySafe pathSafe; decide, by decide⟩

theorem parseRaw_otpauth (host p q up : Str) (hh : host = totpType ∨ host = hotpType)
    (hp : ∀ b ∈ p, pathSafe b) (hp0 : p = [] ∨ p.head? = some (chr '/'))
    (hq : ∀ b ∈ q, pathSafe b) (hqne : q ≠ []) (hup : unescape .path p = .ok up) :
    parseRaw (lit "otpauth:" ++ (lit "//" ++ host ++ p ++ chr '?' :: q))
      = .ok { Scheme := lit "otpauth", Host := host, Path := up,
              RawPath := if p = escape up .path then [] else p, RawQuery := q } := by
  obtain ⟨hhs, hauth⟩ := host_facts host hh
  have hl1 : ∀ b ∈ lit "otpauth:", ¬ (b.val < 32 ∨ b.val = 127) := by decide
  have hl2 : ∀ b ∈ lit "//", pathSafe b := by
    unfold pathSafe
    decide
  have hA : ∀ b ∈ lit "//" ++ host ++ p, pathSafe b := by
    intro b hb
    rcases List.mem_append.1 hb with h | h
    · rcases List.mem_append.1 h with h | h
      · exact hl2 b h
      · exact (hhs b h).1
    · exact hp b h
  have hctl : stringContainsCTLByte (lit "otpauth:" ++ (lit "//" ++ host ++ p ++ chr '?' :: q))
      = false := by
    unfold stringContainsCTLByte
    rw [List.any_eq_false]
    intro b hb
    have : ¬ (b.val < 32 ∨ b.val = 127) := by
      rcases List.mem_append.1 hb with h | h
      · exact hl1 b h
      · rcases List.mem_append.1 h with h | h
        · exact (hA b h).2.2
        · rcases List.mem_cons.1 h with h | h
          · rw [h]
            decide
          · exact (hq b h).2.2
    simpa using this
  have hstar : lit "otpauth:" ++ (lit "//" ++ host ++ p ++ chr '?' :: q) ≠ lit "*" := by
    intro h
    have h1 := congrArg List.head? h
    change some (chr 'o') = some (chr '*') at h1
    revert h1
    decide
  have hcut : cut (chr '?') (lit "//" ++ host ++ p ++ chr '?' :: q)
      = (lit "//" ++ host ++ p, q, true) :=
    cut_append _ _ _ (fun h => (hA _ h).1 rfl)
  have hlast : (lit "//" ++ host ++ p ++ chr '?' :: q).getLast? ≠ some (chr '?') := by
    rw [List.getLast?_append_of_ne_nil _ (by simp)]
    obtain ⟨c, t, rfl⟩ : ∃ c t, q = c :: t := by
      cases q with
      | nil => exact absurd rfl hqne
      | cons c t => exact ⟨c, t, rfl⟩
    rw [List.getLast?_cons_cons]
    intro h
    obtain ⟨ys, hys⟩ := List.getLast?_eq_some_iff.1 h
    exact (hq (chr '?') (by rw [hys]; simp)).1 rfl
  have hhead : (lit "//" ++ host ++ p).head? = some (chr '/') := rfl
  have hpre : (lit "//").isPrefixOf (lit "//" ++ host ++ p) = true := by
    rw [List.append_assoc]
    exact List.isPrefixOf_iff_prefix.2 (List.prefix_append _ _)
  have hdrop : (lit "//" ++ host ++ p).drop 2 = host ++ p := rfl
  have hauthority : (cut (chr '/') (host ++ p)).1 = host := by
    have hn : chr '/' ∉ host := fun h => (hhs _ h).2.2.2.2 rfl
    rcases hp0 with h | h
    · rw [h, List.append_nil, cut_not_mem _ _ hn]
    · obtain ⟨t, rfl⟩ : ∃ t, p = chr '/' :: t := by
        cases p with
        | nil => cases h
        | cons c t =>
          simp only [List.head?_cons, Option.some.injEq] at h
          exact ⟨t, by rw [h]⟩
      rw [cut_append _ _ _ hn]
  have hs : toLowerASCII (lit "otpauth") = lit "otpauth" := by decide
  have hsne : lit "otpauth" ≠ [] := by decide
  unfold parseRaw
  rw [hctl]
  simp only [Bool.false_eq_true, if_false, hstar, getScheme_otpauth, hs, hcut, hlast, false_and,
    decide_False, hhead, hsne, ne_eq, not_true_eq_false, not_false_eq_true, true_or, hpre,
    and_self, if_true, hdrop, hauthority, List.drop_left, hauth, URL.setPath, hup]

theorem urlParse_otpauth (host p q up : Str) (hh : host = totpType ∨ host = hotpType)
    (hp : ∀ b ∈ p, pathSafe b) (hp0 : p = [] ∨ p.head? = some (chr '/'))
    (hq : ∀ b ∈ q, pathSafe b) (hqne : q ≠ []) (hup : unescape .path p = .ok up) :
    urlParse (lit "otpauth://" ++ host ++ p ++ lit "?" ++ q)
      = .ok { Scheme := lit "otpauth", Host := host, Path := up,
              RawPath := if p = escape up .path then [] else p, RawQuery := q } := by
  have e : lit "otpauth://" ++ host ++ p ++ lit "?" ++ q
      = lit "otpauth:" ++ (lit "//" ++ host ++ p ++ chr '?' :: q) := by
    have e1 : lit "otpauth://" = lit "otpauth:" ++ lit "//" := by decide
    have e2 : lit "?" = [chr '?'] := rfl
    rw [e1, e2]
    simp only [List.append_assoc, List.singleton_append]
  obtain ⟨hhs, -⟩ := host_facts host hh
  have hl1 : ∀ b ∈ lit "otpauth://", b ≠ chr '#' := by decide
  have hhash : chr '#' ∉ lit "otpauth://" ++ host ++ p ++ lit "?" ++ q := by
    intro h
    rcases List.mem_append.1 h with h | h
    · rcases List.mem_append.1 h with h | h
      · rcases List.mem_append.1 h with h | h
        · rcases List.mem_append.1 h with h | h
          · exact hl1 _ h rfl
          · exact (hhs _ h).1.2.1 rfl
        · exact (hp _ h).2.1 rfl
      · revert h
        decide
    · exact (hq _ h).2.1 rfl
  unfold urlParse
  rw [cut_not_mem _ _ hhash]
  simp only
  rw [e, parseRaw_otpauth host p q up hh hp hp0 hq hqne hup]
  simp only [if_true]

theorem unescape_path_slash (t : Str) :
    unescape .path (chr '/' :: t)
      = match unescape .path t with
        | .ok r => .ok (chr '/' :: r)
        | .error e => .error e :=
  unescape_plain .path (Or.inl rfl) (chr '/') t (by decide) (by decide)

theorem plain_query_valid_path :
    ∀ c : Byte, shouldEscape c .queryComponent = false → shouldEscape c .path = false := by
  decide

theorem hex_not_escaped :
    ∀ c : Byte, shouldEscape (upperhex (c.val >>> 4)) .path = false ∧
      shouldEscape (upperhex (c.val &&& 15)) .path = false := by
  decide

theorem validEncoded_cons (c : Byte) (s : Str) (m : Encoding) :
    validEncoded (c :: s) m
      = ((if c ∈ ([33, 36, 38, 39, 40, 41, 42, 43, 44, 59, 61, 58, 64] : Str) then true
          else if c ∈ lit "[]" then true
          else if c = chr '%' then true
          else !shouldEscape c m) && validEncoded s m) := by
  simp [validEncoded]

theorem validEncoded_plain (c : Byte) (s : Str) (h : shouldEscape c .path = false) :
    validEncoded (c :: s) .path = validEncoded s .path := by
  rw [validEncoded_cons, h]
  split_ifs <;> simp

/-- A query-escaped string is a valid encoding of a path. -/
theorem validEncoded_QueryEscape (s : Str) : validEncoded (QueryEscape s) .path = true := by
  unfold QueryEscape
  induction s with
  | nil => rfl
  | cons c s ih =>
    rw [escape_cons]
    by_cases he : shouldEscape c .queryComponent = true
    · rw [if_pos he]
      by_cases hsp : c = chr ' '
      · rw [if_pos ⟨hsp, rfl⟩]
        show validEncoded (chr '+' :: escape s .queryComponent) .path = true
        rw [validEncoded_cons, ih]
        decide
      · rw [if_neg (fun h => hsp h.1)]
        show validEncoded (chr '%' :: upperhex (c.val >>> 4) :: upperhex (c.val &&& 15)
          :: escape s .queryComponent) .path = true
        rw [validEncoded_cons, validEncoded_plain _ _ (hex_not_escaped c).1,
          validEncoded_plain _ _ (hex_not_escaped c).2, ih]
        decide
    · rw [if_neg he]
      show validEncoded (c :: escape s .queryComponent) .path = true
      rw [validEncoded_plain _ _ (plain_query_valid_path c (by simpa using he)), ih]

/-- Without a space, a query-escaped string unescapes as a path to the
original. -/
theorem unescape_path_QueryEscape (s : Str) (h : chr ' ' ∉ s) :
    unescape .path (QueryEscape s) = .ok s := by
  unfold QueryEscape
  induction s with
  | nil => rfl
  | cons c s ih =>
    have hc : c ≠ chr ' ' := fun e => h (by rw [e]; exact List.mem_cons_self _ _)
    have hs : chr ' ' ∉ s := fun e => h (List.mem_cons_of_mem _ e)
    rw [escape_cons]
    by_cases he : shouldEscape c .queryComponent = true
    · rw [if_pos he, if_neg (fun h => hc h.1)]
      show unescape .path (chr '%' :: upperhex (c.val >>> 4)
        :: upperhex (c.val &&& 15) :: escape s .queryComponent) = _
      rw [unescape_pct _ (Or.inl rfl), ih hs]
    · rw [if_neg he]
      have hf := plain_query_facts c (by simpa using he)
      show unescape .path (c :: escape s .queryComponent) = _
      rw [unescape_plain _ (Or.inl rfl) c _ hf.1 hf.2.1, ih hs]

theorem escape_cons_ne_nil (c : Byte) (s : Str) (m : Encoding) : escape (c :: s) m ≠ [] := by
  rw [escape_cons]
  split_ifs <;> simp

theorem escape_path_head (c : Byte) (s : Str) (h : c ≠ chr '/') :
    (escape (c :: s) .path).head? ≠ some (chr '/') := by
  rw [escape_cons]
  by_cases he : shouldEscape c .path = true
  · rw [if_pos he, if_neg (fun h => by cases h.2)]
    show some (chr '%') ≠ some (chr '/')
    decide
  · rw [if_neg he]
    simpa using h

/-- The escaped path of a serialized label starts with a slash only if the
label starts with a slash and contains a space. -/
theorem EscapedPath_head (user : Str) (h : user.head? = some (chr '/') → chr ' ' ∉ user) :
    (URL.EscapedPath { Path := user, RawPath := QueryEscape user }).head? ≠ some (chr '/') := by
  unfold URL.EscapedPath
  simp only
  by_cases h1 : QueryEscape user ≠ [] ∧ validEncoded (QueryEscape user) .path = true ∧
      unescape .path (QueryEscape user) = .ok user
  · rw [if_pos h1]
    intro hh
    cases hq : QueryEscape user with
    | nil =>
      rw [hq] at hh
      cases hh
    | cons c t =>
      rw [hq] at hh
      simp only [List.head?_cons, Option.some.injEq] at hh
      exact (escape_query_safe user c (by
        show c ∈ QueryEscape user
        rw [hq]
        exact List.mem_cons_self _ _)).2.2.2.2 hh
  · rw [if_neg h1]
    by_cases h2 : user = lit "*"
    · rw [if_pos h2]
      decide
    · rw [if_neg h2]
      cases user with
      | nil => simp [escape]
      | cons c t =>
        by_cases hc : c = chr '/'
        · exfalso
          have hsp : chr ' ' ∉ c :: t := h (by rw [hc]; rfl)
          exact h1 ⟨escape_cons_ne_nil c t _, validEncoded_QueryEscape _,
            unescape_path_QueryEscape _ hsp⟩
        · exact escape_path_head c t hc

theorem EscapedPath_facts (user : Str) :
    (∀ b ∈ URL.EscapedPath { Path := user, RawPath := QueryEscape user }, pathSafe b) ∧
    unescape .path (URL.EscapedPath { Path := user, RawPath := QueryEscape user }) = .ok user := by
  unfold URL.EscapedPath
  simp only
  by_cases h1 : QueryEscape user ≠ [] ∧ validEncoded (QueryEscape user) .path = true ∧
      unescape .path (QueryEscape user) = .ok user
  · rw [if_pos h1]
    exact ⟨fun b hb => (escape_query_safe user b hb).1, h1.2.2⟩
  · rw [if_neg h1]
    by_cases h2 : user = lit "*"
    · rw [if_pos h2, h2]
      exact ⟨by unfold pathSafe; decide, by decide⟩
    · rw [if_neg h2]
      exact ⟨escape_path_safe user, unescape_escape_path user⟩

/-- The path part of a serialized key URI is a valid URL path that is empty or
starts with a slash; unescaped, and with one leading slash removed, it is the
label again, unless the label starts with a slash and contains a space. -/
theorem pathPart_facts (k : KeyURI) :
    (∀ b ∈ k.pathPart, pathSafe b) ∧ (k.pathPart = [] ∨ k.pathPart.head? = some (chr '/')) ∧
    ∃ up, unescape .path k.pathPart = .ok up ∧
      ((k.user.head? = some (chr '/') → chr ' ' ∉ k.user) →
        trimPrefix up (lit "/") = k.user) := by
  obtain ⟨hs, hu⟩ := EscapedPath_facts k.user
  have hhead := EscapedPath_head k.user
  unfold KeyURI.pathPart
  simp only
  generalize URL.EscapedPath { Path := k.user, RawPath := QueryEscape k.user } = ep
    at hs hu hhead
  by_cases hc : ep ≠ [] ∧ ep.head? ≠ some (chr '/')
  · rw [if_pos hc]
    refine ⟨?_, Or.inr rfl, chr '/' :: k.user, ?_, fun _ => ?_⟩
    · intro b hb
      rcases List.mem_cons.1 hb with h | h
      · rw [h]
        unfold pathSafe
        decide
      · exact hs b h
    · rw [unescape_path_slash, hu]
    · unfold trimPrefix
      have : (lit "/").isPrefixOf (chr '/' :: k.user) = true :=
        List.isPrefixOf_iff_prefix.2 (List.prefix_append [chr '/'] k.user)
      rw [if_pos this]
      rfl
  · rw [if_neg hc]
    refine ⟨hs, ?_, k.user, hu, fun hh => ?_⟩
    · by_cases h0 : ep = []
      · exact Or.inl h0
      · right
        by_contra h1
        exact hc ⟨h0, h1⟩
    · cases ep with
      | nil =>
        have h : (Except.ok [] : Except UrlErr Str) = .ok k.user := hu
        injection h with h
        rw [← h]
        rfl
      | cons c t => exact absurd ⟨by simp, hhead hh⟩ hc

theorem intercalate_safe (P : Byte → Prop) (sep : Str) (hsep : ∀ b ∈ sep, P b) :
    ∀ (xs : List Str), (∀ x ∈ xs, ∀ b ∈ x, P b) → ∀ b ∈ List.intercalate sep xs, P b := by
  intro xs
  induction xs with
  | nil =>
    intro _ b hb
    simp [List.intercalate] at hb
  | cons x t ih =>
    intro hx b hb
    cases t with
    | nil =>
      rw [intercalate_single] at hb
      exact hx x (List.mem_cons_self _ _) b hb
    | cons y ys =>
      rw [intercalate_cons_cons] at hb
      rcases List.mem_append.1 hb with h | h
      · rcases List.mem_append.1 h with h | h
        · exact hx x (List.mem_cons_self _ _) b h
        · exact hsep b h
      · exact ih (fun z hz => hx z (List.mem_cons_of_mem _ hz)) b h

theorem encoded_query_facts (kv : Str × Str) (rest : Values) :
    (∀ b ∈ List.intercalate (lit "&")
        ((kv :: rest).map (fun kv => QueryEscape kv.1 ++ lit "=" ++ QueryEscape kv.2)),
      pathSafe b) ∧
    List.intercalate (lit "&")
        ((kv :: rest).map (fun kv => QueryEscape kv.1 ++ lit "=" ++ QueryEscape kv.2)) ≠ [] := by
  have hamp : ∀ b ∈ lit "&", pathSafe b := by
    unfold pathSafe
    decide
  have heq : ∀ b ∈ lit "=", pathSafe b := by
    unfold pathSafe
    decide
  constructor
  · apply intercalate_safe pathSafe _ hamp
    intro x hx b hb
    obtain ⟨z, -, rfl⟩ := List.mem_map.1 hx
    rcases List.mem_append.1 hb with h | h
    · rcases List.mem_append.1 h with h | h
      · exact (escape_query_safe _ b h).1
      · exact heq b h
    · exact (escape_query_safe _ b h).1
  · rw [List.map_cons]
    apply intercalate_cons_ne_nil
    simp [lit]

/-- Parsing the serialized key URI as a URL gives back scheme, type and query
parameters. -/
theorem urlParse_String (k : KeyURI) (ht : k.typ = totpType ∨ k.typ = hotpType) :
    ∃ u, urlParse k.String = .ok u ∧ u.Scheme = lit "otpauth" ∧ u.Host = k.typ ∧
      u.Query = k.queryPairs ∧
      ((k.user.head? = some (chr '/') → chr ' ' ∉ k.user) →
        trimPrefix u.Path (lit "/") = k.user) := by
  obtain ⟨hps, hp0, up, hup, htrim⟩ := pathPart_facts k
  obtain ⟨kv, rest, hkv⟩ : ∃ kv rest, k.queryPairs = kv :: rest := ⟨_, _, rfl⟩
  have hq := encoded_query_facts kv rest
  rw [← hkv] at hq
  refine ⟨{ Scheme := lit "otpauth", Host := k.typ, Path := up,
            RawPath := if k.pathPart = escape up .path then [] else k.pathPart,
            RawQuery := List.intercalate (lit "&")
              (k.queryPairs.map (fun kv => QueryEscape kv.1 ++ lit "=" ++ QueryEscape kv.2)) },
    ?_, rfl, rfl, ?_, htrim⟩
  · rw [String_eq k ht]
    exact urlParse_otpauth k.typ k.pathPart _ up ht hps hp0 hq.1 hq.2 hup
  · exact Query_of_encoded _ k.queryPairs (by rw [hkv]; simp) rfl

theorem Get_queryPairs (k : KeyURI) (ht : k.typ = totpType ∨ k.typ = hotpType) :
    k.queryPairs.Get (lit "secret") = k.secret ∧
    k.queryPairs.Get (lit "algorithm") = k.algorithm ∧
    k.queryPairs.Get (lit "issuer") = k.issuer ∧
    k.queryPairs.Get (lit "digits") = Itoa k.digits ∧
    (k.typ = totpType → k.queryPairs.Get (lit "period") = Itoa k.period) ∧
    (k.typ = hotpType → k.queryPairs.Get (lit "counter") = formatUint k.counter) := by
  obtain ⟨typ, user, secret, algorithm, digits, period, counter, issuer⟩ := k
  simp only at ht
  unfold KeyURI.queryPairs
  simp only
  have hth : totpType ≠ hotpType := by decide
  rcases ht with rfl | rfl
  · by_cases hi : issuer = []
    · simp only [hi, if_true, if_false, hth, ne_eq, not_true_eq_false]
      exact ⟨rfl, rfl, rfl, rfl, fun _ => rfl, fun h => h.elim⟩
    · simp only [hi, if_true, if_false, hth, ne_eq, not_false_eq_true]
      exact ⟨rfl, rfl, rfl, rfl, fun _ => rfl, fun h => h.elim⟩
  · by_cases hi : issuer = []
    · simp only [hi, if_true, if_false, hth.symm, ne_eq, not_true_eq_false]
      exact ⟨rfl, rfl, rfl, rfl, fun h => h.elim, fun _ => rfl⟩
    · simp only [hi, if_true, if_false, hth.symm, ne_eq, not_false_eq_true]
      exact ⟨rfl, rfl, rfl, rfl, fun h => h.elim, fun _ => rfl⟩

theorem Itoa_ne_nil (n : Int) : Itoa n ≠ [] := by
  unfold Itoa
  split_ifs
  · simp
  · exact formatUint_ne_nil _

theorem parseUser_of_trimmed (k0 : KeyURI) (path user : Str)
    (hpath : trimPrefix path (lit "/") = user) (hcolon : chr ':' ∉ user)
    (htrim : TrimSpace user = user) : k0.parseUser path = { k0 with user := user } := by
  unfold KeyURI.parseUser
  rw [hpath]
  unfold splitN2
  rw [cut_not_mem _ _ hcolon]
  simp only [Bool.false_eq_true, if_false]
  show ({ k0 with user := TrimSpace user } : KeyURI) = _
  rw [htrim]

theorem hash_ne_none (k : KeyURI)
    (h : k.algorithm ∈ [lit "SHA1", lit "SHA256", lit "SHA512"]) : k.hash ≠ none := by
  unfold KeyURI.hash
  simp only [List.mem_cons, List.mem_singleton, List.not_mem_nil, or_false] at h
  rcases h with h | h | h <;> rw [h] <;> decide

theorem algorithm_ne_nil (a : Str) (h : a ∈ [lit "SHA1", lit "SHA256", lit "SHA512"]) :
    a ≠ [] := by
  intro h0
  rw [h0] at h
  revert h
  decide

/-- C7 as stated fails, each time on a label without a colon: a label with
a leading space is serialized as `/%20a` and parsed back trimmed; the label
`/a b` is serialized as `/a%20b` and parsed back without its slash; a totp
KeyURI with a non-zero counter is parsed back with counter 0 and a hotp KeyURI
with a non-zero period with period 0, since only the type's own field is
serialized; an empty secret and an algorithm other than SHA1, SHA256, SHA512
make ParseKeyURI fail. -/
theorem C7_roundtrip_counterexample :
    (chr ':' ∉ lit " a" ∧
      ParseKeyURI (KeyURI.String { sampleTOTPKey with user := lit " a" })
        = .ok { sampleTOTPKey with user := lit "a" } ∧
      ParseKeyURI (KeyURI.String { sampleTOTPKey with user := lit " a" })
        ≠ .ok { sampleTOTPKey with user := lit " a" }) ∧
    ParseKeyURI (KeyURI.String { sampleTOTPKey with user := lit "/a b" })
      = .ok { sampleTOTPKey with user := lit "a b" } ∧
    ParseKeyURI (KeyURI.String { sampleTOTPKey with counter := 1 })
      = .ok { sampleTOTPKey with counter := 0 } ∧
    ParseKeyURI (KeyURI.String { sampleHOTPKey with period := 30 })
      = .ok { sampleHOTPKey with period := 0 } ∧
    ParseKeyURI (KeyURI.String { sampleTOTPKey with secret := [] }) = .error .ErrEmptySecret ∧
    ParseKeyURI (KeyURI.String { sampleTOTPKey with algorithm := lit "MD5" })
      = .error .ErrInvalidAlgorithm := by
  decide

/-- C7 (amended): for every KeyURI k of type totp or hotp whose label
contains no colon, has no leading or trailing white space and does not both
start with a slash and contain a space, whose secret is not empty, whose
algorithm is SHA1, SHA256 or SHA512, and whose field of the other type is zero
(counter for totp, period for hotp), ParseKeyURI(k.String()) succeeds and
returns a KeyURI equal to k in every field. (digits and period are Go ints,
counter a uint64.) -/
theorem C7_parse_String_roundtrip (k : KeyURI) (ht : k.typ = totpType ∨ k.typ = hotpType)
    (hcolon : chr ':' ∉ k.user) (htrim : TrimSpace k.user = k.user)
    (hslash : k.user.head? = some (chr '/') → chr ' ' ∉ k.user)
    (hsecret : k.secret ≠ [])
    (halg : k.algorithm ∈ [lit "SHA1", lit "SHA256", lit "SHA512"])
    (hother : (k.typ = totpType → k.counter = 0) ∧ (k.typ = hotpType → k.period = 0))
    (hdigits : -2 ^ 63 ≤ k.digits ∧ k.digits < 2 ^ 63)
    (hperiod : -2 ^ 63 ≤ k.period ∧ k.period < 2 ^ 63)
    (hcounter : k.counter < 2 ^ 64) :
    ParseKeyURI k.String = .ok k := by
  obtain ⟨u, hu, hs, hh, hq, hpath⟩ := urlParse_String k ht
  obtain ⟨g1, g2, g3, g4, g5, g6⟩ := Get_queryPairs k ht
  rw [ParseKeyURI_of_parse _ u hu hs (by rw [hh]; exact ht), hq,
    parseUser_of_trimmed _ _ _ (hpath hslash) hcolon htrim, hh]
  have hth : totpType ≠ hotpType := by decide
  obtain ⟨typ, user, secret, algorithm, digits, period, counter, issuer⟩ := k
  simp only at ht hcolon htrim hslash hsecret halg hother hdigits hperiod hcounter g5 g6
  unfold KeyURI.parseParams KeyURI.parseSecret
  rw [g1, if_pos hsecret]
  simp only
  unfold KeyURI.parseAlgorithm
  rw [g2, if_pos (algorithm_ne_nil _ halg), if_neg (hash_ne_none _ halg)]
  simp only
  unfold KeyURI.parseDigits KeyURI.parseIssuer
  rw [g3, g4, if_pos (Itoa_ne_nil _), Atoi_Itoa _ hdigits.1 hdigits.2]
  unfold KeyURI.parseTyped
  rcases ht with rfl | rfl
  · have hc0 : counter = 0 := hother.1 rfl
    subst hc0
    by_cases hi : issuer = []
    · subst hi
      simp only [ne_eq, not_true_eq_false, if_false, if_true]
      rw [g5 rfl, if_pos (Itoa_ne_nil _), Atoi_Itoa _ hperiod.1 hperiod.2]
    · simp only [ne_eq, hi, not_false_eq_true, if_true]
      rw [g5 rfl, if_pos (Itoa_ne_nil _), Atoi_Itoa _ hperiod.1 hperiod.2]
  · have hp0 : period = 0 := hother.2 rfl
    subst hp0
    by_cases hi : issuer = []
    · subst hi
      simp only [ne_eq, not_true_eq_false, if_false, if_true, hth.symm]
      rw [g6 rfl, if_pos (formatUint_ne_nil _), ParseUint_formatUint _ hcounter]
    · simp only [ne_eq, hi, not_false_eq_true, if_true, hth.symm, if_false]
      rw [g6 rfl, if_pos (formatUint_ne_nil _), ParseUint_formatUint _ hcounter]

/-- C7 at the two KeyURIs of the repository's serializer test. -/
theorem C7_parse_String_witness :
    ParseKeyURI sampleTOTPKey.String = .ok sampleTOTPKey ∧
    ParseKeyURI sampleHOTPKey.String = .ok sampleHOTPKey :=
  ⟨C7_parse_String_roundtrip sampleTOTPKey (by decide) (by decide) (by decide) (by decide)
      (by decide) (by decide) (by decide) (by decide) (by decide) (by decide),
   C7_parse_String_roundtrip sampleHOTPKey (by decide) (by decide) (by decide) (by decide)
      (by decide) (by decide) (by decide) (by decide) (by decide) (by decide)⟩

theorem queryPairs_keys (k : KeyURI) (ht : k.typ = totpType ∨ k.typ = hotpType) :
    List.Pairwise (fun a b => strLt a b = true) (k.queryPairs.map Prod.fst) ∧
    lit "algorithm" ∈ k.queryPairs.map Prod.fst ∧
    lit "digits" ∈ k.queryPairs.map Prod.fst ∧
    lit "secret" ∈ k.queryPairs.map Prod.fst ∧
    (lit "period" ∈ k.queryPairs.map Prod.fst ↔ k.typ = totpType) ∧
    (lit "counter" ∈ k.queryPairs.map Prod.fst ↔ k.typ = hotpType) ∧
    (lit "issuer" ∈ k.queryPairs.map Prod.fst ↔ k.issuer ≠ []) ∧
    (∀ key ∈ k.queryPairs.map Prod.fst,
      key ∈ [lit "algorithm", lit "counter", lit "digits", lit "issuer", lit "period",
        lit "secret"]) := by
  obtain ⟨typ, user, secret, algorithm, digits, period, counter, issuer⟩ := k
  simp only at ht
  have hth : totpType ≠ hotpType := by decide
  simp only
  rcases ht with rfl | rfl
  · by_cases hi : issuer = []
    · have hk : (KeyURI.queryPairs ⟨totpType, user, secret, algorithm, digits, period, counter,
          issuer⟩).map Prod.fst = [lit "algorithm", lit "digits", lit "period", lit "secret"] := by
        simp only [KeyURI.queryPairs, hi, hth, if_true, if_false, ne_eq, not_true_eq_false]
        rfl
      rw [hk]
      exact ⟨by decide, by decide, by decide, by decide, ⟨fun _ => rfl, fun _ => by decide⟩,
        ⟨fun h => absurd h (by decide), fun h => absurd h hth⟩,
        ⟨fun h => absurd h (by decide), fun h => absurd hi h⟩, by decide⟩
    · have hk : (KeyURI.queryPairs ⟨totpType, user, secret, algorithm, digits, period, counter,
          issuer⟩).map Prod.fst
          = [lit "algorithm", lit "digits", lit "issuer", lit "period", lit "secret"] := by
        simp only [KeyURI.queryPairs, hi, hth, if_true, if_false, ne_eq, not_false_eq_true]
        rfl
      rw [hk]
      exact ⟨by decide, by decide, by decide, by decide, ⟨fun _ => rfl, fun _ => by decide⟩,
        ⟨fun h => absurd h (by decide), fun h => absurd h hth⟩,
        ⟨fun _ => hi, fun _ => by decide⟩, by decide⟩
  · by_cases hi : issuer = []
    · have hk : (KeyURI.queryPairs ⟨hotpType, user, secret, algorithm, digits, period, counter,
          issuer⟩).map Prod.fst = [lit "algorithm", lit "counter", lit "digits", lit "secret"] := by
        simp only [KeyURI.queryPairs, hi, hth.symm, if_true, if_false, ne_eq, not_true_eq_false]
        rfl
      rw [hk]
      exact ⟨by decide, by decide, by decide, by decide,
        ⟨fun h => absurd h (by decide), fun h => absurd h hth.symm⟩,
        ⟨fun _ => rfl, fun _ => by decide⟩,
        ⟨fun h => absurd h (by decide), fun h => absurd hi h⟩, by decide⟩
    · have hk : (KeyURI.queryPairs ⟨hotpType, user, secret, algorithm, digits, period, counter,
          issuer⟩).map Prod.fst
          = [lit "algorithm", lit "counter", lit "digits", lit "issuer", lit "secret"] := by
        simp only [KeyURI.queryPairs, hi, hth.symm, if_true, if_false, ne_eq, not_false_eq_true]
        rfl
      rw [hk]
      exact ⟨by decide, by decide, by decide, by decide,
        ⟨fun h => absurd h (by decide), fun h => absurd h hth.symm⟩,
        ⟨fun _ => rfl, fun _ => by decide⟩,
        ⟨fun _ => hi, fun _ => by decide⟩, by decide⟩

/-- C8: for every KeyURI k of type totp or hotp, k.String() is
`otpauth://` followed by the type literal, the path and `?` with the query
string, and parses as a URL with scheme otpauth and host equal to the type;
the query string is the `&`-joined list of escaped `key=value` pairs whose
keys are strictly ascending in byte-wise lexicographic order and are: algorithm,
digits and secret always, period if and only if the type is totp, counter if
and only if the type is hotp, issuer if and only if the issuer is not empty;
the values of digits, period and counter are the base-10 renderings
(strconv.Itoa, strconv.FormatUint) of the fields. -/
theorem C8_String_sorted_query (k : KeyURI) (ht : k.typ = totpType ∨ k.typ = hotpType) :
    (k.String = lit "otpauth://" ++ k.typ ++ k.pathPart ++ lit "?"
      ++ List.intercalate (lit "&")
          (k.queryPairs.map (fun kv => QueryEscape kv.1 ++ lit "=" ++ QueryEscape kv.2))) ∧
    (∃ u, urlParse k.String = .ok u ∧ u.Scheme = lit "otpauth" ∧ u.Host = k.typ ∧
      u.Query = k.queryPairs) ∧
    List.Pairwise (fun a b => strLt a b = true) (k.queryPairs.map Prod.fst) ∧
    (lit "algorithm" ∈ k.queryPairs.map Prod.fst ∧
      lit "digits" ∈ k.queryPairs.map Prod.fst ∧
      lit "secret" ∈ k.queryPairs.map Prod.fst ∧
      (lit "period" ∈ k.queryPairs.map Prod.fst ↔ k.typ = totpType) ∧
      (lit "counter" ∈ k.queryPairs.map Prod.fst ↔ k.typ = hotpType) ∧
      (lit "issuer" ∈ k.queryPairs.map Prod.fst ↔ k.issuer ≠ []) ∧
      (∀ key ∈ k.queryPairs.map Prod.fst,
        key ∈ [lit "algorithm", lit "counter", lit "digits", lit "issuer", lit "period",
          lit "secret"])) ∧
    (k.queryPairs.Get (lit "digits") = Itoa k.digits ∧
      (k.typ = totpType → k.queryPairs.Get (lit "period") = Itoa k.period) ∧
      (k.typ = hotpType → k.queryPairs.Get (lit "counter") = formatUint k.counter)) ∧
    (decVal (formatUint k.counter) = k.counter ∧
      decVal (formatUint k.digits.natAbs) = k.digits.natAbs ∧
      decVal (formatUint k.period.natAbs) = k.period.natAbs) := by
  obtain ⟨u, hu, hs, hh, hq, -⟩ := urlParse_String k ht
  obtain ⟨-, -, -, g4, g5, g6⟩ := Get_queryPairs k ht
  obtain ⟨p1, p2⟩ := queryPairs_keys k ht
  exact ⟨String_eq k ht, ⟨u, hu, hs, hh, hq⟩, p1, p2, ⟨g4, g5, g6⟩,
    decVal_formatUint _, decVal_formatUint _, decVal_formatUint _⟩

/-- C8 at the totp KeyURI of the repository's serializer test: the serialized
string of the test. -/
theorem C8_String_witness :
    sampleTOTPKey.String
      = lit ("otpauth://totp/test%40example.com?algorithm=SHA256&digits=8&issuer=Example" ++
          "&period=15&secret=4ezxc3dfa4y645bdxbdebbzzb733xdwfzda56zdda5fd4zcdaczx") :=
  (C8_String_sorted_query sampleTOTPKey (Or.inl rfl)).1.trans (by decide)

/-! ## Key URI parser: successful results -/

theorem parseSecret_ok (k0 k : KeyURI) (q : Values) (h : k0.parseSecret q = .ok k) :
    q.Get (lit "secret") ≠ [] ∧ k = { k0 with secret := q.Get (lit "secret") } := by
  rcases parseSecret_cases k0 q with ⟨_, h1⟩ | ⟨h0, h1⟩
  · rw [h1] at h
    cases h
  · rw [h1] at h
    cases h
    exact ⟨h0, rfl⟩

theorem parseAlgorithm_ok (k0 k : KeyURI) (q : Values) (h : k0.parseAlgorithm q = .ok k) :
    (q.Get (lit "algorithm") = [] ∧ k = k0) ∨
    (q.Get (lit "algorithm") ≠ [] ∧ k = { k0 with algorithm := q.Get (lit "algorithm") } ∧
      k.hash ≠ none) := by
  unfold KeyURI.parseAlgorithm at h
  by_cases h1 : q.Get (lit "algorithm") ≠ []
  · rw [if_pos h1] at h
    by_cases h2 : KeyURI.hash { k0 with algorithm := q.Get (lit "algorithm") } = none
    · rw [if_pos h2] at h
      cases h
    · rw [if_neg h2] at h
      cases h
      exact Or.inr ⟨h1, rfl, h2⟩
  · rw [if_neg h1] at h
    cases h
    exact Or.inl ⟨not_not.1 h1, rfl⟩

theorem parseIssuer_eq (k0 : KeyURI) (q : Values) :
    k0.parseIssuer q
      = { k0 with issuer := if q.Get (lit "issuer") ≠ [] then q.Get (lit "issuer")
                            else k0.issuer } := by
  unfold KeyURI.parseIssuer
  by_cases h : q.Get (lit "issuer") ≠ []
  · rw [if_pos h, if_pos h]
  · rw [if_neg h, if_neg h]

theorem parseDigits_ok (k0 k : KeyURI) (q : Values) (h : k0.parseDigits q = .ok k) :
    (q.Get (lit "digits") = [] ∧ k = k0) ∨
    (q.Get (lit "digits") ≠ [] ∧ ∃ n, Atoi (q.Get (lit "digits")) = .ok n ∧
      k = { k0 with digits := n }) := by
  unfold KeyURI.parseDigits at h
  by_cases h1 : q.Get (lit "digits") ≠ []
  · rw [if_pos h1] at h
    cases ha : Atoi (q.Get (lit "digits")) with
    | error e =>
      rw [ha] at h
      cases h
    | ok n =>
      rw [ha] at h
      cases h
      exact Or.inr ⟨h1, n, rfl, rfl⟩
  · rw [if_neg h1] at h
    cases h
    exact Or.inl ⟨not_not.1 h1, rfl⟩

theorem parseTyped_ok (k0 k : KeyURI) (q : Values) (h : k0.parseTyped q = .ok k) :
    (k0.typ = totpType ∧
      ((q.Get (lit "period") = [] ∧ k = k0) ∨
       (q.Get (lit "period") ≠ [] ∧ ∃ n, Atoi (q.Get (lit "period")) = .ok n ∧
         k = { k0 with period := n }))) ∨
    (k0.typ ≠ totpType ∧ k0.typ = hotpType ∧ q.Get (lit "counter") ≠ [] ∧
      ∃ n, ParseUint (q.Get (lit "counter")) = .ok n ∧ k = { k0 with counter := n }) ∨
    (k0.typ ≠ totpType ∧ k0.typ ≠ hotpType ∧ k = k0) := by
  unfold KeyURI.parseTyped at h
  by_cases h1 : k0.typ = totpType
  · rw [if_pos h1] at h
    left
    refine ⟨h1, ?_⟩
    by_cases h2 : q.Get (lit "period") ≠ []
    · rw [if_pos h2] at h
      cases ha : Atoi (q.Get (lit "period")) with
      | error e =>
        rw [ha] at h
        cases h
      | ok n =>
        rw [ha] at h
        cases h
        exact Or.inr ⟨h2, n, rfl, rfl⟩
    · rw [if_neg h2] at h
      cases h
      exact Or.inl ⟨not_not.1 h2, rfl⟩
  · rw [if_neg h1] at h
    right
    by_cases h3 : k0.typ = hotpType
    · rw [if_pos h3] at h
      left
      by_cases h4 : q.Get (lit "counter") ≠ []
      · rw [if_pos h4] at h
        cases ha : ParseUint (q.Get (lit "counter")) with
        | error e =>
          rw [ha] at h
          cases h
        | ok n =>
          rw [ha] at h
          cases h
          exact ⟨h1, h3, h4, n, rfl, rfl⟩
      · rw [if_neg h4] at h
        cases h
    · rw [if_neg h3] at h
      cases h
      exact Or.inr ⟨h1, h3, rfl⟩

/-- What a successful `parseParams` leaves in each field. -/
theorem parseParams_ok (k0 k : KeyURI) (q : Values) (h : k0.parseParams q = .ok k) :
    k.typ = k0.typ ∧ k.user = k0.user ∧
    (q.Get (lit "secret") ≠ [] ∧ k.secret = q.Get (lit "secret")) ∧
    ((q.Get (lit "algorithm") = [] ∧ k.algorithm = k0.algorithm) ∨
      (q.Get (lit "algorithm") ≠ [] ∧ k.algorithm = q.Get (lit "algorithm") ∧ k.hash ≠ none)) ∧
    (k.issuer = if q.Get (lit "issuer") ≠ [] then q.Get (lit "issuer") else k0.issuer) ∧
    ((q.Get (lit "digits") = [] ∧ k.digits = k0.digits) ∨
      (q.Get (lit "digits") ≠ [] ∧ Atoi (q.Get (lit "digits")) = .ok k.digits)) ∧
    (k0.typ = totpType → k.counter = k0.counter ∧
      ((q.Get (lit "period") = [] ∧ k.period = k0.period) ∨
        (q.Get (lit "period") ≠ [] ∧ Atoi (q.Get (lit "period")) = .ok k.period))) ∧
    (k0.typ = hotpType → k.period = k0.period ∧ q.Get (lit "counter") ≠ [] ∧
      ParseUint (q.Get (lit "counter")) = .ok k.counter) := by
  unfold KeyURI.parseParams at h
  cases h1 : k0.parseSecret q with
  | error e =>
    rw [h1] at h
    cases h
  | ok k1 =>
    rw [h1] at h
    simp only at h
    obtain ⟨s1, rfl⟩ := parseSecret_ok _ _ _ h1
    cases h2 : KeyURI.parseAlgorithm { k0 with secret := q.Get (lit "secret") } q with
    | error e =>
      rw [h2] at h
      cases h
    | ok k2 =>
      rw [h2] at h
      simp only at h
      cases h3 : (k2.parseIssuer q).parseDigits q with
      | error e =>
        rw [h3] at h
        cases h
      | ok k4 =>
        rw [h3] at h
        simp only at h
        rw [parseIssuer_eq] at h3
        have hth : totpType ≠ hotpType := by decide
        have a2 := parseAlgorithm_ok _ _ _ h2
        have a3 := parseDigits_ok _ _ _ h3
        have a4 := parseTyped_ok _ _ _ h
        have halg : (q.Get (lit "algorithm") = [] ∧ k2.algorithm = k0.algorithm) ∨
            (q.Get (lit "algorithm") ≠ [] ∧ k2.algorithm = q.Get (lit "algorithm") ∧
              k2.hash ≠ none) := by
          rcases a2 with ⟨e1, e2⟩ | ⟨e1, e2, e3⟩
          · exact Or.inl ⟨e1, by rw [e2]⟩
          · exact Or.inr ⟨e1, by rw [e2], e3⟩
        have hk2 : k2.typ = k0.typ ∧ k2.user = k0.user ∧ k2.secret = q.Get (lit "secret") ∧
            k2.digits = k0.digits ∧ k2.period = k0.period ∧ k2.counter = k0.counter ∧
            k2.issuer = k0.issuer := by
          rcases a2 with ⟨_, e2⟩ | ⟨_, e2, _⟩ <;> rw [e2] <;> exact ⟨rfl, rfl, rfl, rfl, rfl, rfl, rfl⟩
        obtain ⟨t2, u2, s2, d2, p2, c2, i2⟩ := hk2
        have hk4 : k4.typ = k0.typ ∧ k4.user = k0.user ∧ k4.secret = q.Get (lit "secret") ∧
            k4.algorithm = k2.algorithm ∧ k4.period = k0.period ∧ k4.counter = k0.counter ∧
            k4.issuer = (if q.Get (lit "issuer") ≠ [] then q.Get (lit "issuer")
              else k0.issuer) ∧
            ((q.Get (lit "digits") = [] ∧ k4.digits = k0.digits) ∨
              (q.Get (lit "digits") ≠ [] ∧ Atoi (q.Get (lit "digits")) = .ok k4.digits)) := by
          rcases a3 with ⟨e1, e2⟩ | ⟨e1, n, e2, e3⟩
          · rw [e2]
            exact ⟨t2, u2, s2, rfl, p2, c2, by rw [i2], Or.inl ⟨e1, d2⟩⟩
          · rw [e3]
            exact ⟨t2, u2, s2, rfl, p2, c2, by rw [i2], Or.inr ⟨e1, e2⟩⟩
        obtain ⟨t4, u4, s4, g4, p4, c4, i4, d4⟩ := hk4
        have hhash : ∀ kk : KeyURI, kk.algorithm = k2.algorithm → (k2.hash ≠ none → kk.hash ≠ none) := by
          intro kk hk
          unfold KeyURI.hash
          rw [hk]
          exact id
        rcases a4 with ⟨ty, hper⟩ | ⟨nty, ty, hc, n, hn, rfl⟩ | ⟨nt, nh, rfl⟩
        · rcases hper with ⟨e1, rfl⟩ | ⟨e1, n, hn, rfl⟩
          · refine ⟨t4, u4, ⟨s1, s4⟩, ?_, i4, d4, fun _ => ⟨c4, Or.inl ⟨e1, p4⟩⟩, ?_⟩
            · rcases halg with ⟨x, y⟩ | ⟨x, y, z⟩
              · exact Or.inl ⟨x, by rw [g4, y]⟩
              · exact Or.inr ⟨x, by rw [g4, y], hhash _ g4 z⟩
            · intro hh
              rw [t4] at ty
              exact absurd (ty.symm.trans hh) hth
          · refine ⟨t4, u4, ⟨s1, s4⟩, ?_, i4, d4, fun _ => ⟨c4, Or.inr ⟨e1, hn⟩⟩, ?_⟩
            · rcases halg with ⟨x, y⟩ | ⟨x, y, z⟩
              · exact Or.inl ⟨x, by show k4.algorithm = _; rw [g4, y]⟩
              · exact Or.inr ⟨x, by show k4.algorithm = _; rw [g4, y],
                  hhash { k4 with period := n } g4 z⟩
            · intro hh
              rw [t4] at ty
              exact absurd (ty.symm.trans hh) hth
        · refine ⟨t4, u4, ⟨s1, s4⟩, ?_, i4, d4, ?_, fun _ => ⟨p4, hc, hn⟩⟩
          · rcases halg with ⟨x, y⟩ | ⟨x, y, z⟩
            · exact Or.inl ⟨x, by show k4.algorithm = _; rw [g4, y]⟩
            · exact Or.inr ⟨x, by show k4.algorithm = _; rw [g4, y],
                hhash { k4 with counter := n } g4 z⟩
          · intro hh
            rw [t4] at nty
            exact absurd hh nty
        · refine ⟨t4, u4, ⟨s1, s4⟩, ?_, i4, d4, ?_, ?_⟩
          · rcases halg with ⟨x, y⟩ | ⟨x, y, z⟩
            · exact Or.inl ⟨x, by rw [g4, y]⟩
            · exact Or.inr ⟨x, by rw [g4, y], hhash _ g4 z⟩
          · intro hh
            rw [t4] at nt
            exact absurd hh nt
          · intro hh
            rw [t4] at nh
            exact absurd hh nh

/-! ## Key URI parser: algorithm, numbers and defaults -/

theorem parseParams_of_secret (k0 : KeyURI) (q : Values) (hsec : q.Get (lit "secret") ≠ []) :
    k0.parseParams q
      = match KeyURI.parseAlgorithm { k0 with secret := q.Get (lit "secret") } q with
        | .error e => .error e
        | .ok k2 =>
          match (k2.parseIssuer q).parseDigits q with
          | .error e => .error e
          | .ok k4 => k4.parseTyped q := by
  unfold KeyURI.parseParams
  rcases parseSecret_cases k0 q with ⟨h0, _⟩ | ⟨_, h1⟩
  · exact absurd h0 hsec
  · rw [h1]

theorem hash_eq_none (k : KeyURI)
    (h : k.algorithm ∉ [lit "SHA1", lit "SHA256", lit "SHA512"]) : k.hash = none := by
  unfold KeyURI.hash
  simp only [List.mem_cons, List.mem_singleton, List.not_mem_nil, or_false, not_or] at h
  rw [if_neg h.1, if_neg h.2.1, if_neg h.2.2]

theorem parseAlgorithm_valid (k : KeyURI) (q : Values)
    (h : q.Get (lit "algorithm") = [] ∨
      q.Get (lit "algorithm") ∈ [lit "SHA1", lit "SHA256", lit "SHA512"]) :
    k.parseAlgorithm q
      = .ok { k with algorithm := if q.Get (lit "algorithm") ≠ [] then q.Get (lit "algorithm")
                                  else k.algorithm } := by
  unfold KeyURI.parseAlgorithm
  by_cases h0 : q.Get (lit "algorithm") ≠ []
  · rcases h with h | h
    · exact absurd h h0
    · rw [if_pos h0, if_neg (hash_ne_none _ h), if_pos h0]
  · rw [if_neg h0, if_neg h0]

/-- The defaults and the type-dependent period with which `parseParams` runs. -/
theorem parse_start (uri : Str) (u : URL) (hu : urlParse uri = .ok u)
    (hs : u.Scheme = lit "otpauth") (ht : u.Host = totpType ∨ u.Host = hotpType) :
    ∃ k0 : KeyURI, ParseKeyURI uri = k0.parseParams u.Query ∧ k0.typ = u.Host ∧
      k0.algorithm = lit "SHA1" ∧ k0.digits = 6 ∧ k0.counter = 0 ∧ k0.issuer = [] ∧
      k0.secret = [] ∧
      k0.period = (if u.Host = totpType then 30 else 0) ∧
      k0.user = TrimSpace ((splitN2 (chr ':') (trimPrefix u.Path (lit "/"))).getLastD []) :=
  ⟨_, ParseKeyURI_of_parse uri u hu hs ht, rfl, rfl, rfl, rfl, rfl, rfl, rfl, rfl⟩

/-- C11 as stated fails for an algorithm parameter that is present with an
empty value: the empty string is none of the three literals, but the code
skips an empty value and keeps the default SHA1. -/
theorem C11_empty_algorithm_counterexample :
    urlParse (lit "otpauth://totp/x?secret=AA&algorithm=")
      = .ok { Scheme := lit "otpauth", Host := lit "totp", Path := lit "/x",
              RawQuery := lit "secret=AA&algorithm=" } ∧
    (lit "algorithm", []) ∈ URL.Query { RawQuery := lit "secret=AA&algorithm=" } ∧
    ([] : Str) ∉ [lit "SHA1", lit "SHA256", lit "SHA512"] ∧
    ParseKeyURI (lit "otpauth://totp/x?secret=AA&algorithm=")
      = .ok { typ := lit "totp", user := lit "x", secret := lit "AA", algorithm := lit "SHA1",
              digits := 6, period := 30 } := by
  decide

/-- C11 (amended): for every URI with scheme otpauth, a valid type and a
secret, if the algorithm query parameter has a non-empty value (the first one,
as `Values.Get` reads it) that is not exactly one of the literals SHA1,
SHA256, SHA512, ParseKeyURI fails with ErrInvalidAlgorithm. -/
theorem C11_invalid_algorithm (uri : Str) (u : URL) (hu : urlParse uri = .ok u)
    (hs : u.Scheme = lit "otpauth") (ht : u.Host = lit "totp" ∨ u.Host = lit "hotp")
    (hsec : u.Query.Get (lit "secret") ≠ [])
    (ha : u.Query.Get (lit "algorithm") ≠ [])
    (hbad : u.Query.Get (lit "algorithm") ∉ [lit "SHA1", lit "SHA256", lit "SHA512"]) :
    ParseKeyURI uri = .error .ErrInvalidAlgorithm := by
  obtain ⟨k0, hp, -⟩ := parse_start uri u hu hs ht
  rw [hp, parseParams_of_secret _ _ hsec]
  have : KeyURI.parseAlgorithm { k0 with secret := u.Query.Get (lit "secret") } u.Query
      = .error .ErrInvalidAlgorithm := by
    unfold KeyURI.parseAlgorithm
    rw [if_pos ha, if_pos (hash_eq_none _ hbad)]
  rw [this]

/-- C11 at the repository's test URI with algorithm=SHA2. -/
theorem C11_invalid_algorithm_witness :
    ParseKeyURI (lit "otpauth://totp/test%40example.com?secret=4ezxc3dfa4y&algorithm=SHA2")
      = .error .ErrInvalidAlgorithm :=
  C11_invalid_algorithm _
    { Scheme := lit "otpauth", Host := lit "totp", Path := lit "/test@example.com",
      RawPath := lit "/test%40example.com", RawQuery := lit "secret=4ezxc3dfa4y&algorithm=SHA2" }
    (by decide) (by decide) (by decide) (by decide) (by decide) (by decide)

theorem not_ok_of_error {ε α : Type} (x : Except ε α) (e : ε) (h : x = .error e) :
    ∀ a, x ≠ .ok a := by
  intro a ha
  rw [h] at ha
  cases ha

theorem parseDigits_valid (k : KeyURI) (q : Values)
    (h : q.Get (lit "digits") = [] ∨ ∃ n, Atoi (q.Get (lit "digits")) = .ok n) :
    ∃ k4, k.parseDigits q = .ok k4 ∧ k4.typ = k.typ ∧ k4.algorithm = k.algorithm ∧
      k4.period = k.period ∧ k4.counter = k.counter ∧
      (q.Get (lit "digits") = [] → k4.digits = k.digits) := by
  unfold KeyURI.parseDigits
  by_cases h0 : q.Get (lit "digits") ≠ []
  · rcases h with h | ⟨n, h⟩
    · exact absurd h h0
    · rw [if_pos h0, h]
      exact ⟨_, rfl, rfl, rfl, rfl, rfl, fun e => absurd e h0⟩
  · rw [if_neg h0]
    exact ⟨_, rfl, rfl, rfl, rfl, rfl, fun _ => rfl⟩

/-- C12 as stated fails: a hotp URI ignores the period parameter, so an
invalid period does not make it fail; and an empty value, which is no valid
integer either, is skipped for digits and gives ErrEmptyCounter, one of the
five named errors, for counter. -/
theorem C12_ignored_and_empty_counterexample :
    (∃ e, Atoi (lit "abc") = .error e) ∧
    ParseKeyURI (lit "otpauth://hotp/x?secret=AA&counter=1&period=abc")
      = .ok { typ := lit "hotp", user := lit "x", secret := lit "AA", algorithm := lit "SHA1",
              digits := 6, counter := 1 } ∧
    (∃ e, Atoi [] = .error e) ∧ (∃ e, ParseUint [] = .error e) ∧
    ParseKeyURI (lit "otpauth://totp/x?secret=AA&digits=")
      = .ok { typ := lit "totp", user := lit "x", secret := lit "AA", algorithm := lit "SHA1",
              digits := 6, period := 30 } ∧
    ParseKeyURI (lit "otpauth://hotp/x?secret=AA&counter=") = .error .ErrEmptyCounter := by
  refine ⟨⟨_, rfl⟩, by decide, ⟨_, rfl⟩, ⟨_, rfl⟩, by decide, by decide⟩

/-- C12 (amended): for every URI with scheme otpauth, a valid type, a secret
and an absent or valid algorithm: if digits has a non-empty value that is not
a valid base-10 int, ParseKeyURI fails with the NumError of strconv.Atoi for
that value; if digits is absent, empty or valid, then for type totp a
non-empty period value that is not a valid int gives the NumError of
strconv.Atoi for it, and for type hotp a non-empty counter value that is not a
valid unsigned 64-bit integer gives the NumError of strconv.ParseUint for it.
A NumError is neither success nor one of the five named errors. -/
theorem C12_numeric_parse_errors (uri : Str) (u : URL) (hu : urlParse uri = .ok u)
    (hs : u.Scheme = lit "otpauth") (ht : u.Host = lit "totp" ∨ u.Host = lit "hotp")
    (hsec : u.Query.Get (lit "secret") ≠ [])
    (halg : u.Query.Get (lit "algorithm") = [] ∨
      u.Query.Get (lit "algorithm") ∈ [lit "SHA1", lit "SHA256", lit "SHA512"]) :
    (u.Query.Get (lit "digits") ≠ [] → (∀ n, Atoi (u.Query.Get (lit "digits")) ≠ .ok n) →
      ∃ ne, ParseKeyURI uri = .error (.num (lit "Atoi") (u.Query.Get (lit "digits")) ne)) ∧
    ((u.Query.Get (lit "digits") = [] ∨ ∃ n, Atoi (u.Query.Get (lit "digits")) = .ok n) →
      (u.Host = lit "totp" → u.Query.Get (lit "period") ≠ [] →
        (∀ n, Atoi (u.Query.Get (lit "period")) ≠ .ok n) →
        ∃ ne, ParseKeyURI uri = .error (.num (lit "Atoi") (u.Query.Get (lit "period")) ne)) ∧
      (u.Host = lit "hotp" → u.Query.Get (lit "counter") ≠ [] →
        (∀ n, ParseUint (u.Query.Get (lit "counter")) ≠ .ok n) →
        ∃ ne, ParseKeyURI uri
          = .error (.num (lit "ParseUint") (u.Query.Get (lit "counter")) ne))) := by
  obtain ⟨k0, hp, ht0, -⟩ := parse_start uri u hu hs ht
  rw [hp, parseParams_of_secret _ _ hsec, parseAlgorithm_valid _ _ halg]
  simp only
  constructor
  · intro hd hbad
    cases ha : Atoi (u.Query.Get (lit "digits")) with
    | ok n => exact absurd ha (hbad n)
    | error e =>
      obtain ⟨ne, hne⟩ := Atoi_error _ _ ha
      refine ⟨ne, ?_⟩
      have : ∀ k : KeyURI, k.parseDigits u.Query = .error e := by
        intro k
        unfold KeyURI.parseDigits
        rw [if_pos hd, ha]
      rw [this, hne]
  · intro hdig
    obtain ⟨k4, hk4, t4, -⟩ := parseDigits_valid
      (KeyURI.parseIssuer
        { k0 with
          secret := u.Query.Get (lit "secret"),
          algorithm := if u.Query.Get (lit "algorithm") ≠ [] then u.Query.Get (lit "algorithm")
                       else k0.algorithm } u.Query) u.Query hdig
    rw [hk4]
    simp only
    have t4' : k4.typ = u.Host := by
      rw [t4, parseIssuer_typ]
      exact ht0
    unfold KeyURI.parseTyped
    constructor
    · intro hh hper hbad
      cases ha : Atoi (u.Query.Get (lit "period")) with
      | ok n => exact absurd ha (hbad n)
      | error e =>
        obtain ⟨ne, hne⟩ := Atoi_error _ _ ha
        refine ⟨ne, ?_⟩
        subst hne
        rw [if_pos (by rw [t4', hh]; rfl), if_pos hper]
    · intro hh hcnt hbad
      cases ha : ParseUint (u.Query.Get (lit "counter")) with
      | ok n => exact absurd ha (hbad n)
      | error e =>
        obtain ⟨ne, hne⟩ := ParseUint_error _ _ ha
        refine ⟨ne, ?_⟩
        subst hne
        rw [if_neg (by rw [t4', hh]; decide), if_pos (by rw [t4', hh]; rfl), if_pos hcnt]

/-- C12 at concrete URIs: digits=x6 on a totp URI and counter=-1 on a hotp
URI. -/
theorem C12_numeric_parse_witness :
    (∃ ne, ParseKeyURI (lit "otpauth://totp/x?secret=AA&digits=x6")
      = .error (.num (lit "Atoi") (lit "x6") ne)) ∧
    (∃ ne, ParseKeyURI (lit "otpauth://hotp/x?secret=AA&counter=-1")
      = .error (.num (lit "ParseUint") (lit "-1") ne)) :=
  ⟨(C12_numeric_parse_errors (lit "otpauth://totp/x?secret=AA&digits=x6")
      { Scheme := lit "otpauth", Host := lit "totp", Path := lit "/x",
        RawQuery := lit "secret=AA&digits=x6" }
      (by decide) (by decide) (by decide) (by decide) (Or.inl (by decide))).1
      (by decide)
      (not_ok_of_error _ (.num (lit "Atoi") (lit "x6") .invalid) (by decide)),
   ((C12_numeric_parse_errors (lit "otpauth://hotp/x?secret=AA&counter=-1")
      { Scheme := lit "otpauth", Host := lit "hotp", Path := lit "/x",
        RawQuery := lit "secret=AA&counter=-1" }
      (by decide) (by decide) (by decide) (by decide) (Or.inl (by decide))).2
      (Or.inl (by decide))).2 (by decide) (by decide)
      (not_ok_of_error _ (.num (lit "ParseUint") (lit "-1") .invalid) (by decide))⟩

theorem parseParams_succeeds (k0 : KeyURI) (q : Values) (hsec : q.Get (lit "secret") ≠ [])
    (halg : q.Get (lit "algorithm") = [] ∨
      q.Get (lit "algorithm") ∈ [lit "SHA1", lit "SHA256", lit "SHA512"])
    (hdig : q.Get (lit "digits") = [] ∨ ∃ n, Atoi (q.Get (lit "digits")) = .ok n)
    (htyp : (k0.typ = totpType ∧
        (q.Get (lit "period") = [] ∨ ∃ n, Atoi (q.Get (lit "period")) = .ok n)) ∨
      (k0.typ = hotpType ∧ q.Get (lit "counter") ≠ [] ∧
        ∃ n, ParseUint (q.Get (lit "counter")) = .ok n)) :
    ∃ k, k0.parseParams q = .ok k := by
  rw [parseParams_of_secret _ _ hsec, parseAlgorithm_valid _ _ halg]
  simp only
  obtain ⟨k4, hk4, t4, -⟩ := parseDigits_valid
    (KeyURI.parseIssuer
      { k0 with
        secret := q.Get (lit "secret"),
        algorithm := if q.Get (lit "algorithm") ≠ [] then q.Get (lit "algorithm")
                     else k0.algorithm } q) q hdig
  rw [hk4]
  simp only
  have t4' : k4.typ = k0.typ := by
    rw [t4, parseIssuer_typ]
  unfold KeyURI.parseTyped
  rcases htyp with ⟨ty, hper⟩ | ⟨ty, hc, n, hn⟩
  · rw [if_pos (by rw [t4', ty])]
    by_cases h0 : q.Get (lit "period") ≠ []
    · rcases hper with h | ⟨n, hn⟩
      · exact absurd h h0
      · rw [if_pos h0, hn]
        exact ⟨_, rfl⟩
    · rw [if_neg h0]
      exact ⟨_, rfl⟩
  · rw [if_neg (by rw [t4', ty]; decide), if_pos (by rw [t4', ty]), if_pos hc, hn]
    exact ⟨_, rfl⟩

/-- C13: for every URI with scheme otpauth, a valid type and a secret: a totp
URI without algorithm, digits and period parameters parses successfully with
algorithm = SHA1, digits = 6 and period = 30; in every successful parse each
default applies on its own when that parameter is absent (or empty); and a
hotp URI with a valid counter and without algorithm and digits parses with
algorithm = SHA1 and digits = 6. -/
theorem C13_defaults (uri : Str) (u : URL) (hu : urlParse uri = .ok u)
    (hs : u.Scheme = lit "otpauth") (ht : u.Host = lit "totp" ∨ u.Host = lit "hotp")
    (hsec : u.Query.Get (lit "secret") ≠ []) :
    (u.Host = lit "totp" → u.Query.Get (lit "algorithm") = [] →
      u.Query.Get (lit "digits") = [] → u.Query.Get (lit "period") = [] →
      ∃ k, ParseKeyURI uri = .ok k ∧ k.algorithm = lit "SHA1" ∧ k.digits = 6 ∧ k.period = 30) ∧
    (∀ k, ParseKeyURI uri = .ok k →
      (u.Query.Get (lit "algorithm") = [] → k.algorithm = lit "SHA1") ∧
      (u.Query.Get (lit "digits") = [] → k.digits = 6) ∧
      (u.Host = lit "totp" → u.Query.Get (lit "period") = [] → k.period = 30)) ∧
    (u.Host = lit "hotp" → u.Query.Get (lit "algorithm") = [] →
      u.Query.Get (lit "digits") = [] → u.Query.Get (lit "counter") ≠ [] →
      ∀ n, ParseUint (u.Query.Get (lit "counter")) = .ok n →
      ∃ k, ParseKeyURI uri = .ok k ∧ k.algorithm = lit "SHA1" ∧ k.digits = 6 ∧ k.counter = n) := by
  obtain ⟨k0, hp, ht0, ha0, hd0, -, -, -, hp0, -⟩ := parse_start uri u hu hs ht
  have key : ∀ k, ParseKeyURI uri = .ok k →
      (u.Query.Get (lit "algorithm") = [] → k.algorithm = lit "SHA1") ∧
      (u.Query.Get (lit "digits") = [] → k.digits = 6) ∧
      (u.Host = lit "totp" → u.Query.Get (lit "period") = [] → k.period = 30) := by
    intro k hk
    rw [hp] at hk
    obtain ⟨-, -, -, a, -, d, p, -⟩ := parseParams_ok _ _ _ hk
    refine ⟨fun h => ?_, fun h => ?_, fun hh h => ?_⟩
    · rcases a with ⟨_, e⟩ | ⟨ne, _⟩
      · rw [e, ha0]
      · exact absurd h ne
    · rcases d with ⟨_, e⟩ | ⟨ne, _⟩
      · rw [e, hd0]
      · exact absurd h ne
    · rcases (p (by rw [ht0, hh]; rfl)).2 with ⟨_, e⟩ | ⟨ne, _⟩
      · rw [e, hp0, if_pos (by rw [hh]; rfl)]
      · exact absurd h ne
  refine ⟨fun hh a d p => ?_, key, fun hh a d c n hn => ?_⟩
  · obtain ⟨k, hk⟩ := parseParams_succeeds k0 u.Query hsec (Or.inl a) (Or.inl d)
      (Or.inl ⟨by rw [ht0, hh]; rfl, Or.inl p⟩)
    rw [← hp] at hk
    obtain ⟨x, y, z⟩ := key k hk
    exact ⟨k, hk, x a, y d, z hh p⟩
  · obtain ⟨k, hk⟩ := parseParams_succeeds k0 u.Query hsec (Or.inl a) (Or.inl d)
      (Or.inr ⟨by rw [ht0, hh]; rfl, c, n, hn⟩)
    have hk' := hk
    rw [← hp] at hk
    obtain ⟨x, y, -⟩ := key k hk
    obtain ⟨-, -, -, -, -, -, -, hc⟩ := parseParams_ok _ _ _ hk'
    have := (hc (by rw [ht0, hh]; rfl)).2.2
    rw [hn] at this
    injection this with this
    exact ⟨k, hk, x a, y d, this.symm⟩

/-- C13 at the repository's test URI without algorithm, digits and period. -/
theorem C13_defaults_witness :
    ∃ k, ParseKeyURI (lit "otpauth://totp/test%40example.com?secret=4ezxc3dfa4y") = .ok k ∧
      k.algorithm = lit "SHA1" ∧ k.digits = 6 ∧ k.period = 30 :=
  (C13_defaults (lit "otpauth://totp/test%40example.com?secret=4ezxc3dfa4y")
    { Scheme := lit "otpauth", Host := lit "totp", Path := lit "/test@example.com",
      RawPath := lit "/test%40example.com", RawQuery := lit "secret=4ezxc3dfa4y" }
    (by decide) (by decide) (by decide) (by decide)).1
    (by decide) (by decide) (by decide) (by decide)

/-! ## Key URI parser: label and invariants -/

theorem ParseKeyURI_ok_inv (uri : Str) (k : KeyURI) (hk : ParseKeyURI uri = .ok k) :
    ∃ u, urlParse uri = .ok u ∧ u.Scheme = lit "otpauth" ∧
      (u.Host = totpType ∨ u.Host = hotpType) := by
  unfold ParseKeyURI at hk
  cases hu : urlParse uri with
  | error e =>
    rw [hu] at hk
    cases hk
  | ok u =>
    rw [hu] at hk
    simp only at hk
    by_cases hs : u.Scheme = lit "otpauth"
    · refine ⟨u, rfl, hs, ?_⟩
      rw [if_neg (not_not.2 hs)] at hk
      by_cases hv : otpType.valid u.Host = true
      · unfold otpType.valid at hv
        simpa using hv
      · rw [if_pos hv] at hk
        cases hk
    · rw [if_pos hs] at hk
      cases hk

theorem cut_spec (sep : Byte) (s : Str) :
    (cut sep s).2.2 = decide (sep ∈ s) ∧
    (sep ∈ s → (cut sep s).2.1 = (s.dropWhile (fun c => c ≠ sep)).drop 1) := by
  induction s with
  | nil =>
    constructor
    · rfl
    · intro h
      cases h
  | cons c cs ih =>
    by_cases h : c = sep
    · subst h
      rw [cut, if_pos rfl]
      constructor
      · simp
      · intro _
        simp [List.dropWhile]
    · rw [cut, if_neg h]
      constructor
      · simp only [ih.1, List.mem_cons]
        have : ¬ sep = c := fun e => h e.symm
        simp [this]
      · intro hm
        have hm' : sep ∈ cs := by
          rcases List.mem_cons.1 hm with e | e
          · exact absurd e.symm h
          · exact e
        simp only [ih.2 hm']
        simp [List.dropWhile, h]

theorem trimPrefix_slash (path : Str) :
    trimPrefix path (lit "/") = if path.head? = some (chr '/') then path.drop 1 else path := by
  unfold trimPrefix
  cases path with
  | nil => rfl
  | cons c t =>
    by_cases h : c = chr '/'
    · subst h
      have : (lit "/").isPrefixOf (chr '/' :: t) = true :=
        List.isPrefixOf_iff_prefix.2 (List.prefix_append [chr '/'] t)
      rw [if_pos this]
      rfl
    · have : ¬ (lit "/").isPrefixOf (c :: t) = true := by
        intro hp
        have hp := List.isPrefixOf_iff_prefix.1 hp
        obtain ⟨r, hr⟩ := hp
        have hr : chr '/' :: r = c :: t := hr
        injection hr with h1 _
        exact h h1.symm
      rw [if_neg this, if_neg (by simpa using h)]

/-- `parseUser` computes the label the way section 4.1 words it. -/
theorem parseUser_label (k0 : KeyURI) (path : Str) :
    (k0.parseUser path).user = specLabelFirstColon path := by
  unfold KeyURI.parseUser specLabelFirstColon
  simp only
  rw [trimPrefix_slash]
  generalize (if path.head? = some (chr '/') then path.drop 1 else path) = rest
  unfold splitN2
  obtain ⟨h1, h2⟩ := cut_spec (chr ':') rest
  by_cases hm : chr ':' ∈ rest
  · rw [if_pos hm]
    have : (cut (chr ':') rest).2.2 = true := by rw [h1]; simpa using hm
    simp only [this, if_true]
    show TrimSpace (cut (chr ':') rest).2.1 = _
    rw [h2 hm]
  · rw [if_neg hm]
    have : (cut (chr ':') rest).2.2 = false := by rw [h1]; simpa using hm
    simp only [this, Bool.false_eq_true, if_false]
    rfl

/-- C14: for every URL path, the label stored by ParseKeyURI is computed by
removing one leading slash, then, if the rest contains a colon, discarding
everything up to and including the first colon, and trimming surrounding
white space from what remains; with no colon the label is the whole trimmed
path. -/
theorem C14_label_after_first_colon (uri : Str) (u : URL) (k : KeyURI)
    (hu : urlParse uri = .ok u) (hk : ParseKeyURI uri = .ok k) :
    k.user = specLabelFirstColon u.Path ∧
    (∀ k0 : KeyURI, (k0.parseUser u.Path).user = specLabelFirstColon u.Path) := by
  obtain ⟨u', hu', hs, ht⟩ := ParseKeyURI_ok_inv uri k hk
  rw [hu] at hu'
  injection hu' with hu'
  subst hu'
  refine ⟨?_, fun k0 => parseUser_label k0 u.Path⟩
  rw [ParseKeyURI_of_parse uri u hu hs ht] at hk
  obtain ⟨-, hu2, -⟩ := parseParams_ok _ _ _ hk
  rw [hu2]
  exact parseUser_label _ _

/-- C14 at the two paths of the claim: `/Example: test@example.com` gives
`test@example.com` and `/a:b:c` gives `b:c`. -/
theorem C14_label_witness :
    (lit "test@example.com" = specLabelFirstColon (lit "/Example: test@example.com") ∧
      (∀ k0 : KeyURI, (k0.parseUser (lit "/Example: test@example.com")).user
        = specLabelFirstColon (lit "/Example: test@example.com"))) ∧
    (lit "b:c" = specLabelFirstColon (lit "/a:b:c") ∧
      (∀ k0 : KeyURI, (k0.parseUser (lit "/a:b:c")).user = specLabelFirstColon (lit "/a:b:c"))) :=
  ⟨C14_label_after_first_colon
      (lit "otpauth://totp/Example%3A%20test%40example.com?secret=AA")
      { Scheme := lit "otpauth", Host := lit "totp", Path := lit "/Example: test@example.com",
        RawPath := lit "/Example%3A%20test%40example.com", RawQuery := lit "secret=AA" }
      { typ := lit "totp", user := lit "test@example.com", secret := lit "AA",
        algorithm := lit "SHA1", digits := 6, period := 30 }
      (by decide) (by decide),
   C14_label_after_first_colon (lit "otpauth://totp/a:b:c?secret=AA")
      { Scheme := lit "otpauth", Host := lit "totp", Path := lit "/a:b:c",
        RawQuery := lit "secret=AA" }
      { typ := lit "totp", user := lit "b:c", secret := lit "AA",
        algorithm := lit "SHA1", digits := 6, period := 30 }
      (by decide) (by decide)⟩

theorem takeWhile_ne_append (sep : Byte) (l r : Str) (h : sep ∉ l) :
    (l ++ sep :: r).takeWhile (fun c => c ≠ sep) = l := by
  induction l with
  | nil => simp [List.takeWhile]
  | cons c cs ih =>
    have hc : c ≠ sep := fun e => h (by rw [e]; exact List.mem_cons_self _ _)
    have hcs : sep ∉ cs := fun e => h (List.mem_cons_of_mem _ e)
    rw [List.cons_append, List.takeWhile_cons_of_pos (by simpa using hc), ih hcs]

theorem dropWhile_ne_append (sep : Byte) (l r : Str) (h : sep ∉ l) :
    (l ++ sep :: r).dropWhile (fun c => c ≠ sep) = sep :: r := by
  induction l with
  | nil => simp [List.dropWhile]
  | cons c cs ih =>
    have hc : c ≠ sep := fun e => h (by rw [e]; exact List.mem_cons_self _ _)
    have hcs : sep ∉ cs := fun e => h (List.mem_cons_of_mem _ e)
    rw [List.cons_append, List.dropWhile_cons_of_pos (by simpa using hc), ih hcs]

theorem takeWhile_ne_self (sep : Byte) (l : Str) (h : sep ∉ l) :
    l.takeWhile (fun c => c ≠ sep) = l := by
  induction l with
  | nil => rfl
  | cons c cs ih =>
    have hc : c ≠ sep := fun e => h (by rw [e]; exact List.mem_cons_self _ _)
    have hcs : sep ∉ cs := fun e => h (List.mem_cons_of_mem _ e)
    rw [List.takeWhile_cons_of_pos (by simpa using hc), ih hcs]

/-- With at most one separator, what follows the last one is what follows the
first one. -/
theorem afterLast_eq_afterFirst (sep : Byte) (s : Str) (h : s.count sep ≤ 1) :
    (s.reverse.takeWhile (fun c => c ≠ sep)).reverse
      = if sep ∈ s then (s.dropWhile (fun c => c ≠ sep)).drop 1 else s := by
  by_cases hm : sep ∈ s
  · rw [if_pos hm]
    obtain ⟨a, b, hab, ha⟩ := List.eq_append_cons_of_mem hm
    subst hab
    have hb : sep ∉ b := by
      intro hb
      have h1 : 0 < b.count sep := List.count_pos_iff.2 hb
      simp only [List.count_append, List.count_cons_self] at h
      omega
    rw [dropWhile_ne_append sep a b ha]
    have hr : (a ++ sep :: b).reverse = b.reverse ++ sep :: a.reverse := by simp
    rw [hr, takeWhile_ne_append sep b.reverse a.reverse (by simpa using hb)]
    simp
  · rw [if_neg hm, takeWhile_ne_self sep s.reverse (by simpa using hm)]
    simp

theorem specLabel_first_eq_last (path : Str) (h : path.count (chr ':') ≤ 1) :
    specLabelFirstColon path = specLabelLastColon path := by
  unfold specLabelFirstColon specLabelLastColon
  simp only
  have hc : (if path.head? = some (chr '/') then path.drop 1 else path).count (chr ':') ≤ 1 := by
    split
    · exact le_trans (List.Sublist.count_le (List.drop_sublist 1 path) _) h
    · exact h
  generalize (if path.head? = some (chr '/') then path.drop 1 else path) = rest at hc
  rw [afterLast_eq_afterFirst (chr ':') rest hc]
  by_cases hm : chr ':' ∈ rest
  · rw [if_pos hm, if_pos hm]
  · rw [if_neg hm, if_neg hm]

/-- C15 as stated fails: for the path `/a:b:c` the portion after the last colon
is `c`, but the stored label is `b:c`, which contains a colon. -/
theorem C15_last_colon_counterexample :
    specLabelLastColon (lit "/a:b:c") = lit "c" ∧
    (KeyURI.parseUser {} (lit "/a:b:c")).user = lit "b:c" ∧
    ParseKeyURI (lit "otpauth://totp/a:b:c?secret=AA")
      = .ok { typ := lit "totp", user := lit "b:c", secret := lit "AA", algorithm := lit "SHA1",
              digits := 6, period := 30 } ∧
    chr ':' ∈ lit "b:c" ∧ lit "b:c" ≠ specLabelLastColon (lit "/a:b:c") := by
  decide

/-- C15 (amended): for every URL path, the label stored by ParseKeyURI is the
portion of the path (minus one leading slash) after its first colon, trimmed of
surrounding white space, or the whole trimmed path when there is no colon; it
is the portion after the last colon whenever the path contains at most one
colon. -/
theorem C15_label_first_colon (uri : Str) (u : URL) (k : KeyURI)
    (hu : urlParse uri = .ok u) (hk : ParseKeyURI uri = .ok k) :
    k.user = specLabelFirstColon u.Path ∧
    (u.Path.count (chr ':') ≤ 1 → k.user = specLabelLastColon u.Path) := by
  obtain ⟨u', hu', hs, ht⟩ := ParseKeyURI_ok_inv uri k hk
  rw [hu] at hu'
  injection hu' with hu'
  subst hu'
  rw [ParseKeyURI_of_parse uri u hu hs ht] at hk
  obtain ⟨-, hu2, -⟩ := parseParams_ok _ _ _ hk
  have h1 : k.user = specLabelFirstColon u.Path := by
    rw [hu2]
    exact parseUser_label _ _
  exact ⟨h1, fun hc => by rw [h1, specLabel_first_eq_last _ hc]⟩

/-- C15 (amended) at a path with one colon, and the first-colon label of
`/a:b:c`. -/
theorem C15_label_first_colon_witness :
    (lit "test@example.com" = specLabelFirstColon (lit "/Example: test@example.com") ∧
      ((lit "/Example: test@example.com").count (chr ':') ≤ 1 →
        lit "test@example.com" = specLabelLastColon (lit "/Example: test@example.com"))) ∧
    lit "b:c" = specLabelFirstColon (lit "/a:b:c") :=
  ⟨C15_label_first_colon
      (lit "otpauth://totp/Example%3A%20test%40example.com?secret=AA")
      { Scheme := lit "otpauth", Host := lit "totp", Path := lit "/Example: test@example.com",
        RawPath := lit "/Example%3A%20test%40example.com", RawQuery := lit "secret=AA" }
      { typ := lit "totp", user := lit "test@example.com", secret := lit "AA",
        algorithm := lit "SHA1", digits := 6, period := 30 }
      (by decide) (by decide),
   (C15_label_first_colon (lit "otpauth://totp/a:b:c?secret=AA")
      { Scheme := lit "otpauth", Host := lit "totp", Path := lit "/a:b:c",
        RawQuery := lit "secret=AA" }
      { typ := lit "totp", user := lit "b:c", secret := lit "AA",
        algorithm := lit "SHA1", digits := 6, period := 30 }
      (by decide) (by decide)).1⟩

theorem algorithm_of_hash (k : KeyURI) (h : k.hash ≠ none) :
    k.algorithm ∈ [lit "SHA1", lit "SHA256", lit "SHA512"] := by
  by_contra hn
  exact h (hash_eq_none k hn)

/-- What every successfully parsed KeyURI satisfies. -/
theorem ParseKeyURI_invariant (uri : Str) (k : KeyURI) (hk : ParseKeyURI uri = .ok k) :
    (k.typ = lit "totp" ∨ k.typ = lit "hotp") ∧ k.secret ≠ [] ∧
    k.algorithm ∈ [lit "SHA1", lit "SHA256", lit "SHA512"] := by
  obtain ⟨u, hu, hs, ht⟩ := ParseKeyURI_ok_inv uri k hk
  obtain ⟨k0, hp, ht0, ha0, -⟩ := parse_start uri u hu hs ht
  rw [hp] at hk
  obtain ⟨t, -, ⟨sne, se⟩, a, -⟩ := parseParams_ok _ _ _ hk
  refine ⟨?_, ?_, ?_⟩
  · rw [t, ht0]
    exact ht
  · rw [se]
    exact sne
  · rcases a with ⟨_, e⟩ | ⟨_, _, hh⟩
    · rw [e, ha0]
      decide
    · exact algorithm_of_hash k hh

/-- C18: every KeyURI that ParseKeyURI returns without error has type totp or
hotp, a non-empty secret and an algorithm among SHA1, SHA256, SHA512, so that
KeyURI.hash returns a hash constructor and not nil. -/
theorem C18_parsed_invariant (uri : Str) (k : KeyURI) (hk : ParseKeyURI uri = .ok k) :
    (k.typ = lit "totp" ∨ k.typ = lit "hotp") ∧ k.secret ≠ [] ∧
    k.algorithm ∈ [lit "SHA1", lit "SHA256", lit "SHA512"] ∧
    (∃ a, k.hash = some a) := by
  obtain ⟨t, s, a⟩ := ParseKeyURI_invariant uri k hk
  refine ⟨t, s, a, ?_⟩
  have := hash_ne_none k a
  cases h : k.hash with
  | none => exact absurd h this
  | some x => exact ⟨x, rfl⟩

/-- C18 at the repository's test URI with algorithm SHA256. -/
theorem C18_parsed_invariant_witness :
    (lit "totp" = lit "totp" ∨ lit "totp" = lit "hotp") ∧ lit "4ezxc3dfa4y" ≠ [] ∧
    lit "SHA256" ∈ [lit "SHA1", lit "SHA256", lit "SHA512"] ∧
    (∃ a, KeyURI.hash
      { typ := lit "totp", user := lit "x", secret := lit "4ezxc3dfa4y",
        algorithm := lit "SHA256", digits := 8, period := 60 } = some a) :=
  C18_parsed_invariant (lit "otpauth://totp/x?secret=4ezxc3dfa4y&algorithm=SHA256&digits=8&period=60")
    { typ := lit "totp", user := lit "x", secret := lit "4ezxc3dfa4y",
      algorithm := lit "SHA256", digits := 8, period := 60 }
    (by decide)

/-! ## Engine construction -/

theorem upperByte_ascii :
    ∀ c : Byte, decide ((upperByte c).val < 128) = decide (c.val < 128) := by
  decide

theorem all_ascii_map_upper (s : Str) :
    (s.map upperByte).all (fun c => decide (c.val < 128))
      = s.all (fun c => decide (c.val < 128)) := by
  induction s with
  | nil => rfl
  | cons c cs ih =>
    simp only [List.map_cons, List.all_cons, ih, upperByte_ascii]

theorem ToUpper_of_sameUpToCase (C : Codec)
    (hC : ∀ s1 s2, sameUpToCase s1 s2 → C.toUpperUnicode s1 = C.toUpperUnicode s2)
    (s1 s2 : Str) (h : sameUpToCase s1 s2) : ToUpper C s1 = ToUpper C s2 := by
  have ha : s1.all (fun c => decide (c.val < 128)) = s2.all (fun c => decide (c.val < 128)) := by
    rw [← all_ascii_map_upper s1, ← all_ascii_map_upper s2]
    unfold sameUpToCase at h
    rw [h]
  unfold ToUpper
  rw [ha]
  by_cases h2 : s2.all (fun c => decide (c.val < 128)) = true
  · rw [if_pos h2, if_pos h2]
    exact h
  · rw [if_neg h2, if_neg h2]
    exact hC s1 s2 h

/-- `NewHOTP` fails exactly when the decoder rejects the upper-cased secret,
with the decoder's error. -/
theorem NewHOTP_error_iff (C : Codec) (k : KeyURI) (e : CorruptInputError) :
    NewHOTP C k = .error e ↔ C.decodeBase32 (ToUpper C k.secret) = .error e := by
  unfold NewHOTP KeyURI.secretBytes
  cases h : C.decodeBase32 (ToUpper C k.secret) with
  | error err =>
    constructor
    · intro h1
      injection h1 with h1
      rw [h1]
    · intro h1
      injection h1 with h1
      rw [h1]
  | ok s =>
    constructor
    · intro h1
      cases h1
    · intro h1
      cases h1

theorem NewTOTP_error_iff (C : Codec) (k : KeyURI) (e : CorruptInputError) :
    NewTOTP C k = .error e ↔ NewHOTP C k = .error e := by
  unfold NewTOTP
  cases h : NewHOTP C k with
  | error err =>
    constructor
    · intro h1
      injection h1 with h1
      rw [h1]
    · intro h1
      injection h1 with h1
      rw [h1]
  | ok s =>
    constructor
    · intro h1
      cases h1
    · intro h1
      cases h1

/-- C16: the secret is case-insensitive on input. For two KeyURIs that differ
only in the case of the ASCII letters of the secret, secretBytes, NewHOTP and
NewTOTP give the same result (the same error, or engines with the same decoded
secret), so Generate and Next return the same code on both. The base32 decoder
and the Unicode branch of strings.ToUpper are parameters; the Unicode branch is
assumed to send strings that differ only in ASCII letter case to the same
string. -/
theorem C16_secret_case_insensitive (C : Codec)
    (hC : ∀ s1 s2, sameUpToCase s1 s2 → C.toUpperUnicode s1 = C.toUpperUnicode s2)
    (k1 k2 : KeyURI) (hs : sameUpToCase k1.secret k2.secret)
    (hrest : k2 = { k1 with secret := k2.secret }) :
    k1.secretBytes C = k2.secretBytes C ∧ NewHOTP C k1 = NewHOTP C k2 ∧
    NewTOTP C k1 = NewTOTP C k2 ∧
    (∀ h1 h2, NewHOTP C k1 = .ok h1 → NewHOTP C k2 = .ok h2 →
      h1.secret = h2.secret ∧
      ∀ L count, h1.Generate L count = h2.Generate L count ∧ h1.Next L = h2.Next L) ∧
    (∀ t1 t2, NewTOTP C k1 = .ok t1 → NewTOTP C k2 = .ok t2 →
      ∀ L ts, t1.Generate L ts = t2.Generate L ts) := by
  have hu := ToUpper_of_sameUpToCase C hC _ _ hs
  have e1 : k1.secretBytes C = k2.secretBytes C := by
    unfold KeyURI.secretBytes
    rw [hu]
  have hh : k2.hash = k1.hash :=
    (congrArg KeyURI.hash hrest : k2.hash = _)
  have hd : k2.digits = k1.digits :=
    (congrArg KeyURI.digits hrest : k2.digits = _)
  have hc : k2.counter = k1.counter :=
    (congrArg KeyURI.counter hrest : k2.counter = _)
  have hp : k2.period = k1.period :=
    (congrArg KeyURI.period hrest : k2.period = _)
  have e2 : NewHOTP C k1 = NewHOTP C k2 := by
    unfold NewHOTP
    rw [e1, hh, hd, hc]
  have e3 : NewTOTP C k1 = NewTOTP C k2 := by
    unfold NewTOTP
    rw [e2, hp]
  refine ⟨e1, e2, e3, ?_, ?_⟩
  · intro h1 h2 a1 a2
    rw [e2, a2] at a1
    injection a1 with a1
    subst a1
    exact ⟨rfl, fun _ _ => ⟨rfl, rfl⟩⟩
  · intro t1 t2 a1 a2
    rw [e3, a2] at a1
    injection a1 with a1
    subst a1
    exact fun _ _ => rfl

/-- C16 at the secret of the repository's tests, in lower and in upper case. -/
theorem C16_secret_case_witness :
    NewHOTP sampleCodec sampleHOTPKey
      = NewHOTP sampleCodec
          { sampleHOTPKey with
            secret := lit "4EZXC3DFA4Y645BDXBDEBBZZB733XDWFZDA56ZDDA5FD4ZCDACZX" } :=
  (C16_secret_case_insensitive sampleCodec (fun _ _ h => h) sampleHOTPKey
    { sampleHOTPKey with
      secret := lit "4EZXC3DFA4Y645BDXBDEBBZZB733XDWFZDA56ZDDA5FD4ZCDACZX" }
    (by decide) rfl).2.1

/-- When ParseKeyURI succeeds, in terms of the parsed URL: the secret enters
only through being non-empty. -/
theorem ParseKeyURI_ok_iff (uri : Str) (u : URL) (hu : urlParse uri = .ok u) :
    (∃ k, ParseKeyURI uri = .ok k) ↔
      (u.Scheme = lit "otpauth" ∧ (u.Host = lit "totp" ∨ u.Host = lit "hotp") ∧
        u.Query.Get (lit "secret") ≠ [] ∧
        (u.Query.Get (lit "algorithm") = [] ∨
          u.Query.Get (lit "algorithm") ∈ [lit "SHA1", lit "SHA256", lit "SHA512"]) ∧
        (u.Query.Get (lit "digits") = [] ∨ ∃ n, Atoi (u.Query.Get (lit "digits")) = .ok n) ∧
        ((u.Host = lit "totp" ∧
            (u.Query.Get (lit "period") = [] ∨
              ∃ n, Atoi (u.Query.Get (lit "period")) = .ok n)) ∨
          (u.Host = lit "hotp" ∧ u.Query.Get (lit "counter") ≠ [] ∧
            ∃ n, ParseUint (u.Query.Get (lit "counter")) = .ok n))) := by
  constructor
  · rintro ⟨k, hk⟩
    obtain ⟨u', hu', hs, ht⟩ := ParseKeyURI_ok_inv uri k hk
    rw [hu] at hu'
    injection hu' with hu'
    subst hu'
    obtain ⟨k0, hp, ht0, -⟩ := parse_start uri u hu hs ht
    rw [hp] at hk
    obtain ⟨-, -, ⟨sne, -⟩, a, -, d, pt, ph⟩ := parseParams_ok _ _ _ hk
    refine ⟨hs, ht, sne, ?_, ?_, ?_⟩
    · rcases a with ⟨e, _⟩ | ⟨_, e, hh⟩
      · exact Or.inl e
      · right
        rw [← e]
        exact algorithm_of_hash k hh
    · rcases d with ⟨e, _⟩ | ⟨_, e⟩
      · exact Or.inl e
      · exact Or.inr ⟨_, e⟩
    · rcases ht with h | h
      · left
        refine ⟨h, ?_⟩
        rcases (pt (by rw [ht0]; exact h)).2 with ⟨e, _⟩ | ⟨_, e⟩
        · exact Or.inl e
        · exact Or.inr ⟨_, e⟩
      · right
        obtain ⟨-, c, e⟩ := ph (by rw [ht0]; exact h)
        exact ⟨h, c, _, e⟩
  · rintro ⟨hs, ht, sne, a, d, t⟩
    obtain ⟨k0, hp, ht0, -⟩ := parse_start uri u hu hs ht
    rw [hp]
    refine parseParams_succeeds k0 u.Query sne a d ?_
    rcases t with ⟨h, x⟩ | ⟨h, x⟩
    · exact Or.inl ⟨by rw [ht0]; exact h, x⟩
    · exact Or.inr ⟨by rw [ht0]; exact h, x⟩

/-! ## The base32 decoder -/

theorem decodeMap_bad : ∀ c : Byte, decodeMap c = 0xFF ↔ ¬ base32Alphabet c := by
  decide

/-- On input without the byte 0xFF the inner loop fails exactly on a character
outside the alphabet among the next `n`, and otherwise reads `n` characters or
up to the end of the input. -/
theorem readQuantum_noFF (olen : Nat) :
    ∀ (n : Nat) (dbuf : List Nat) (src : Str), (∀ c ∈ src, c.val ≠ 0xFF) →
      ((∃ c ∈ src.take n, ¬ base32Alphabet c) → ∃ e, readQuantum olen n dbuf src = .error e) ∧
      ((∀ c ∈ src.take n, base32Alphabet c) →
        ∃ d, readQuantum olen n dbuf src = .ok (d, decide (src.length < n), src.drop n)) := by
  intro n
  induction n with
  | zero =>
    intro dbuf src _
    constructor
    · rintro ⟨c, hc, _⟩
      simp at hc
    · intro _
      exact ⟨dbuf, by simp [readQuantum]⟩
  | succ n ih =>
    intro dbuf src hff
    cases src with
    | nil =>
      constructor
      · rintro ⟨c, hc, _⟩
        simp at hc
      · intro _
        exact ⟨dbuf, by simp [readQuantum]⟩
    | cons c src =>
      have hc : ¬ (c.val = 0xFF ∧ dbuf.length ≥ 2 ∧ src.length < 8) :=
        fun h => hff c (List.mem_cons_self _ _) h.1
      have hsrc : ∀ x ∈ src, x.val ≠ 0xFF := fun x hx => hff x (List.mem_cons_of_mem _ hx)
      rw [readQuantum, if_neg hc]
      by_cases hb : decodeMap c = 0xFF
      · rw [if_pos hb]
        constructor
        · intro _
          exact ⟨_, rfl⟩
        · intro hall
          exact absurd (hall c (by simp)) ((decodeMap_bad c).1 hb)
      · rw [if_neg hb]
        have hca : base32Alphabet c := by
          by_contra h
          exact hb ((decodeMap_bad c).2 h)
        obtain ⟨i1, i2⟩ := ih (dbuf ++ [decodeMap c]) src hsrc
        constructor
        · rintro ⟨x, hx, hxa⟩
          rw [List.take_succ_cons] at hx
          rcases List.mem_cons.1 hx with e | e
          · rw [e] at hxa
            exact absurd hca hxa
          · exact i1 ⟨x, e, hxa⟩
        · intro hall
          obtain ⟨d, hd⟩ := i2 (fun x hx => hall x (by
            rw [List.take_succ_cons]
            exact List.mem_cons_of_mem _ hx))
          refine ⟨d, ?_⟩
          rw [hd]
          simp

/-- On input without the byte 0xFF the decoder loop fails exactly when a
character is outside the alphabet. -/
theorem decodeLoop_error_iff (olen : Nat) :
    ∀ (fuel : Nat) (src : Str), src.length ≤ fuel → (∀ c ∈ src, c.val ≠ 0xFF) →
      ((∃ e, decodeLoop olen fuel src = .error e) ↔ ∃ c ∈ src, ¬ base32Alphabet c) := by
  intro fuel
  induction fuel with
  | zero =>
    intro src hl _
    have : src = [] := List.length_eq_zero.1 (Nat.le_zero.1 hl)
    subst this
    constructor
    · rintro ⟨e, he⟩
      cases he
    · rintro ⟨c, hc, _⟩
      cases hc
  | succ fuel ih =>
    intro src hl hff
    by_cases h0 : src = []
    · subst h0
      constructor
      · rintro ⟨e, he⟩
        cases he
      · rintro ⟨c, hc, _⟩
        cases hc
    · rw [decodeLoop, if_neg h0]
      obtain ⟨q1, q2⟩ := readQuantum_noFF olen 8 [] src hff
      by_cases hbad : ∃ c ∈ src.take 8, ¬ base32Alphabet c
      · obtain ⟨e, he⟩ := q1 hbad
        rw [he]
        constructor
        · intro _
          obtain ⟨c, hc, hca⟩ := hbad
          exact ⟨c, List.mem_of_mem_take hc, hca⟩
        · intro _
          exact ⟨e, rfl⟩
      · have hall : ∀ c ∈ src.take 8, base32Alphabet c := by
          intro c hc
          by_contra h
          exact hbad ⟨c, hc, h⟩
        obtain ⟨d, hd⟩ := q2 hall
        rw [hd]
        simp only
        by_cases hlen : src.length < 8
        · rw [if_pos (by simpa using hlen)]
          constructor
          · rintro ⟨e, he⟩
            cases he
          · rintro ⟨c, hc, hca⟩
            rw [← List.take_of_length_le (le_of_lt hlen)] at hc
            exact absurd (hall c hc) hca
        · rw [if_neg (by simpa using hlen)]
          have hrl : (src.drop 8).length ≤ fuel := by
            rw [List.length_drop]
            omega
          have hrf : ∀ c ∈ src.drop 8, c.val ≠ 0xFF :=
            fun c hc => hff c (List.mem_of_mem_drop hc)
          have hrec := ih (src.drop 8) hrl hrf
          constructor
          · rintro ⟨e, he⟩
            cases hr : decodeLoop olen fuel (src.drop 8) with
            | error e1 =>
              obtain ⟨c, hc, hca⟩ := hrec.1 ⟨e1, hr⟩
              exact ⟨c, List.mem_of_mem_drop hc, hca⟩
            | ok out =>
              rw [hr] at he
              cases he
          · rintro ⟨c, hc, hca⟩
            have hc2 : c ∈ src.take 8 ++ src.drop 8 := by
              rw [List.take_append_drop]
              exact hc
            rcases List.mem_append.1 hc2 with h1 | h1
            · exact absurd (hall c h1) hca
            · obtain ⟨e, he⟩ := hrec.2 ⟨c, h1, hca⟩
              rw [he]
              exact ⟨e, rfl⟩

/-- `DecodeString` on a string without the byte 0xFF fails exactly when a
character other than `\r` and `\n` is outside the alphabet. -/
theorem DecodeString_error_iff (s : Str) (hff : ∀ c ∈ s, c.val ≠ 0xFF) :
    (∃ e, DecodeString s = .error e) ↔
      ∃ c ∈ s, c.val ≠ 13 ∧ c.val ≠ 10 ∧ ¬ base32Alphabet c := by
  unfold DecodeString
  rw [decodeLoop_error_iff _ _ (stripNewlines s) (le_refl _)
    (fun c hc => hff c (List.mem_of_mem_filter hc))]
  unfold stripNewlines
  constructor
  · rintro ⟨c, hc, hca⟩
    obtain ⟨h1, h2⟩ := List.mem_filter.1 hc
    have h2 : c.val ≠ 13 ∧ c.val ≠ 10 := by simpa using h2
    exact ⟨c, h1, h2.1, h2.2, hca⟩
  · rintro ⟨c, hc, h13, h10, hca⟩
    exact ⟨c, List.mem_filter.2 ⟨hc, by simp [h13, h10]⟩, hca⟩

/-- C17 as stated fails in the direction from an invalid secret to an error:
`AAA` is not valid unpadded base32 (no encoder produces a final group of three
characters), yet the URI parses, NewHOTP and NewTOTP return engines, and the
decoded secret is empty, because the decoder drops a final group that does not
complete a byte. -/
theorem C17_partial_group_counterexample :
    ParseKeyURI (lit "otpauth://totp/x?secret=AAA")
      = .ok { typ := lit "totp", user := lit "x", secret := lit "AAA", algorithm := lit "SHA1",
              digits := 6, period := 30 } ∧
    ToUpper sampleCodec (lit "AAA") = lit "AAA" ∧
    ¬ specValidBase32 (lit "AAA") ∧
    NewHOTP sampleCodec
        { typ := lit "totp", user := lit "x", secret := lit "AAA", algorithm := lit "SHA1",
          digits := 6, period := 30 }
      = .ok { secret := [], hash := some .sha1, digits := 6, counter := 0 } ∧
    NewTOTP sampleCodec
        { typ := lit "totp", user := lit "x", secret := lit "AAA", algorithm := lit "SHA1",
          digits := 6, period := 30 }
      = .ok { hotp := { secret := [], hash := some .sha1, digits := 6, counter := 0 },
              period := 30 } := by
  decide

/-- C17 (amended): secret decoding fails only at engine construction.
ParseKeyURI succeeds exactly under conditions in which the secret enters only
through being non-empty, and stores the value of the secret parameter
unchanged. With Go's decoder, for a KeyURI whose upper-cased secret has no byte
0xFF (strings.ToUpper produces none), NewHOTP and NewTOTP return an error
exactly when the upper-cased secret has a character other than CR and LF
outside the alphabet A..Z, 2..7; the length is not checked. So a secret that
upper-cases to valid unpadded base32 gives an engine, and the URI
`otpauth://totp/x?secret=1` parses while NewHOTP and NewTOTP fail on it. -/
theorem C17_secret_decoded_at_construction (U : Str → Str) (k : KeyURI)
    (hff : ∀ c ∈ ToUpper (goCodec U) k.secret, c.val ≠ 0xFF) :
    (∀ uri u, urlParse uri = .ok u →
      ((∃ k1, ParseKeyURI uri = .ok k1) ↔
        (u.Scheme = lit "otpauth" ∧ (u.Host = lit "totp" ∨ u.Host = lit "hotp") ∧
          u.Query.Get (lit "secret") ≠ [] ∧
          (u.Query.Get (lit "algorithm") = [] ∨
            u.Query.Get (lit "algorithm") ∈ [lit "SHA1", lit "SHA256", lit "SHA512"]) ∧
          (u.Query.Get (lit "digits") = [] ∨ ∃ n, Atoi (u.Query.Get (lit "digits")) = .ok n) ∧
          ((u.Host = lit "totp" ∧
              (u.Query.Get (lit "period") = [] ∨
                ∃ n, Atoi (u.Query.Get (lit "period")) = .ok n)) ∨
            (u.Host = lit "hotp" ∧ u.Query.Get (lit "counter") ≠ [] ∧
              ∃ n, ParseUint (u.Query.Get (lit "counter")) = .ok n))))) ∧
    (∀ uri u k1, urlParse uri = .ok u → ParseKeyURI uri = .ok k1 →
      k1.secret = u.Query.Get (lit "secret")) ∧
    ((∃ e, NewHOTP (goCodec U) k = .error e) ↔
      ∃ c ∈ ToUpper (goCodec U) k.secret, c.val ≠ 13 ∧ c.val ≠ 10 ∧ ¬ base32Alphabet c) ∧
    ((∃ e, NewTOTP (goCodec U) k = .error e) ↔
      ∃ c ∈ ToUpper (goCodec U) k.secret, c.val ≠ 13 ∧ c.val ≠ 10 ∧ ¬ base32Alphabet c) ∧
    (specValidBase32 (ToUpper (goCodec U) k.secret) →
      (∃ h, NewHOTP (goCodec U) k = .ok h) ∧ ∃ t, NewTOTP (goCodec U) k = .ok t) ∧
    (∃ k1 e, ParseKeyURI (lit "otpauth://totp/x?secret=1") = .ok k1 ∧
      NewHOTP (goCodec U) k1 = .error e ∧ NewTOTP (goCodec U) k1 = .error e) := by
  have hH : (∃ e, NewHOTP (goCodec U) k = .error e) ↔
      ∃ c ∈ ToUpper (goCodec U) k.secret, c.val ≠ 13 ∧ c.val ≠ 10 ∧ ¬ base32Alphabet c := by
    rw [← DecodeString_error_iff _ hff]
    constructor
    · rintro ⟨e, he⟩
      exact ⟨e, (NewHOTP_error_iff (goCodec U) k e).1 he⟩
    · rintro ⟨e, he⟩
      exact ⟨e, (NewHOTP_error_iff (goCodec U) k e).2 he⟩
  have hT : (∃ e, NewTOTP (goCodec U) k = .error e) ↔ ∃ e, NewHOTP (goCodec U) k = .error e := by
    constructor
    · rintro ⟨e, he⟩
      exact ⟨e, (NewTOTP_error_iff (goCodec U) k e).1 he⟩
    · rintro ⟨e, he⟩
      exact ⟨e, (NewTOTP_error_iff (goCodec U) k e).2 he⟩
  refine ⟨ParseKeyURI_ok_iff, ?_, hH, hT.trans hH, ?_, ?_⟩
  · intro uri u k1 hu hk
    obtain ⟨u2, hu2, hs, ht⟩ := ParseKeyURI_ok_inv uri k1 hk
    rw [hu] at hu2
    injection hu2 with hu2
    subst hu2
    obtain ⟨k0, hp, -⟩ := parse_start uri u hu hs ht
    rw [hp] at hk
    obtain ⟨-, -, ⟨-, se⟩, -⟩ := parseParams_ok _ _ _ hk
    exact se
  · intro hv
    have hno : ¬ ∃ c ∈ ToUpper (goCodec U) k.secret,
        c.val ≠ 13 ∧ c.val ≠ 10 ∧ ¬ base32Alphabet c := by
      rintro ⟨c, hc, -, -, hca⟩
      exact hca (hv.1 c hc)
    constructor
    · cases hr : NewHOTP (goCodec U) k with
      | error e => exact absurd (hH.1 ⟨e, hr⟩) hno
      | ok h => exact ⟨h, rfl⟩
    · cases hr : NewTOTP (goCodec U) k with
      | error e => exact absurd ((hT.trans hH).1 ⟨e, hr⟩) hno
      | ok t => exact ⟨t, rfl⟩
  · have hp : ParseKeyURI (lit "otpauth://totp/x?secret=1")
        = .ok { typ := lit "totp", user := lit "x", secret := lit "1", algorithm := lit "SHA1",
                digits := 6, period := 30 } := by
      decide
    have hh : NewHOTP (goCodec U)
        { typ := lit "totp", user := lit "x", secret := lit "1", algorithm := lit "SHA1",
          digits := 6, period := 30 } = .error 0 :=
      (NewHOTP_error_iff (goCodec U) _ 0).2
        (show DecodeString (lit "1") = .error 0 by decide)
    exact ⟨_, 0, hp, hh, (NewTOTP_error_iff (goCodec U) _ 0).2 hh⟩

/-- C17 (amended) at the secret of the repository's tests, which upper-cases
to valid base32: NewHOTP returns an engine. -/
theorem C17_secret_decoded_witness :
    specValidBase32 (ToUpper sampleCodec sampleHOTPKey.secret) ∧
    ((∃ h, NewHOTP sampleCodec sampleHOTPKey = .ok h) ∧
      ∃ t, NewTOTP sampleCodec sampleHOTPKey = .ok t) :=
  ⟨by decide,
   (C17_secret_decoded_at_construction (fun s => s.map upperByte) sampleHOTPKey
      (by decide)).2.2.2.2.1 (by decide)⟩

/-! ## Run-time faults of the engines -/

theorem TOTP_period_zero (L : Lib) (p : TOTP) (h : p.period = 0) (ts : Int) :
    p.Generate L ts = .error .divideByZero ∧ p.Expires ts = .error .divideByZero := by
  unfold TOTP.Generate TOTP.Expires
  rw [if_pos h, if_pos h]
  exact ⟨rfl, rfl⟩

theorem truncate_negative_digits (L : Lib) (p : HOTP) (mac : Str) (h : p.digits < 0) :
    ∃ e, p.truncate L mac = .error e := by
  unfold HOTP.truncate
  cases mac.getLast? with
  | none => exact ⟨_, rfl⟩
  | some last =>
    simp only
    by_cases hl : (last.val &&& 0xf) + 4 ≤ mac.length
    · rw [if_pos hl]
      have : pow10u32 L p.digits = 0 := by
        unfold pow10u32
        rw [if_pos h]
      rw [if_pos this]
      exact ⟨_, rfl⟩
    · rw [if_neg hl]
      exact ⟨_, rfl⟩

theorem generate_negative_digits (L : Lib) (p : HOTP) (cnt : Nat) (h : p.digits < 0) :
    ∃ e, p.generate L cnt = .error e := by
  unfold HOTP.generate
  cases p.hash with
  | none => exact ⟨_, rfl⟩
  | some a =>
    simp only
    obtain ⟨e, he⟩ := truncate_negative_digits L p (L.hmac a p.secret (HOTP.itob cnt)) h
    rw [he]
    exact ⟨_, rfl⟩

/-- The engines take period and digits from the KeyURI unchecked. -/
theorem NewTOTP_fields (C : Codec) (k : KeyURI) (t : TOTP) (h : NewTOTP C k = .ok t) :
    t.period = k.period ∧ t.hotp.digits = k.digits ∧ t.hotp.hash = k.hash := by
  unfold NewTOTP NewHOTP at h
  cases hs : k.secretBytes C with
  | error e =>
    rw [hs] at h
    cases h
  | ok s =>
    rw [hs] at h
    injection h with h
    subst h
    exact ⟨rfl, rfl, rfl⟩

/-- C19 fails on two URIs that ParseKeyURI accepts. With `period=0` the engine
NewTOTP returns has period 0, and TOTP.Generate and TOTP.Expires divide by it:
a run-time fault at every time. With `digits=-1` the modulus
`uint32(math.Pow10(-1))` is 0, and HOTP.Generate and HOTP.Next fault in
truncate for every counter. The secret `AAAAAAAA` decodes to five zero
bytes; the faults do not depend on it. -/
theorem C19_runtime_faults :
    ParseKeyURI (lit "otpauth://totp/x?secret=AAAAAAAA&period=0")
      = .ok { typ := lit "totp", user := lit "x", secret := lit "AAAAAAAA",
              algorithm := lit "SHA1", digits := 6, period := 0 } ∧
    NewTOTP sampleCodec
        { typ := lit "totp", user := lit "x", secret := lit "AAAAAAAA",
          algorithm := lit "SHA1", digits := 6, period := 0 }
      = .ok { hotp := { secret := [0, 0, 0, 0, 0], hash := some .sha1, digits := 6, counter := 0 },
              period := 0 } ∧
    (∀ (L : Lib) (ts : Int),
      TOTP.Generate L
          { hotp := { secret := [0, 0, 0, 0, 0], hash := some .sha1, digits := 6, counter := 0 },
            period := 0 } ts = .error .divideByZero ∧
      TOTP.Expires
          { hotp := { secret := [0, 0, 0, 0, 0], hash := some .sha1, digits := 6, counter := 0 },
            period := 0 } ts = .error .divideByZero) ∧
    ParseKeyURI (lit "otpauth://hotp/x?secret=AAAAAAAA&counter=0&digits=-1")
      = .ok { typ := lit "hotp", user := lit "x", secret := lit "AAAAAAAA",
              algorithm := lit "SHA1", digits := -1, counter := 0 } ∧
    NewHOTP sampleCodec
        { typ := lit "hotp", user := lit "x", secret := lit "AAAAAAAA",
          algorithm := lit "SHA1", digits := -1, counter := 0 }
      = .ok { secret := [0, 0, 0, 0, 0], hash := some .sha1, digits := -1, counter := 0 } ∧
    (∀ (L : Lib) (count : Nat),
      (∃ e, (HOTP.Generate L
          { secret := [0, 0, 0, 0, 0], hash := some .sha1, digits := -1, counter := 0 }
          count).1 = .error e) ∧
      (∃ e, (HOTP.Next L
          { secret := [0, 0, 0, 0, 0], hash := some .sha1, digits := -1, counter := count }).1
        = .error e)) ∧
    (HOTP.Generate sampleLib
        { secret := [0, 0, 0, 0, 0], hash := some .sha1, digits := -1, counter := 0 } 0).1
      = .error .divideByZero := by
  refine ⟨by decide, by decide, fun L ts => TOTP_period_zero L _ rfl ts, by decide, by decide,
    fun L count => ⟨?_, ?_⟩, by decide⟩
  · exact generate_negative_digits L
      { secret := [0, 0, 0, 0, 0], hash := some .sha1, digits := -1, counter := count }
      count (show (-1 : Int) < 0 by decide)
  · exact generate_negative_digits L
      { secret := [0, 0, 0, 0, 0], hash := some .sha1, digits := -1,
        counter := (count + 1) % 2 ^ 64 }
      ((count + 1) % 2 ^ 64) (show (-1 : Int) < 0 by decide)

/-! ## The validity window of a TOTP code -/

theorem counterAt_nonneg (p : TOTP) (ts : Int) (hp : 0 < p.period) (h0 : 0 ≤ ts)
    (hhi : ts < 2 ^ 63) : p.counterAt ts = (ts / p.period).toNat := by
  unfold TOTP.counterAt
  have hr := tdiv_range ts p.period hp (by omega) hhi
  rw [wrapInt64_of_range _ hr.1 hr.2, Int.tdiv_eq_ediv h0 (le_of_lt hp)]
  have a := Int.ediv_le_self p.period h0
  have b := Int.ediv_nonneg h0 (le_of_lt hp)
  unfold toUint64
  omega

theorem Generate_counterAt (L : Lib) (p : TOTP) (ts : Int) (hp : p.period ≠ 0) :
    p.Generate L ts = p.hotp.generate L (p.counterAt ts) := by
  unfold TOTP.Generate TOTP.counterAt
  rw [if_neg hp]

/-- C20: for a TOTP engine with period p > 0 and a time with Unix seconds
ts ≥ 0 such that ts + p fits an int64, Expires is the smallest multiple of p
strictly greater than ts (at an exact boundary it is ts + p); every time from ts
up to, but excluding, Expires is mapped by TOTP.Generate to the same counter as
ts, and Expires itself to that counter plus 1. -/
theorem C20_Expires_ends_window (L : Lib) (p : TOTP) (ts : Int)
    (hp : 0 < p.period) (h0 : 0 ≤ ts) (hov : ts + p.period < 2 ^ 63) :
    ∃ e, p.Expires ts = .ok e ∧ ts < e ∧ p.period ∣ e ∧
      (∀ m, ts < m → p.period ∣ m → e ≤ m) ∧
      (ts % p.period = 0 → e = ts + p.period) ∧
      (∀ ts2, ts ≤ ts2 → ts2 < e →
        p.counterAt ts2 = p.counterAt ts ∧
        p.Generate L ts2 = p.hotp.generate L (p.counterAt ts)) ∧
      p.counterAt e = p.counterAt ts + 1 ∧
      p.Generate L e = p.hotp.generate L (p.counterAt ts + 1) := by
  have m0 := Int.emod_nonneg ts (ne_of_gt hp)
  have m1 := Int.emod_lt_of_pos ts hp
  have hdm := Int.ediv_add_emod ts p.period
  have hq0 := Int.ediv_nonneg h0 (le_of_lt hp)
  have hw : wrapInt64 (wrapInt64 (ts + p.period) - Int.tmod ts p.period)
      = ts + p.period - ts % p.period := by
    rw [Int.tmod_eq_emod h0 (le_of_lt hp)]
    unfold wrapInt64
    omega
  have he : ts + p.period - ts % p.period = p.period * (ts / p.period + 1) := by
    rw [mul_add, mul_one]
    omega
  have hdiv : ∀ x, p.period * (ts / p.period) ≤ x → x < p.period * (ts / p.period + 1) →
      x / p.period = ts / p.period := by
    intro x hx1 hx2
    have := (Int.ediv_emod_unique (a := x) (b := p.period) (q := ts / p.period)
      (r := x - p.period * (ts / p.period)) hp).2 ⟨by omega, by omega, by
        rw [mul_add, mul_one] at hx2
        omega⟩
    exact this.1
  have hne : p.period ≠ 0 := ne_of_gt hp
  have cts : p.counterAt ts = (ts / p.period).toNat :=
    counterAt_nonneg p ts hp h0 (by omega)
  refine ⟨ts + p.period - ts % p.period, ?_, by omega, ?_, ?_, ?_, ?_, ?_, ?_⟩
  · unfold TOTP.Expires
    rw [if_neg hne, hw]
  · rw [he]
    exact Dvd.intro _ rfl
  · intro m hm hd
    obtain ⟨j, hj⟩ := hd
    rw [he, hj]
    have hj1 : ts / p.period + 1 ≤ j := by
      by_contra hc
      have hc : j ≤ ts / p.period := by omega
      have := Int.mul_le_mul_of_nonneg_left hc (le_of_lt hp)
      rw [hj] at hm
      omega
    exact Int.mul_le_mul_of_nonneg_left hj1 (le_of_lt hp)
  · intro hz
    rw [hz]
    omega
  · intro ts2 h1 h2
    have hc : p.counterAt ts2 = p.counterAt ts := by
      rw [cts, counterAt_nonneg p ts2 hp (by omega) (by omega),
        hdiv ts2 (by omega) (by rw [← he]; exact h2)]
    rw [Generate_counterAt L p ts2 hne, hc]
    exact ⟨rfl, rfl⟩
  · rw [cts, counterAt_nonneg p _ hp (by omega) (by omega), he,
      Int.mul_ediv_cancel_left _ hne]
    omega
  · rw [Generate_counterAt L p _ hne]
    congr 1
    rw [cts, counterAt_nonneg p _ hp (by omega) (by omega), he,
      Int.mul_ediv_cancel_left _ hne]
    omega

/-- C20 at period 30: at time 31 the window ends at 60, and at the boundary 60
it ends at 90. -/
theorem C20_Expires_window_witness :
    (∃ e, TOTP.Expires ⟨sampleHOTP, 30⟩ 31 = .ok e ∧ 31 < e ∧ (30 : Int) ∣ e) ∧
    (∃ e, TOTP.Expires ⟨sampleHOTP, 30⟩ 60 = .ok e ∧ e = 60 + 30) :=
  ⟨(C20_Expires_ends_window sampleLib ⟨sampleHOTP, 30⟩ 31 (by decide) (by decide)
      (by decide)).imp (fun _ h => ⟨h.1, h.2.1, h.2.2.1⟩),
   (C20_Expires_ends_window sampleLib ⟨sampleHOTP, 30⟩ 60 (by decide) (by decide)
      (by decide)).imp (fun _ h => ⟨h.1, h.2.2.2.2.1 (by decide)⟩)⟩

end Otp
